import Mathlib

/-!
# uBlasKrylovSolver

A shallow embedding of `src/kernel/la/uBlasKrylovSolver.cpp` (restarted GMRES and
BiCGStab behind the `solve` facade) together with the properties established for it.

The C++ scalar type `real` (a `double`) is kept abstract: every function takes the
primitive operations as a record `RealOps R`.  Properties of the control flow are
proved for every such record; `Dbl` is an executable instance with the special
values of IEEE arithmetic (NaN, infinities) on top of exact fractions.
-/

namespace Dolfin

/-! ## Scalars -/

/-- The primitive operations the solver performs on values of the C++ type `real`. -/
structure RealOps (R : Type) where
  zero : R
  add : R → R → R
  sub : R → R → R
  mul : R → R → R
  div : R → R → R
  neg : R → R
  sqrt : R → R
  fabs : R → R
  lt : R → R → Bool

/-! ## Vectors (`ublas::vector<double>`, `DenseVector`) -/

section VectorOps

variable {R : Type} (F : RealOps R)

/-- The vector of `n` zeros, as `clear()` leaves a vector of length `n`. -/
def vzero (n : Nat) : List R := List.replicate n F.zero

/-- Modelled from the spec: `DenseVector::init(n)` (the class is not part of the translated
file) resets the vector to zero of length `n`, whatever it held; the comment at the call
in `solve` says that this erases the initial guess. -/
def init (_x : List R) (n : Nat) : List R := vzero F n

/-- Entry-wise `u + v`. -/
def vadd (u v : List R) : List R := List.zipWith F.add u v

/-- Entry-wise `u - v`. -/
def vsub (u v : List R) : List R := List.zipWith F.sub u v

/-- Unary minus `-v`. -/
def vneg (v : List R) : List R := v.map F.neg

/-- Scalar times vector `a*v`. -/
def vscale (a : R) (v : List R) : List R := v.map (fun t => F.mul a t)

/-- Vector divided by a scalar `v/a`. -/
def vdiv (v : List R) (a : R) : List R := v.map (fun t => F.div t a)

/-- The sum `inner_prod(u, v)`, accumulated from zero in index order. -/
def inner_prod (u v : List R) : R := (List.zipWith F.mul u v).foldl F.add F.zero

/-- The Euclidean norm `norm_2(v)`. -/
def norm_2 (v : List R) : R := F.sqrt (inner_prod F v v)

/-- Read entry `i` of a vector (`v(i)`). -/
def vget (v : List R) (i : Nat) : R := v.getD i F.zero

end VectorOps

/-! ## The operator -/

/-- Modelled from the spec: the class `uBlasSparseMatrix` (its header is not part of the
translated file) as the operator capability of the spec, the two dimensions `A.size(0)`
(rows) and `A.size(1)` (columns) and the product `v ↦ A·v` that `axpy_prod` computes.
The solver uses nothing else of the matrix. -/
structure uBlasSparseMatrix (R : Type) where
  size : Nat → Nat
  prod : List R → List R

/-- The call `axpy_prod(A, v, w, init)`: `w = A·v` when `init` is set, `w += A·v`
otherwise. -/
def axpy_prod {R : Type} (F : RealOps R) (A : uBlasSparseMatrix R) (v w : List R)
    (init : Bool) : List R :=
  if init then A.prod v else vadd F w (A.prod v)

/-! ## Diagnostics and parameters -/

/-- Modelled from the spec: the diagnostics sink behind the macros `dolfin_info`,
`dolfin_warning` and `dolfin_error` (from `dolfin_log.h`, not part of the translated file)
and the parameter source behind `get`.  An event records one use of them: a message
(format string and arguments) with its severity, or a look-up `get(key)`. -/
inductive Event where
  | info (msg : String) (args : List Nat)
  | warning (msg : String)
  | error (msg : String)
  | get (key : String)
deriving DecidableEq, Repr

/-- Modelled from the spec: the parameter source behind `Parametrized::get` (that class is
not part of the translated file), a keyed lookup giving the six values named in
`readParameters`, each under its key. -/
structure ParameterSource (R : Type) where
  relative_tolerance : R
  absolute_tolerance : R
  divergence_limit : R
  maximum_iterations : Nat
  gmres_restart : Nat
  report : Bool

/-- Modelled from the spec: the enumeration `uBlasKrylovSolver::Type` (declared in
`uBlasKrylovSolver.h`, not part of the translated file) with the three enumerators the
`switch` in `solve` names; `unknown v` stands for a value that is none of them (the
`default:` branch). -/
inductive SolverType where
  | gmres
  | bicgstab
  | default_solver
  | unknown (v : Nat)
deriving DecidableEq, Repr

/-- The data members of a `uBlasKrylovSolver` object, as the member functions use them
(the class declaration is in `uBlasKrylovSolver.h`, not part of the translated file).  The
constructors set `type`, `report = false` and `parameters_read = false`; the other members
hold whatever they held before.  `max_it` and `restart` are `uint` in the source; the
counters compared with them never pass them, so nothing wraps around. -/
structure uBlasKrylovSolver (R : Type) where
  type : SolverType
  report : Bool
  parameters_read : Bool
  rtol : R
  atol : R
  div_tol : R
  max_it : Nat
  restart : Nat

/-- The constructor `uBlasKrylovSolver(Type solver)`; `junk` supplies the contents of the
members the constructor leaves unset. -/
def uBlasKrylovSolver.new {R : Type} (solver : SolverType) (junk : uBlasKrylovSolver R) :
    uBlasKrylovSolver R :=
  { junk with type := solver, report := false, parameters_read := false }

/-- The member function `readParameters`: copy the six parameters and remember that this
was done. -/
def readParameters {R : Type} (P : ParameterSource R) (self : uBlasKrylovSolver R) :
    uBlasKrylovSolver R :=
  { self with
    rtol := P.relative_tolerance
    atol := P.absolute_tolerance
    div_tol := P.divergence_limit
    max_it := P.maximum_iterations
    restart := P.gmres_restart
    report := P.report
    parameters_read := true }

/-- The look-ups `readParameters` performs, in order. -/
def readParametersEvents : List Event :=
  [Event.get "Krylov relative tolerance", Event.get "Krylov absolute tolerance",
   Event.get "Krylov divergence limit", Event.get "Krylov maximum iterations",
   Event.get "Krylov GMRES restart", Event.get "Krylov report"]

/-- What an engine hands back: the solution vector, the returned iteration count, the
`converged` flag, and the values of the locals `r_norm` and `r0_norm` (`beta0` in GMRES)
when it returned. -/
structure EngineExit (R : Type) where
  x : List R
  iterations : Nat
  converged : Bool
  r_norm : R
  r0_norm : R

/-! ## BiCGStab -/

/-- The variables of `bicgstabSolver` that change in its loop. -/
structure BicgstabState (R : Type) where
  x : List R
  r : List R
  p : List R
  s : List R
  Ap : List R
  As : List R
  alpha : R
  beta : R
  omega : R
  r_norm : R
  r_rstar0 : R
  r_rstar1 : R
  converged : Bool
  iteration : Nat

section Bicgstab

variable {R : Type} (F : RealOps R) (self : uBlasKrylovSolver R) (A : uBlasSparseMatrix R)

/-- The guard of the `while` loop of `bicgstabSolver`. -/
def bicgstabGuard (r0_norm : R) (st : BicgstabState R) : Bool :=
  decide (st.iteration < self.max_it) && !st.converged &&
    F.lt (F.div st.r_norm r0_norm) self.div_tol

/-- One pass through the body of the `while` loop of `bicgstabSolver`. -/
def bicgstabStep (rstar : List R) (r0_norm : R) (st : BicgstabState R) : BicgstabState R :=
  let Ap := axpy_prod F A st.p st.Ap true
  let alpha := F.div st.r_rstar1 (inner_prod F Ap rstar)
  let s := vsub F st.r (vscale F alpha Ap)
  let As := axpy_prod F A s st.As true
  let omega := F.div (inner_prod F As s) (inner_prod F As As)
  let x := vadd F st.x (vadd F (vscale F alpha st.p) (vscale F omega s))
  let r := vsub F s (vscale F omega As)
  let r_norm := norm_2 F r
  if F.lt (F.div r_norm r0_norm) self.rtol || F.lt r_norm self.atol then
    { st with Ap := Ap, alpha := alpha, s := s, As := As, omega := omega, x := x, r := r,
              r_norm := r_norm, converged := true, iteration := st.iteration + 1 }
  else
    let r_rstar0 := st.r_rstar1
    let r_rstar1 := inner_prod F r rstar
    let beta := F.mul (F.div r_rstar1 r_rstar0) (F.div alpha omega)
    let p := vsub F (vadd F r (vscale F beta st.p)) (vscale F (F.mul beta omega) Ap)
    { st with Ap := Ap, alpha := alpha, s := s, As := As, omega := omega, x := x, r := r,
              r_norm := r_norm, r_rstar0 := r_rstar0, r_rstar1 := r_rstar1, beta := beta,
              p := p, iteration := st.iteration + 1 }

/-- The `while` loop of `bicgstabSolver`, run for at most `n` passes.  The loop counts
`iteration` up from `0` and stops at `max_it`, so `n = max_it` passes are all it can make
(`bicgstabLoop_guard`). -/
def bicgstabLoop (rstar : List R) (r0_norm : R) : Nat → BicgstabState R → BicgstabState R
  | 0, st => st
  | n + 1, st =>
    if bicgstabGuard F self r0_norm st then
      bicgstabLoop rstar r0_norm n (bicgstabStep F self A rstar r0_norm st)
    else st

/-- The state of `bicgstabSolver` when it reaches its loop.  The vectors `s`, `Ap` and `As`,
allocated without initialising, are taken as zero; they are written before they are
read. -/
def bicgstabInit (x b r : List R) : BicgstabState R :=
  let size := A.size 0
  { x := x, r := r, p := r, s := vzero F size, Ap := vzero F size, As := vzero F size,
    alpha := F.zero, beta := F.zero, omega := F.zero, r_norm := F.zero,
    r_rstar0 := F.zero, r_rstar1 := inner_prod F r b, converged := false, iteration := 0 }

/-- The warning `bicgstabSolver` starts with. -/
def bicgstabWarning : Event :=
  Event.warning "Preconditioning has not yet been implemented for the uBlas BiCGStab solver."

/-- The member function `bicgstabSolver(A, x, b, converged)`: the messages it emits and
what it returns. -/
def bicgstabSolver (x b : List R) : List Event × EngineExit R :=
  let r := axpy_prod F A (vneg F x) b false
  let r0_norm := norm_2 F r
  if F.lt r0_norm self.atol then
    ([bicgstabWarning],
      { x := x, iterations := 0, converged := true, r_norm := F.zero, r0_norm := r0_norm })
  else
    let st := bicgstabLoop F self A b r0_norm self.max_it (bicgstabInit F A x b r)
    ([bicgstabWarning],
      { x := st.x, iterations := st.iteration, converged := st.converged,
        r_norm := st.r_norm, r0_norm := r0_norm })

end Bicgstab

/-! ## GMRES -/

/-- The variables of `gmresSolver` that change in its loops.  `V` and `H` are kept as lists
of columns (both are column-major in the source).  A column of `H` is kept whole; only
its entries on and above the diagonal, the ones the triangular matrix of the source
stores, are ever read. -/
structure GmresState (R : Type) where
  x : List R
  r : List R
  H : List (List R)
  h : List R
  gamma : List R
  V : List (List R)
  w : List R
  c : List R
  s : List R
  r_norm : R
  beta0 : R
  converged : Bool
  iteration : Nat
  subiteration : Nat
  j : Nat

section Gmres

variable {R : Type} (F : RealOps R) (self : uBlasKrylovSolver R) (A : uBlasSparseMatrix R)

/-- Column `j` of a matrix kept as a list of columns (`column(V, j)`). -/
def column (V : List (List R)) (j : Nat) : List R := V.getD j []

/-- The loop `for (i = 0; i <= j; ++i)` of the modified Gram-Schmidt procedure, acting on
the pair `(w, h)`. -/
def gramSchmidt (V : List (List R)) (j : Nat) (w h : List R) : List R × List R :=
  (List.range (j + 1)).foldl
    (fun wh i =>
      let hi := inner_prod F wh.1 (column V i)
      (vsub F wh.1 (vscale F hi (column V i)), wh.2.set i hi))
    (w, h)

/-- The loop `for (i = 0; i < j; ++i)` applying the stored Givens rotations to `h`. -/
def applyGivens (c s : List R) (j : Nat) (h : List R) : List R :=
  (List.range j).foldl
    (fun h i =>
      let temp1 := vget F h i
      let temp2 := vget F h (i + 1)
      let h := h.set i (F.sub (F.mul (vget F c i) temp1) (F.mul (vget F s i) temp2))
      h.set (i + 1) (F.add (F.mul (vget F s i) temp1) (F.mul (vget F c i) temp2)))
    h

/-- The guard of the inner `while` loop of `gmresSolver`; `beta` is the residual norm of
the current restart cycle. -/
def gmresInnerGuard (beta : R) (st : GmresState R) : Bool :=
  decide (st.subiteration < self.restart) && decide (st.iteration < self.max_it) &&
    !st.converged && F.lt (F.div st.r_norm beta) self.div_tol

/-- One pass through the body of the inner `while` loop of `gmresSolver`. -/
def gmresStep (st : GmresState R) : GmresState R :=
  let j := st.j
  let w := axpy_prod F A (column st.V j) st.w true
  let wh := gramSchmidt F st.V j w st.h
  let w := wh.1
  let h := wh.2.set (j + 1) (norm_2 F w)
  let V := st.V.set (j + 1) (vdiv F w (vget F h (j + 1)))
  let h := applyGivens F st.c st.s j h
  let nu := F.sqrt (F.add (F.mul (vget F h j) (vget F h j))
    (F.mul (vget F h (j + 1)) (vget F h (j + 1))))
  let c := st.c.set j (F.div (vget F h j) nu)
  let s := st.s.set j (F.div (F.neg (vget F h (j + 1))) nu)
  let h := h.set j (F.sub (F.mul (vget F c j) (vget F h j))
    (F.mul (vget F s j) (vget F h (j + 1))))
  let temp1 := F.sub (F.mul (vget F c j) (vget F st.gamma j))
    (F.mul (vget F s j) (vget F st.gamma (j + 1)))
  let gamma := st.gamma.set (j + 1)
    (F.add (F.mul (vget F s j) (vget F st.gamma j))
      (F.mul (vget F c j) (vget F st.gamma (j + 1))))
  let gamma := gamma.set j temp1
  let r_norm := F.fabs (vget F gamma (j + 1))
  let H := st.H.set j (h.take self.restart)
  { st with
    w := w, h := h, V := V, c := c, s := s, gamma := gamma, r_norm := r_norm, H := H
    converged :=
      if F.lt (F.div r_norm st.beta0) self.rtol || F.lt r_norm self.atol then true
      else st.converged
    iteration := st.iteration + 1
    subiteration := st.subiteration + 1
    j := st.j + 1 }

/-- The inner `while` loop of `gmresSolver`, run for at most `n` passes.  It counts
`subiteration` up from `0` and stops at `restart`, so `n = restart` passes are all it can
make (`gmresInner_guard`). -/
def gmresInner (beta : R) : Nat → GmresState R → GmresState R
  | 0, st => st
  | n + 1, st =>
    if gmresInnerGuard F self beta st then gmresInner beta n (gmresStep F self A st)
    else st

/-- The call `inplace_solve(Htrunc, g, upper_tag())` on the leading `k × k` block of `H`
and the first `k` entries of `gamma`: back-substitution, last unknown first. -/
def inplace_solve (H : List (List R)) (k : Nat) (gamma : List R) : List R :=
  (List.range k).reverse.foldl
    (fun g n =>
      let t := F.div (vget F g n) (vget F (column H n) n)
      (List.range n).foldl
        (fun g m => g.set m (F.sub (vget F g m) (F.mul (vget F (column H n) m) t)))
        (g.set n t))
    gamma

/-- The call `axpy_prod(v, g, x, false)` with `v` the first `k` columns of `V`:
`x += V[:, 0..k) · g`, one column at a time. -/
def addColumns (V : List (List R)) (k : Nat) (g x : List R) : List R :=
  (List.range k).foldl
    (fun x j => vadd F x ((column V j).map (fun t => F.mul t (vget F g j))))
    x

/-- The guard of the outer `while` loop of `gmresSolver`. -/
def gmresGuard (st : GmresState R) : Bool :=
  decide (st.iteration < self.max_it) && !st.converged

/-- What `gmresSolver` returns from state `st`. -/
def gmresExit (st : GmresState R) : EngineExit R :=
  { x := st.x, iterations := st.iteration, converged := st.converged,
    r_norm := st.r_norm, r0_norm := st.beta0 }

/-- The part of a restart cycle after the test `beta < atol` has failed: seed `gamma` and
`V`, run the inner loop, solve the triangular system and update `x`. -/
def gmresCycle (r : List R) (beta beta0 : R) (st : GmresState R) : GmresState R :=
  let gamma := (vzero F (self.restart + 1)).set 0 beta
  let V := st.V.set 0 (vdiv F r beta)
  let st1 := gmresInner F self A beta self.restart
    { st with r := r, beta0 := beta0, gamma := gamma, V := V, subiteration := 0, j := 0 }
  let g := inplace_solve F st1.H st1.subiteration st1.gamma
  { st1 with gamma := g, x := addColumns F st1.V st1.subiteration g st1.x }

/-- The outer `while` loop of `gmresSolver`.  Nothing in the source bounds the number of
restart cycles, so the loop is run with a budget of `fuel` cycles: `none` means that the
loop is still running when the budget is used up, `some e` that the function returned
`e`. -/
def gmresLoop (b : List R) : Nat → GmresState R → Option (EngineExit R)
  | 0, st => if gmresGuard self st then none else some (gmresExit st)
  | fuel + 1, st =>
    if gmresGuard self st then
      let r := axpy_prod F A (vneg F st.x) b false
      let beta := norm_2 F r
      let beta0 := if st.iteration = 0 then beta else st.beta0
      if F.lt beta self.atol then
        some { x := st.x, iterations := st.iteration, converged := true,
               r_norm := st.r_norm, r0_norm := beta0 }
      else gmresLoop b fuel (gmresCycle F self A r beta beta0 st)
    else some (gmresExit st)

/-- The state of `gmresSolver` when it reaches its outer loop.  The vectors and matrices
the source allocates without initialising are taken as zero; every entry of them is
written before it is read. -/
def gmresInit (x : List R) : GmresState R :=
  let size := A.size 0
  { x := x, r := vzero F size,
    H := List.replicate self.restart (vzero F self.restart),
    h := vzero F (self.restart + 1), gamma := vzero F (self.restart + 1),
    V := List.replicate (self.restart + 1) (vzero F size), w := vzero F size,
    c := vzero F self.restart, s := vzero F self.restart,
    r_norm := F.zero, beta0 := F.zero, converged := false, iteration := 0,
    subiteration := 0, j := 0 }

/-- The warning `gmresSolver` starts with. -/
def gmresWarning : Event :=
  Event.warning "Preconditioning has not yet been implemented for the uBlas GMRES solver."

/-- The member function `gmresSolver(A, x, b, converged)` with a budget of `fuel` restart
cycles: the messages it emits and, when it returns within the budget, what it returns. -/
def gmresSolver (fuel : Nat) (x b : List R) : List Event × Option (EngineExit R) :=
  ([gmresWarning], gmresLoop F self A b fuel (gmresInit F self A x))

end Gmres

/-! ## The facade `solve` -/

/-- How a call of `solve` ends.  Each case carries the solver object and the vector `x` as
the call leaves them and the events of the call so far. -/
inductive Outcome (R : Type) where
  /-- Aborted by `dolfin_error`. -/
  | dolfin_error (self : uBlasKrylovSolver R) (x : List R) (log : List Event)
  /-- Still inside `gmresSolver` when the budget of restart cycles is used up. -/
  | running (self : uBlasKrylovSolver R) (log : List Event)
  /-- Returned `iterations`; `converged` is the value of that local variable on return. -/
  | returned (self : uBlasKrylovSolver R) (x : List R) (iterations : Nat) (converged : Bool)
      (log : List Event)

section Solve

variable {R : Type} (F : RealOps R)

/-- Modelled from the spec: the macro `dolfin_error` (from `dolfin_log.h`, not part of the
translated file) is fatal and aborts the call; it is handed the message. -/
def dolfin_error (self : uBlasKrylovSolver R) (x : List R) (log : List Event) (msg : String) :
    Outcome R :=
  Outcome.dolfin_error self x (log ++ [Event.error msg])

/-- The warning of the `default:` branch of the `switch` in `solve`. -/
def unknownTypeWarning : Event :=
  Event.warning "Requested solver type unknown. USing BiCGStab."

/-- The warning about the solver type that `solve` emits before it runs the engine: none
for the three enumerators. -/
def typeWarnings : SolverType → List Event
  | SolverType.unknown _ => [unknownTypeWarning]
  | _ => []

/-- The `switch (type)` of `solve`: the messages emitted and the result of the engine
chosen. -/
def dispatch (fuel : Nat) (self : uBlasKrylovSolver R) (A : uBlasSparseMatrix R)
    (x b : List R) : List Event × Option (EngineExit R) :=
  match self.type with
  | SolverType.gmres => gmresSolver F self A fuel x b
  | SolverType.bicgstab =>
    let res := bicgstabSolver F self A x b
    (res.1, some res.2)
  | SolverType.default_solver =>
    let res := bicgstabSolver F self A x b
    (res.1, some res.2)
  | SolverType.unknown _ =>
    let res := bicgstabSolver F self A x b
    (unknownTypeWarning :: res.1, some res.2)

/-- The messages of the final convergence check of `solve`. -/
def convergenceEvents (report converged : Bool) (iterations : Nat) : List Event :=
  if !converged then [Event.warning "Krylov solver failed to converge."]
  else if report then [Event.info "Krylov solver converged in %d iterations." [iterations]]
  else []

/-- The step `if (!parameters_read) readParameters();` of `solve`: the solver object
afterwards and the look-ups made. -/
def readIfNeeded (P : ParameterSource R) (self : uBlasKrylovSolver R) :
    uBlasKrylovSolver R × List Event :=
  if !self.parameters_read then (readParameters P self, readParametersEvents) else (self, [])

/-- The member function `solve(A, x, b)`, called on the solver object `self` while the
parameter source holds `P`, with a budget of `fuel` GMRES restart cycles. -/
def solve (fuel : Nat) (P : ParameterSource R) (self : uBlasKrylovSolver R)
    (A : uBlasSparseMatrix R) (x b : List R) : Outcome R :=
  let M := A.size 0
  let N := A.size 1
  if N ≠ b.length then
    dolfin_error self x [] "Non-matching dimensions for linear system."
  else
    let x := init F x b.length
    let self1 := (readIfNeeded P self).1
    let log1 := (readIfNeeded P self).2
    let log2 :=
      if self1.report then
        log1 ++ [Event.info "Solving linear system of size %d x %d (uBlas Krylov solver)."
          [M, N]]
      else log1
    match dispatch F fuel self1 A x b with
    | (log3, none) => Outcome.running self1 (log2 ++ log3)
    | (log3, some e) =>
      Outcome.returned self1 e.x e.iterations e.converged
        (log2 ++ log3 ++ convergenceEvents self1.report e.converged e.iterations)

/-- Whether the call was aborted by `dolfin_error`. -/
def Outcome.failed : Outcome R → Bool
  | Outcome.dolfin_error _ _ _ => true
  | _ => false

/-- The solver object as the call leaves it. -/
def Outcome.solver : Outcome R → uBlasKrylovSolver R
  | Outcome.dolfin_error self _ _ => self
  | Outcome.running self _ => self
  | Outcome.returned self _ _ _ _ => self

/-- The events of the call. -/
def Outcome.log : Outcome R → List Event
  | Outcome.dolfin_error _ _ log => log
  | Outcome.running _ log => log
  | Outcome.returned _ _ _ _ log => log

/-- The output of a call that returned: solution vector, iteration count and `converged`
flag. -/
def Outcome.result : Outcome R → Option (List R × Nat × Bool)
  | Outcome.returned _ x iterations converged _ => some (x, iterations, converged)
  | _ => none

/-- The output `(x, iterations, converged)` of an engine. -/
def EngineExit.result (e : EngineExit R) : List R × Nat × Bool :=
  (e.x, e.iterations, e.converged)

end Solve

/-! ## An executable scalar type with the IEEE special values -/

/-- Values of a `double` as far as the special cases of IEEE arithmetic go: a finite value
(the fraction `num / den` with `den > 0`, in lowest terms), the two infinities, or NaN.
Finite arithmetic is exact, so a run agrees with the machine's whenever every finite
intermediate value is representable; the sign of zero is not recorded. -/
inductive Dbl where
  | fin (num : Int) (den : Nat)
  | pinf
  | ninf
  | nan
deriving DecidableEq, Repr

namespace Dbl

/-- Bitwise search for the integer square root: `r` is the root found so far, the bits
below `i` are still to be tried. -/
def isqrtAux (n : Nat) : Nat → Nat → Nat
  | 0, r => r
  | i + 1, r => isqrtAux n i (if (r + 2 ^ i) * (r + 2 ^ i) ≤ n then r + 2 ^ i else r)

/-- The number of binary digits of `n` added to `acc`, found in at most `k` halvings. -/
def bitLength : Nat → Nat → Nat → Nat
  | 0, _, acc => acc
  | k + 1, n, acc => if n = 0 then acc else bitLength k (n / 2) (acc + 1)

/-- The largest `r` with `r * r ≤ n`. -/
def isqrt (n : Nat) : Nat := isqrtAux n (bitLength n n 0) 0

/-- The finite value `n / d` (for `d > 0`), brought to lowest terms. -/
def frac (n : Int) (d : Nat) : Dbl :=
  let g := Nat.gcd n.natAbs d
  fin (n / (g : Int)) (d / g)

/-- The finite value of an integer. -/
def ofInt (n : Int) : Dbl := fin n 1

/-- Unary minus. -/
def neg : Dbl → Dbl
  | fin a b => fin (-a) b
  | pinf => ninf
  | ninf => pinf
  | nan => nan

/-- Addition; `∞ + (-∞)` is NaN. -/
def add : Dbl → Dbl → Dbl
  | fin a b, fin c d => frac (a * d + c * b) (b * d)
  | nan, _ => nan
  | _, nan => nan
  | pinf, ninf => nan
  | ninf, pinf => nan
  | pinf, _ => pinf
  | ninf, _ => ninf
  | _, pinf => pinf
  | _, ninf => ninf

/-- Subtraction `x - y = x + (-y)`. -/
def sub (x y : Dbl) : Dbl := add x (neg y)

/-- The sign of a value: `1`, `0`, `-1`; NaN has none. -/
def sign : Dbl → Option Int
  | fin a _ => some (Int.sign a)
  | pinf => some 1
  | ninf => some (-1)
  | nan => none

/-- The infinity of the given non-zero sign. -/
def inf (sgn : Int) : Dbl := if 0 < sgn then pinf else ninf

/-- Multiplication; `0 · ∞` is NaN. -/
def mul : Dbl → Dbl → Dbl
  | fin a b, fin c d => frac (a * c) (b * d)
  | x, y =>
    match sign x, sign y with
    | some sx, some sy => if sx * sy = 0 then nan else inf (sx * sy)
    | _, _ => nan

/-- Division; `0 / 0` and `∞ / ∞` are NaN, a non-zero value over zero is an infinity. -/
def div : Dbl → Dbl → Dbl
  | nan, _ => nan
  | _, nan => nan
  | fin a b, fin c d =>
    if c = 0 then (if a = 0 then nan else inf a)
    else frac (Int.sign c * a * d) (b * c.natAbs)
  | fin _ _, _ => fin 0 1
  | pinf, fin c _ => if 0 ≤ c then pinf else ninf
  | ninf, fin c _ => if 0 ≤ c then ninf else pinf
  | _, _ => nan

/-- Square root: NaN below zero; exact on the square of a fraction, and otherwise cut off
after 26 binary digits of the scaled fraction. -/
def sqrt : Dbl → Dbl
  | fin a b =>
    if a < 0 then nan
    else if isqrt a.toNat * isqrt a.toNat = a.toNat ∧ isqrt b * isqrt b = b then
      fin (isqrt a.toNat) (isqrt b)
    else frac (isqrt (a.toNat * b * 4 ^ 26)) (b * 2 ^ 26)
  | pinf => pinf
  | ninf => nan
  | nan => nan

/-- Absolute value. -/
def fabs : Dbl → Dbl
  | fin a b => fin (Int.natAbs a) b
  | pinf => pinf
  | ninf => pinf
  | nan => nan

/-- The comparison `x < y`; false whenever an argument is NaN. -/
def lt : Dbl → Dbl → Bool
  | fin a b, fin c d => decide (a * d < c * b)
  | nan, _ => false
  | _, nan => false
  | ninf, ninf => false
  | ninf, _ => true
  | _, ninf => false
  | pinf, _ => false
  | _, pinf => true

/-- The operations of `Dbl` as a `RealOps` record. -/
def ops : RealOps Dbl :=
  { zero := fin 0 1, add := add, sub := sub, mul := mul, div := div, neg := neg,
    sqrt := sqrt, fabs := fabs, lt := lt }

end Dbl

/-! ## Sequences of calls on one solver object -/

/-- One call of `solve`: the content `P` of the parameter source when the call is made, and
the arguments. -/
structure Call (R : Type) where
  P : ParameterSource R
  A : uBlasSparseMatrix R
  x : List R
  b : List R

/-- The calls `cs`, made one after the other on the solver object `self`: their outcomes in
order.  A call that is aborted leaves the object to the next call; a call that does not
return is the last. -/
def solveAll {R : Type} (F : RealOps R) (fuel : Nat) :
    uBlasKrylovSolver R → List (Call R) → List (Outcome R)
  | _, [] => []
  | self, c :: cs =>
    match solve F fuel c.P self c.A c.x c.b with
    | Outcome.running s log => [Outcome.running s log]
    | o => o :: solveAll F fuel o.solver cs

/-- The system a call is about: its arguments without the parameter source. -/
def Call.system {R : Type} (c : Call R) : uBlasSparseMatrix R × List R × List R :=
  (c.A, c.x, c.b)

/-- All events of a sequence of outcomes, in order. -/
def trace {R : Type} (outs : List (Outcome R)) : List Event :=
  (outs.map Outcome.log).flatten

/-- The convergence test both engines apply to a residual norm `r`, relative to `r0`. -/
def convergenceTest {R : Type} (F : RealOps R) (self : uBlasKrylovSolver R) (r r0 : R) : Bool :=
  F.lt (F.div r r0) self.rtol || F.lt r self.atol

/-- The residual `b - A·x` as both engines compute it. -/
def residual {R : Type} (F : RealOps R) (A : uBlasSparseMatrix R) (x b : List R) : List R :=
  axpy_prod F A (vneg F x) b false

/-! ## Concrete systems and configurations -/

/-- The identity operator `A·v = v` on vectors of length `n`. -/
def identity (n : Nat) : uBlasSparseMatrix Dbl :=
  { size := fun _ => n, prod := fun v => v }

/-- A parameter source holding the given values, with `report` off. -/
def parameters (rtol atol div_tol : Dbl) (max_it restart : Nat) : ParameterSource Dbl :=
  { relative_tolerance := rtol, absolute_tolerance := atol, divergence_limit := div_tol,
    maximum_iterations := max_it, gmres_restart := restart, report := false }

/-- A solver object fresh from the constructor `uBlasKrylovSolver(solver)`, the members the
constructor leaves unset being zero. -/
def newSolver (solver : SolverType) : uBlasKrylovSolver Dbl :=
  uBlasKrylovSolver.new solver
    { type := solver, report := false, parameters_read := false, rtol := Dbl.ofInt 0,
      atol := Dbl.ofInt 0, div_tol := Dbl.ofInt 0, max_it := 0, restart := 0 }

/-- Parameters with a generous absolute tolerance: `rtol = 1/2`, `atol = 10`,
`div_tol = 10000`, one iteration, restart `1`. -/
def looseAbsolute : ParameterSource Dbl :=
  parameters (Dbl.frac 1 2) (Dbl.ofInt 10) (Dbl.ofInt 10000) 1 1

/-- A 1×2 operator, the row `(1 1)`: `A.size(0) = 1`, `A.size(1) = 2`. -/
def rowOfOnes : uBlasSparseMatrix Dbl :=
  { size := fun i => if i = 0 then 1 else 2,
    prod := fun v => [Dbl.add (vget Dbl.ops v 0) (vget Dbl.ops v 1)] }

/-- Parameters that allow no iteration at all: `rtol = atol = 1/2`, `div_tol = 10000`,
`max_it = 0`, restart `1`. -/
def noBudget : ParameterSource Dbl :=
  parameters (Dbl.frac 1 2) (Dbl.frac 1 2) (Dbl.ofInt 10000) 0 1

/-- Everyday parameters: `rtol = atol = 1/2`, `div_tol = 10000`, `max_it = 2`,
restart `1`. -/
def everyday : ParameterSource Dbl :=
  parameters (Dbl.frac 1 2) (Dbl.frac 1 2) (Dbl.ofInt 10000) 2 1

/-- Parameters of the usual size: tolerances `1e-15`, divergence limit `1e4`, at most
`10000` iterations, restart after `30`. -/
def usual : ParameterSource Dbl :=
  parameters (Dbl.frac 1 (10 ^ 15)) (Dbl.frac 1 (10 ^ 15)) (Dbl.ofInt 10000) 10000 30

/-- The 1×1 operator whose single entry is `0`. -/
def zeroEntry : uBlasSparseMatrix Dbl :=
  { size := fun _ => 1, prod := fun v => [Dbl.mul (Dbl.ofInt 0) (vget Dbl.ops v 0)] }

/-- The 2×2 rotation by a quarter turn, with the entries `A(0,1) = -1` and `A(1,0) = 1`
stored. -/
def quarterTurn : uBlasSparseMatrix Dbl :=
  { size := fun _ => 2,
    prod := fun v => [Dbl.mul (Dbl.ofInt (-1)) (vget Dbl.ops v 1),
                      Dbl.mul (Dbl.ofInt 1) (vget Dbl.ops v 0)] }

/-- Parameters that give up as soon as the residual stops shrinking: `rtol = atol = 1/2`,
`div_tol = 1`, `max_it = 5`, restart `1`. -/
def impatient : ParameterSource Dbl :=
  parameters (Dbl.frac 1 2) (Dbl.frac 1 2) (Dbl.ofInt 1) 5 1

/-- A call on the 1×1 identity system `x = 1`, made while the parameter source holds the
`everyday` values. -/
def firstCall : Call Dbl :=
  { P := everyday, A := identity 1, x := [Dbl.ofInt 0], b := [Dbl.ofInt 1] }

/-- A call on the 2×2 identity system `x = (3, 4)`, made while the parameter source holds
`P`. -/
def laterCall (P : ParameterSource Dbl) : Call Dbl :=
  { P := P, A := identity 2, x := [Dbl.ofInt 0, Dbl.ofInt 0], b := [Dbl.ofInt 3, Dbl.ofInt 4] }

/-- The parameter source `P` with `report` switched on. -/
def reporting (P : ParameterSource Dbl) : ParameterSource Dbl :=
  { P with report := true }

/-- The warning of the final convergence check of `solve`. -/
def notConvergedWarning : Event := Event.warning "Krylov solver failed to converge."

/-- The message of the final convergence check of `solve` that carries the iteration
count. -/
def convergedInfo (iterations : Nat) : Event :=
  Event.info "Krylov solver converged in %d iterations." [iterations]

/-! ## Exact arithmetic -/

/-- Exact arithmetic: the operations of an ordered field `R`, with the function `sqrt` for
the square root. -/
def exactOps {R : Type} [LinearOrderedField R] (sqrt : R → R) : RealOps R :=
  { zero := 0, add := fun a b => a + b, sub := fun a b => a - b, mul := fun a b => a * b,
    div := fun a b => a / b, neg := fun a => -a, sqrt := sqrt, fabs := fun a => |a|,
    lt := fun a b => decide (a < b) }

/-- The function `sqrt` gives the non-negative square root of every non-negative element. -/
def IsSqrt {R : Type} [LinearOrderedField R] (sqrt : R → R) : Prop :=
  ∀ x : R, 0 ≤ x → 0 ≤ sqrt x ∧ sqrt x * sqrt x = x

/-- The operator `A` is linear on vectors of length `n`, as the product with an `n × n`
matrix is: it maps them to vectors of length `n`, sums to sums and multiples to
multiples. -/
structure IsLinear {R : Type} [LinearOrderedField R] (A : uBlasSparseMatrix R) (n : Nat) :
    Prop where
  length : ∀ v : List R, v.length = n → (A.prod v).length = n
  add : ∀ u v : List R, u.length = n → v.length = n →
    A.prod (List.zipWith (fun a b => a + b) u v) =
      List.zipWith (fun a b => a + b) (A.prod u) (A.prod v)
  smul : ∀ (a : R) (v : List R), v.length = n →
    A.prod (v.map (fun t => a * t)) = (A.prod v).map (fun t => a * t)

/-- The linear combination `a 0 · v 0 + … + a (m-1) · v (m-1)` of vectors of length `n`. -/
def linComb {R : Type} (F : RealOps R) (n : Nat) (a : Nat → R) (v : Nat → List R) (m : Nat) :
    List R :=
  (List.range m).foldl (fun acc l => vadd F acc (vscale F (a l) (v l))) (vzero F n)

/-- The identity operator `A·v = v` on vectors of length `n`, over any scalars. -/
def identityOn (R : Type) (n : Nat) : uBlasSparseMatrix R :=
  { size := fun _ => n, prod := fun v => v }

/-- The classical BiCGStab recursion in the words of the spec: the update formulas of
`bicgstabSolver`, with the shadow residual `r*` chosen as the true initial residual
`r0 = b − A·x₀` instead of `b`. -/
def classicalBicgstab {R : Type} (F : RealOps R) (self : uBlasKrylovSolver R)
    (A : uBlasSparseMatrix R) (x b : List R) : EngineExit R :=
  let r0 := residual F A x b
  let r0_norm := norm_2 F r0
  if F.lt r0_norm self.atol then
    { x := x, iterations := 0, converged := true, r_norm := F.zero, r0_norm := r0_norm }
  else
    let st := bicgstabLoop F self A r0 r0_norm self.max_it (bicgstabInit F A x r0 r0)
    { x := st.x, iterations := st.iteration, converged := st.converged,
      r_norm := st.r_norm, r0_norm := r0_norm }

/-- The value of `alpha` that a pass of the BiCGStab loop computes from state `st`. -/
def bicgstabAlpha {R : Type} (F : RealOps R) (A : uBlasSparseMatrix R) (rstar : List R)
    (st : BicgstabState R) : R :=
  F.div st.r_rstar1 (inner_prod F (A.prod st.p) rstar)

/-- The vector `s = r − alpha·A·p` that a pass of the BiCGStab loop computes from `st`. -/
def bicgstabS {R : Type} (F : RealOps R) (A : uBlasSparseMatrix R) (rstar : List R)
    (st : BicgstabState R) : List R :=
  vsub F st.r (vscale F (bicgstabAlpha F A rstar st) (A.prod st.p))

/-- The value of `omega` that a pass of the BiCGStab loop computes from state `st`. -/
def bicgstabOmega {R : Type} (F : RealOps R) (A : uBlasSparseMatrix R) (rstar : List R)
    (st : BicgstabState R) : R :=
  F.div (inner_prod F (A.prod (bicgstabS F A rstar st)) (bicgstabS F A rstar st))
    (inner_prod F (A.prod (bicgstabS F A rstar st)) (A.prod (bicgstabS F A rstar st)))

/-! ## The parts of a GMRES inner step, and restart cycles -/

section GmresParts

variable {R : Type} (F : RealOps R) (self : uBlasKrylovSolver R) (A : uBlasSparseMatrix R)

/-- The remainder `w` that the Gram-Schmidt loop of the inner step from `st` leaves. -/
def arnoldiW (st : GmresState R) : List R :=
  (gramSchmidt F st.V st.j (A.prod (column st.V st.j)) st.h).1

/-- The Hessenberg column `h` of the inner step from `st` before any Givens rotation is
applied: `h(0..j)` from the Gram-Schmidt loop and `h(j+1) = norm_2(w)`. -/
def arnoldiH (st : GmresState R) : List R :=
  (gramSchmidt F st.V st.j (A.prod (column st.V st.j)) st.h).2.set (st.j + 1)
    (norm_2 F (arnoldiW F A st))

/-- The column `h` of the inner step from `st` after the stored Givens rotations
`0..j-1` have been applied. -/
def rotatedH (st : GmresState R) : List R :=
  applyGivens F st.c st.s st.j (arnoldiH F A st)

/-- The value `nu = sqrt(h(j)² + h(j+1)²)` of the inner step from `st`. -/
def givensNu (st : GmresState R) : R :=
  F.sqrt (F.add (F.mul (vget F (rotatedH F A st) st.j) (vget F (rotatedH F A st) st.j))
    (F.mul (vget F (rotatedH F A st) (st.j + 1)) (vget F (rotatedH F A st) (st.j + 1))))

/-- The state in which `gmresSolver` enters the inner loop of a restart cycle: `gamma` and
column `0` of `V` seeded from the residual `r` and its norm `beta`, the counters of the
cycle at `0`. -/
def gmresSeed (r : List R) (beta beta0 : R) (st : GmresState R) : GmresState R :=
  { st with r := r, beta0 := beta0, gamma := (vzero F (self.restart + 1)).set 0 beta,
            V := st.V.set 0 (vdiv F r beta), subiteration := 0, j := 0 }

/-- The vectors and matrices of the state have the sizes `gmresSolver` allocates them
with, for a system of size `n`. -/
def WellSized (n : Nat) (st : GmresState R) : Prop :=
  st.x.length = n ∧ st.V.length = self.restart + 1 ∧ st.H.length = self.restart ∧
    st.h.length = self.restart + 1 ∧ st.c.length = self.restart ∧
    st.s.length = self.restart

/-- The property `P` holds of every state from which the inner loop, run from `st` for at
most `m` passes, makes a pass. -/
def stepsOK (P : GmresState R → Prop) (beta : R) : Nat → GmresState R → Prop
  | 0, _ => True
  | m + 1, st =>
    if gmresInnerGuard F self beta st = true then
      P st ∧ stepsOK P beta m (gmresStep F self A st)
    else True

/-- No inner step divides by zero: the divisors `h(j+1)` and `nu` of the step from `st` are
not zero. -/
def NoZeroDivisor (st : GmresState R) : Prop :=
  vget F (arnoldiH F A st) (st.j + 1) ≠ F.zero ∧ givensNu F A st ≠ F.zero

/-- No division by zero occurs in the outer loop run from `st` with a budget of `fuel`
cycles: in every restart cycle entered, `beta` is not zero and no inner step divides by
zero. -/
def cyclesOK (b : List R) : Nat → GmresState R → Prop
  | 0, _ => True
  | fuel + 1, st =>
    if gmresGuard self st = true then
      if F.lt (norm_2 F (residual F A st.x b)) self.atol = true then True
      else
        norm_2 F (residual F A st.x b) ≠ F.zero ∧
        stepsOK F self A (NoZeroDivisor F A) (norm_2 F (residual F A st.x b)) self.restart
          (gmresSeed F self (residual F A st.x b) (norm_2 F (residual F A st.x b))
            (if st.iteration = 0 then norm_2 F (residual F A st.x b) else st.beta0) st) ∧
        cyclesOK b fuel
          (gmresCycle F self A (residual F A st.x b) (norm_2 F (residual F A st.x b))
            (if st.iteration = 0 then norm_2 F (residual F A st.x b) else st.beta0) st)
    else True

/-- The rotated basis vector that pairs with the last entry of `gamma` after `i`
rotations: `ẑ 0 = v 0`, `ẑ (i+1) = s i · ẑ i + c i · v (i+1)`. -/
def zhat (c s : Nat → R) (v : Nat → List R) : Nat → List R
  | 0 => v 0
  | i + 1 => vadd F (vscale F (s i) (zhat c s v i)) (vscale F (c i) (v (i + 1)))

/-- The rotated basis vector `z i = c i · ẑ i − s i · v (i+1)`, final after rotation `i`. -/
def zfin (c s : Nat → R) (v : Nat → List R) (i : Nat) : List R :=
  vsub F (vscale F (c i) (zhat F c s v i)) (vscale F (s i) (v (i + 1)))

/-- The first `m` passes of the Gram-Schmidt loop (`gramSchmidt` makes `j + 1`). -/
def gramSchmidtFirst (V : List (List R)) (m : Nat) (w h : List R) : List R × List R :=
  (List.range m).foldl
    (fun wh i =>
      let hi := inner_prod F wh.1 (column V i)
      (vsub F wh.1 (vscale F hi (column V i)), wh.2.set i hi))
    (w, h)

/-- The sizes and counters of a state inside a restart cycle: `j` runs with
`subiteration` and has not passed `restart`, the vectors and matrices have their allocated
sizes, and `gamma` is still zero above entry `j`. -/
def CycleSizes (st : GmresState R) : Prop :=
  st.j = st.subiteration ∧ st.j ≤ self.restart ∧ st.V.length = self.restart + 1 ∧
    st.H.length = self.restart ∧ st.h.length = self.restart + 1 ∧
    st.c.length = self.restart ∧ st.s.length = self.restart ∧
    st.gamma.length = self.restart + 1 ∧ ∀ i : Nat, st.j < i → vget F st.gamma i = F.zero

end GmresParts

/-! ## The passes of the triangular solve -/

/-- The first `q` passes of the inner loop of the back-substitution for a column `col` of
`H` and the unknown `t` just found: `g(m) -= col(m)·t` for `m < q`. -/
def eliminateAbove {R : Type} (F : RealOps R) (col : List R) (t : R) (q : Nat) (g : List R) :
    List R :=
  (List.range q).foldl (fun g m => g.set m (F.sub (vget F g m) (F.mul (vget F col m) t))) g

/-- One pass of the outer loop of the back-substitution `inplace_solve`: find unknown `n`
and take its multiples of column `n` off the entries above. -/
def backSubstitute {R : Type} (F : RealOps R) (H : List (List R)) (n : Nat) (g : List R) :
    List R :=
  eliminateAbove F (column H n) (F.div (vget F g n) (vget F (column H n) n)) n
    (g.set n (F.div (vget F g n) (vget F (column H n) n)))

/-! ## The invariant of the inner loop of GMRES in exact arithmetic -/

/-- What the inner loop of GMRES keeps true in exact arithmetic, for a system of size `n`
with residual `st.r` at the start of the restart cycle.  With `z 0, …, z (j-1)` and `ẑ j` the
basis vectors rotated by the stored Givens rotations (`zfin` and `zhat`): the columns
`0..j` of `V` are orthonormal; the rotations are rotations; the diagonal of `H` is
non-zero; the residual is `Σ_{l<j} γ(l)·z l + γ(j)·ẑ j`; column `i` of `H` holds the
coordinates of `A·V[:,i]` in `z 0, …, z i`; and `ẑ j` is a unit vector in the span of the
columns `0..j` of `V`. -/
structure KrylovInv {R : Type} [LinearOrderedField R] (sqrt : R → R)
    (A : uBlasSparseMatrix R) (n : Nat) (st : GmresState R) : Prop where
  cols : ∀ l : Nat, l ≤ st.j → (column st.V l).length = n
  orth : ∀ l k : Nat, l ≤ st.j → k ≤ st.j →
    inner_prod (exactOps sqrt) (column st.V l) (column st.V k) = if l = k then 1 else 0
  rot : ∀ i : Nat, i < st.j →
    vget (exactOps sqrt) st.c i * vget (exactOps sqrt) st.c i +
      vget (exactOps sqrt) st.s i * vget (exactOps sqrt) st.s i = 1
  diag : ∀ i : Nat, i < st.j → vget (exactOps sqrt) (column st.H i) i ≠ 0
  res : ∀ p : Nat, vget (exactOps sqrt) st.r p =
    ∑ l in Finset.range st.j, vget (exactOps sqrt) st.gamma l *
        vget (exactOps sqrt) (zfin (exactOps sqrt) (vget (exactOps sqrt) st.c)
          (vget (exactOps sqrt) st.s) (column st.V) l) p +
      vget (exactOps sqrt) st.gamma st.j *
        vget (exactOps sqrt) (zhat (exactOps sqrt) (vget (exactOps sqrt) st.c)
          (vget (exactOps sqrt) st.s) (column st.V) st.j) p
  hess : ∀ i : Nat, i < st.j → ∀ p : Nat,
    vget (exactOps sqrt) (A.prod (column st.V i)) p =
      ∑ l in Finset.range (i + 1), vget (exactOps sqrt) (column st.H i) l *
        vget (exactOps sqrt) (zfin (exactOps sqrt) (vget (exactOps sqrt) st.c)
          (vget (exactOps sqrt) st.s) (column st.V) l) p
  unit : inner_prod (exactOps sqrt)
      (zhat (exactOps sqrt) (vget (exactOps sqrt) st.c) (vget (exactOps sqrt) st.s)
        (column st.V) st.j)
      (zhat (exactOps sqrt) (vget (exactOps sqrt) st.c) (vget (exactOps sqrt) st.s)
        (column st.V) st.j) = 1
  perp : ∀ u : List R, u.length = n →
    (∀ l : Nat, l ≤ st.j → inner_prod (exactOps sqrt) (column st.V l) u = 0) →
    inner_prod (exactOps sqrt)
      (zhat (exactOps sqrt) (vget (exactOps sqrt) st.c) (vget (exactOps sqrt) st.s)
        (column st.V) st.j) u = 0

/-! ## A small system for exact arithmetic -/

/-- The operator that reverses the entries of a vector: on vectors of length `2` the
product with the matrix `[[0, 1], [1, 0]]`. -/
def reversal (R : Type) (n : Nat) : uBlasSparseMatrix R :=
  { size := fun _ => n, prod := fun v => v.reverse }

/-- A GMRES configuration with restart cycles of one inner step and a budget of one
iteration: `rtol = 2`, `atol = 0`, `div_tol = 2`, `max_it = 1`, `restart = 1`. -/
def onePass (R : Type) [LinearOrderedField R] : uBlasKrylovSolver R :=
  { type := SolverType.gmres, report := false, parameters_read := true, rtol := 2, atol := 0,
    div_tol := 2, max_it := 1, restart := 1 }

/-! ## Loop lemmas: BiCGStab -/

section BicgstabLemmas

variable {R : Type} (F : RealOps R) (self : uBlasKrylovSolver R) (A : uBlasSparseMatrix R)

theorem bicgstabStep_iteration (rstar : List R) (r0_norm : R) (st : BicgstabState R) :
    (bicgstabStep F self A rstar r0_norm st).iteration = st.iteration + 1 := by
  unfold bicgstabStep
  simp only []
  split <;> rfl

theorem bicgstabStep_converged (rstar : List R) (r0_norm : R) (st : BicgstabState R)
    (h : st.converged = false) :
    (bicgstabStep F self A rstar r0_norm st).converged =
      convergenceTest F self (bicgstabStep F self A rstar r0_norm st).r_norm r0_norm := by
  unfold bicgstabStep convergenceTest
  simp only []
  split
  · next hc => simp [hc]
  · next hc => simp [hc, h]

theorem bicgstabGuard_iteration (r0_norm : R) (st : BicgstabState R)
    (h : bicgstabGuard F self r0_norm st = true) : st.iteration < self.max_it := by
  simp [bicgstabGuard] at h
  exact h.1.1

theorem bicgstabGuard_converged (r0_norm : R) (st : BicgstabState R)
    (h : bicgstabGuard F self r0_norm st = true) : st.converged = false := by
  simp [bicgstabGuard] at h
  exact h.1.2

theorem bicgstabLoop_iteration_le (rstar : List R) (r0_norm : R) (n : Nat) :
    ∀ st : BicgstabState R, st.iteration ≤ self.max_it →
      (bicgstabLoop F self A rstar r0_norm n st).iteration ≤ self.max_it := by
  induction n with
  | zero => intro st h; simpa [bicgstabLoop] using h
  | succ n ih =>
    intro st h
    unfold bicgstabLoop
    split
    · next hg =>
      apply ih
      rw [bicgstabStep_iteration]
      exact bicgstabGuard_iteration F self r0_norm st hg
    · exact h

/-- With `max_it` passes allowed the loop ends only because its guard has failed. -/
theorem bicgstabLoop_guard (rstar : List R) (r0_norm : R) (n : Nat) :
    ∀ st : BicgstabState R, self.max_it ≤ st.iteration + n →
      bicgstabGuard F self r0_norm (bicgstabLoop F self A rstar r0_norm n st) = false := by
  induction n with
  | zero =>
    intro st h
    simp only [bicgstabLoop]
    cases hg : bicgstabGuard F self r0_norm st with
    | false => rfl
    | true =>
      have := bicgstabGuard_iteration F self r0_norm st hg
      omega
  | succ n ih =>
    intro st h
    unfold bicgstabLoop
    split
    · apply ih
      rw [bicgstabStep_iteration]
      omega
    · next hg => simpa using hg

/-- Inside the loop `converged` is set only by the convergence test on the current
`r_norm`. -/
theorem bicgstabLoop_converged (rstar : List R) (r0_norm : R) (n : Nat) :
    ∀ st : BicgstabState R,
      (st.converged = true → convergenceTest F self st.r_norm r0_norm = true) →
      (bicgstabLoop F self A rstar r0_norm n st).converged = true →
      convergenceTest F self (bicgstabLoop F self A rstar r0_norm n st).r_norm r0_norm
        = true := by
  induction n with
  | zero => intro st h; simpa [bicgstabLoop] using h
  | succ n ih =>
    intro st h
    unfold bicgstabLoop
    split
    · next hg =>
      apply ih
      intro hc
      rw [bicgstabStep_converged F self A rstar r0_norm st
        (bicgstabGuard_converged F self r0_norm st hg)] at hc
      exact hc
    · exact h

/-- The engine reads the tolerances and `max_it` from the solver object, not `type`. -/
theorem bicgstabLoop_type (t : SolverType) (rstar : List R) (r0_norm : R) (n : Nat) :
    ∀ st : BicgstabState R,
      bicgstabLoop F { self with type := t } A rstar r0_norm n st =
        bicgstabLoop F self A rstar r0_norm n st := by
  induction n with
  | zero => intro st; rfl
  | succ n ih =>
    intro st
    unfold bicgstabLoop
    have hg : bicgstabGuard F { self with type := t } r0_norm st =
      bicgstabGuard F self r0_norm st := rfl
    have hs : bicgstabStep F { self with type := t } A rstar r0_norm st =
      bicgstabStep F self A rstar r0_norm st := rfl
    rw [hg, hs, ih]

theorem bicgstabSolver_type (t : SolverType) (x b : List R) :
    bicgstabSolver F { self with type := t } A x b = bicgstabSolver F self A x b := by
  unfold bicgstabSolver
  simp only [bicgstabLoop_type]

theorem bicgstabSolver_log (x b : List R) :
    (bicgstabSolver F self A x b).1 = [bicgstabWarning] := by
  unfold bicgstabSolver
  simp only []
  split <;> rfl

/-- What holds of every value `bicgstabSolver` returns: the iteration count is within
`max_it`, and a return without convergence happens only at `max_it` or with the divergence
test `r_norm/r0_norm < div_tol` failed. -/
theorem bicgstabSolver_exit (x b : List R) :
    (bicgstabSolver F self A x b).2.iterations ≤ self.max_it ∧
    ((bicgstabSolver F self A x b).2.converged = false →
      (bicgstabSolver F self A x b).2.iterations = self.max_it ∨
      F.lt (F.div (bicgstabSolver F self A x b).2.r_norm
        (bicgstabSolver F self A x b).2.r0_norm) self.div_tol = false) := by
  unfold bicgstabSolver
  simp only []
  split
  · simp
  · have hle := bicgstabLoop_iteration_le F self A b
      (norm_2 F (axpy_prod F A (vneg F x) b false)) self.max_it
      (bicgstabInit F A x b (axpy_prod F A (vneg F x) b false)) (Nat.zero_le _)
    have hg := bicgstabLoop_guard F self A b
      (norm_2 F (axpy_prod F A (vneg F x) b false)) self.max_it
      (bicgstabInit F A x b (axpy_prod F A (vneg F x) b false)) (by simp [bicgstabInit])
    refine ⟨hle, ?_⟩
    intro hc
    simp only [] at hc
    simp only [bicgstabGuard, hc, Bool.not_false, Bool.and_true, Bool.and_eq_false_iff,
      decide_eq_false_iff_not, Nat.not_lt] at hg
    rcases hg with h | h
    · exact Or.inl (Nat.le_antisymm hle h)
    · exact Or.inr h

end BicgstabLemmas

/-! ## Loop lemmas: GMRES -/

section GmresLemmas

variable {R : Type} (F : RealOps R) (self : uBlasKrylovSolver R) (A : uBlasSparseMatrix R)

theorem gmresStep_iteration (st : GmresState R) :
    (gmresStep F self A st).iteration = st.iteration + 1 := rfl

theorem gmresStep_subiteration (st : GmresState R) :
    (gmresStep F self A st).subiteration = st.subiteration + 1 := rfl

theorem gmresStep_beta0 (st : GmresState R) :
    (gmresStep F self A st).beta0 = st.beta0 := rfl

theorem gmresStep_x (st : GmresState R) : (gmresStep F self A st).x = st.x := rfl

theorem gmresStep_converged (st : GmresState R) (h : st.converged = false) :
    (gmresStep F self A st).converged =
      convergenceTest F self (gmresStep F self A st).r_norm st.beta0 := by
  unfold gmresStep convergenceTest
  simp only [h]
  split <;> simp_all

theorem gmresInnerGuard_true (beta : R) (st : GmresState R)
    (h : gmresInnerGuard F self beta st = true) :
    st.subiteration < self.restart ∧ st.iteration < self.max_it ∧ st.converged = false ∧
      F.lt (F.div st.r_norm beta) self.div_tol = true := by
  simp [gmresInnerGuard] at h
  tauto

theorem gmresInner_iteration_le (beta : R) (n : Nat) :
    ∀ st : GmresState R, st.iteration ≤ self.max_it →
      (gmresInner F self A beta n st).iteration ≤ self.max_it := by
  induction n with
  | zero => intro st h; simpa [gmresInner] using h
  | succ n ih =>
    intro st h
    unfold gmresInner
    split
    · next hg =>
      apply ih
      rw [gmresStep_iteration]
      exact (gmresInnerGuard_true F self beta st hg).2.1
    · exact h

theorem gmresInner_beta0 (beta : R) (n : Nat) :
    ∀ st : GmresState R, (gmresInner F self A beta n st).beta0 = st.beta0 := by
  induction n with
  | zero => intro st; rfl
  | succ n ih =>
    intro st
    unfold gmresInner
    split
    · rw [ih, gmresStep_beta0]
    · rfl

theorem gmresInner_x (beta : R) (n : Nat) :
    ∀ st : GmresState R, (gmresInner F self A beta n st).x = st.x := by
  induction n with
  | zero => intro st; rfl
  | succ n ih =>
    intro st
    unfold gmresInner
    split
    · rw [ih, gmresStep_x]
    · rfl

/-- With `restart` passes allowed the inner loop ends only because its guard has failed. -/
theorem gmresInner_guard (beta : R) (n : Nat) :
    ∀ st : GmresState R, self.restart ≤ st.subiteration + n →
      gmresInnerGuard F self beta (gmresInner F self A beta n st) = false := by
  induction n with
  | zero =>
    intro st h
    simp only [gmresInner]
    cases hg : gmresInnerGuard F self beta st with
    | false => rfl
    | true =>
      have := (gmresInnerGuard_true F self beta st hg).1
      omega
  | succ n ih =>
    intro st h
    unfold gmresInner
    split
    · apply ih
      rw [gmresStep_subiteration]
      omega
    · next hg => simpa using hg

/-- Inside the inner loop `converged` is set only by the convergence test on the current
`r_norm`, relative to `beta0`. -/
theorem gmresInner_converged (beta : R) (n : Nat) :
    ∀ st : GmresState R,
      (st.converged = true → convergenceTest F self st.r_norm st.beta0 = true) →
      (gmresInner F self A beta n st).converged = true →
      convergenceTest F self (gmresInner F self A beta n st).r_norm st.beta0 = true := by
  induction n with
  | zero => intro st h; simpa [gmresInner] using h
  | succ n ih =>
    intro st h
    unfold gmresInner
    split
    · next hg =>
      intro hc
      have := ih (gmresStep F self A st) (by
        intro hc1
        rw [gmresStep_converged F self A st (gmresInnerGuard_true F self beta st hg).2.2.1]
          at hc1
        rw [gmresStep_beta0]
        exact hc1) hc
      rwa [gmresStep_beta0] at this
    · exact h

theorem gmresCycle_iteration_le (r : List R) (beta beta0 : R) (st : GmresState R)
    (h : st.iteration ≤ self.max_it) :
    (gmresCycle F self A r beta beta0 st).iteration ≤ self.max_it := by
  unfold gmresCycle
  exact gmresInner_iteration_le F self A beta self.restart _ h

theorem gmresCycle_beta0 (r : List R) (beta beta0 : R) (st : GmresState R) :
    (gmresCycle F self A r beta beta0 st).beta0 = beta0 := by
  unfold gmresCycle
  exact gmresInner_beta0 F self A beta self.restart _

theorem gmresCycle_converged (r : List R) (beta beta0 : R) (st : GmresState R)
    (h : st.converged = false)
    (hc : (gmresCycle F self A r beta beta0 st).converged = true) :
    convergenceTest F self (gmresCycle F self A r beta beta0 st).r_norm beta0 = true := by
  unfold gmresCycle at hc ⊢
  exact gmresInner_converged F self A beta self.restart _ (by simp [h]) hc

theorem gmresGuard_true (st : GmresState R) (h : gmresGuard self st = true) :
    st.iteration < self.max_it ∧ st.converged = false := by
  simpa [gmresGuard] using h

theorem gmresGuard_false (st : GmresState R) (h : gmresGuard self st = false) :
    st.converged = false → self.max_it ≤ st.iteration := by
  intro hc
  simp [gmresGuard, hc] at h
  exact h

/-- What holds of every value the outer loop returns: the iteration count is within
`max_it`, a return without convergence happens only at `max_it`, and a return with
`converged` set has passed the test `beta < atol` on the residual of the returned `x` or
the convergence test on `r_norm`. -/
theorem gmresLoop_returns (b : List R) (fuel : Nat) :
    ∀ (st : GmresState R) (e : EngineExit R),
      st.iteration ≤ self.max_it →
      (st.converged = true → convergenceTest F self st.r_norm st.beta0 = true) →
      gmresLoop F self A b fuel st = some e →
      e.iterations ≤ self.max_it ∧
      (e.converged = false → e.iterations = self.max_it) ∧
      (e.converged = true →
        F.lt (norm_2 F (residual F A e.x b)) self.atol = true ∨
        convergenceTest F self e.r_norm e.r0_norm = true) := by
  have hexit : ∀ (st : GmresState R) (e : EngineExit R),
      st.iteration ≤ self.max_it →
      (st.converged = true → convergenceTest F self st.r_norm st.beta0 = true) →
      gmresGuard self st = false → some (gmresExit st) = some e →
      e.iterations ≤ self.max_it ∧
      (e.converged = false → e.iterations = self.max_it) ∧
      (e.converged = true →
        F.lt (norm_2 F (residual F A e.x b)) self.atol = true ∨
        convergenceTest F self e.r_norm e.r0_norm = true) := by
    intro st e hit hinv hg he
    have he1 : gmresExit st = e := Option.some.inj he
    subst he1
    refine ⟨hit, ?_, fun hc => Or.inr (hinv hc)⟩
    intro hc
    exact Nat.le_antisymm hit (gmresGuard_false self st hg hc)
  induction fuel with
  | zero =>
    intro st e hit hinv he
    unfold gmresLoop at he
    split at he
    · exact absurd he (by simp)
    · next hg => exact hexit st e hit hinv (by simpa using hg) he
  | succ fuel ih =>
    intro st e hit hinv he
    unfold gmresLoop at he
    split at he
    · next hg =>
      simp only [] at he
      split at he
      · next hlt =>
        have he1 := Option.some.inj he
        subst he1
        exact ⟨hit, by simp, fun _ => Or.inl hlt⟩
      · exact ih _ e (gmresCycle_iteration_le F self A _ _ _ st hit)
          (by
            intro hc
            rw [gmresCycle_beta0]
            exact gmresCycle_converged F self A _ _ _ st (gmresGuard_true self st hg).2 hc)
          he
    · next hg => exact hexit st e hit hinv (by simpa using hg) he

/-- A larger budget does not change what the outer loop returns. -/
theorem gmresLoop_mono (b : List R) (fuel : Nat) :
    ∀ (st : GmresState R) (e : EngineExit R),
      gmresLoop F self A b fuel st = some e → gmresLoop F self A b (fuel + 1) st = some e := by
  induction fuel with
  | zero =>
    intro st e he
    unfold gmresLoop at he
    split at he
    · exact absurd he (by simp)
    · next hg =>
      unfold gmresLoop
      simp only [hg]
      exact he
  | succ fuel ih =>
    intro st e he
    unfold gmresLoop at he
    unfold gmresLoop
    split at he
    · next hg =>
      simp only [hg, if_true]
      simp only [] at he
      split at he
      · next hlt => simp only [hlt, if_true]; exact he
      · next hlt => simp only [hlt]; exact ih _ e he
    · next hg => simp only [hg]; exact he

theorem gmresInner_of_guard_false (beta : R) (n : Nat) (st : GmresState R)
    (h : gmresInnerGuard F self beta st = false) : gmresInner F self A beta n st = st := by
  cases n with
  | zero => rfl
  | succ n => simp [gmresInner, h]

/-- A restart cycle whose inner loop cannot make a pass leaves `x`, `iteration`,
`converged` and `r_norm` as they were. -/
theorem gmresCycle_idle (r : List R) (beta beta0 : R) (st : GmresState R)
    (h : (decide (0 < self.restart) && decide (st.iteration < self.max_it) &&
      !st.converged && F.lt (F.div st.r_norm beta) self.div_tol) = false) :
    (gmresCycle F self A r beta beta0 st).x = st.x ∧
    (gmresCycle F self A r beta beta0 st).iteration = st.iteration ∧
    (gmresCycle F self A r beta beta0 st).converged = st.converged ∧
    (gmresCycle F self A r beta beta0 st).r_norm = st.r_norm := by
  unfold gmresCycle
  simp only []
  rw [gmresInner_of_guard_false F self A beta self.restart _ (by simpa [gmresInnerGuard] using h)]
  simp [inplace_solve, addColumns]

/-- The outer loop never ends from a state in which it is entered, the test `beta < atol`
fails and the inner loop cannot make a pass (`restart = 0`, or the divergence test
`r_norm/beta < div_tol` fails): every budget of restart cycles is used up. -/
theorem gmresLoop_spins (b : List R) (fuel : Nat) :
    ∀ st : GmresState R, gmresGuard self st = true →
      F.lt (norm_2 F (residual F A st.x b)) self.atol = false →
      (decide (0 < self.restart) &&
        F.lt (F.div st.r_norm (norm_2 F (residual F A st.x b))) self.div_tol) = false →
      gmresLoop F self A b fuel st = none := by
  induction fuel with
  | zero => intro st hg _ _; simp [gmresLoop, hg]
  | succ fuel ih =>
    intro st hg hlt hin
    have hidle := gmresCycle_idle F self A (residual F A st.x b)
      (norm_2 F (residual F A st.x b))
      (if st.iteration = 0 then norm_2 F (residual F A st.x b) else st.beta0) st
      (by
        rcases Bool.and_eq_false_iff.mp hin with h0 | h1
        · simp [h0]
        · simp [h1])
    obtain ⟨hx, hit, hcv, hrn⟩ := hidle
    have hstep : gmresLoop F self A b (fuel + 1) st =
        gmresLoop F self A b fuel (gmresCycle F self A (residual F A st.x b)
          (norm_2 F (residual F A st.x b))
          (if st.iteration = 0 then norm_2 F (residual F A st.x b) else st.beta0) st) := by
      conv_lhs => unfold gmresLoop
      simp only [hg, if_true]
      have hlt1 : F.lt (norm_2 F (axpy_prod F A (vneg F st.x) b false)) self.atol = false := hlt
      simp only [hlt1]
      rfl
    rw [hstep]
    apply ih
    · simp only [gmresGuard, hit, hcv]
      exact hg
    · rw [hx]; exact hlt
    · rw [hx, hrn]; exact hin

theorem gmresInner_counts (beta : R) (n : Nat) :
    ∀ st : GmresState R,
      (gmresInner F self A beta n st).iteration + st.subiteration =
        (gmresInner F self A beta n st).subiteration + st.iteration := by
  induction n with
  | zero => intro st; simp [gmresInner, Nat.add_comm]
  | succ n ih =>
    intro st
    unfold gmresInner
    split
    · have := ih (gmresStep F self A st)
      rw [gmresStep_iteration, gmresStep_subiteration] at this
      omega
    · exact Nat.add_comm _ _

/-- A restart cycle that leaves `iteration` at `0` has started at `0` and has not
changed `x`. -/
theorem gmresCycle_iteration_zero (r : List R) (beta beta0 : R) (st : GmresState R)
    (h : (gmresCycle F self A r beta beta0 st).iteration = 0) :
    (gmresCycle F self A r beta beta0 st).x = st.x ∧ st.iteration = 0 := by
  unfold gmresCycle at h ⊢
  simp only [] at h ⊢
  have hc := gmresInner_counts F self A beta self.restart
    { st with r := r, beta0 := beta0, gamma := (vzero F (self.restart + 1)).set 0 beta,
              V := st.V.set 0 (vdiv F r beta), subiteration := 0, j := 0 }
  have hx := gmresInner_x F self A beta self.restart
    { st with r := r, beta0 := beta0, gamma := (vzero F (self.restart + 1)).set 0 beta,
              V := st.V.set 0 (vdiv F r beta), subiteration := 0, j := 0 }
  simp only [] at hc hx
  rw [h] at hc
  have h0 : (gmresInner F self A beta self.restart
    { st with r := r, beta0 := beta0, gamma := (vzero F (self.restart + 1)).set 0 beta,
              V := st.V.set 0 (vdiv F r beta), subiteration := 0, j := 0 }).subiteration = 0 := by
    omega
  refine ⟨?_, by omega⟩
  rw [h0, hx]
  simp [addColumns]

/-- When the outer loop returns with `converged` set, `r0_norm` is the norm of the residual
of the vector `x0` the solver started from. -/
theorem gmresLoop_r0_norm (b x0 : List R) (fuel : Nat) :
    ∀ (st : GmresState R) (e : EngineExit R),
      (st.iteration = 0 → st.x = x0) →
      (st.iteration ≠ 0 ∨ st.converged = true → st.beta0 = norm_2 F (residual F A x0 b)) →
      gmresLoop F self A b fuel st = some e → e.converged = true →
      e.r0_norm = norm_2 F (residual F A x0 b) := by
  induction fuel with
  | zero =>
    intro st e hx hb he hc
    unfold gmresLoop at he
    split at he
    · exact absurd he (by simp)
    · have he1 := Option.some.inj he
      subst he1
      exact hb (Or.inr hc)
  | succ fuel ih =>
    intro st e hx hb he hc
    unfold gmresLoop at he
    split at he
    · next hg =>
      have hbeta0 : (if st.iteration = 0 then norm_2 F (axpy_prod F A (vneg F st.x) b false)
          else st.beta0) = norm_2 F (residual F A x0 b) := by
        split
        · next h0 => rw [hx h0]; rfl
        · next h0 => exact hb (Or.inl h0)
      simp only [] at he
      split at he
      · have he1 := Option.some.inj he
        subst he1
        exact hbeta0
      · refine ih _ e ?_ ?_ he hc
        · intro h0
          have := gmresCycle_iteration_zero F self A _ _ _ st h0
          rw [this.1]
          exact hx this.2
        · intro _
          rw [gmresCycle_beta0]
          exact hbeta0
    · have he1 := Option.some.inj he
      subst he1
      exact hb (Or.inr hc)

/-- One turn of the outer loop that neither leaves the loop nor returns: the next turn
starts from the state the restart cycle produces. -/
theorem gmresLoop_succ (b : List R) (fuel : Nat) (st : GmresState R)
    (hg : gmresGuard self st = true)
    (hlt : F.lt (norm_2 F (residual F A st.x b)) self.atol = false) :
    gmresLoop F self A b (fuel + 1) st =
      gmresLoop F self A b fuel (gmresCycle F self A (residual F A st.x b)
        (norm_2 F (residual F A st.x b))
        (if st.iteration = 0 then norm_2 F (residual F A st.x b) else st.beta0) st) := by
  conv_lhs => unfold gmresLoop
  simp only [hg, if_true]
  have hlt1 : F.lt (norm_2 F (axpy_prod F A (vneg F st.x) b false)) self.atol = false := hlt
  simp only [hlt1]
  rfl

end GmresLemmas

/-! ## C1: convergence and the tolerance met -/

section Convergence

variable {R : Type} (F : RealOps R) (self : uBlasKrylovSolver R) (A : uBlasSparseMatrix R)

/-- C1, as stated, fails: on the 1×1 identity system `x = 1` (symmetric positive definite,
`max_it = 1 ≥ N`, `restart = 1 ≥ N`) with `atol = 10` and `rtol = 1/2`, both engines return
`converged = true` with `x = 0` after no iteration, because `‖b‖ = 1 < atol`; the
relative residual `‖A·x − b‖ / ‖b‖` of that `x` is `1`, which is not below `rtol`. -/
theorem spd_relative_tolerance_counterexample :
    (solve Dbl.ops 1 looseAbsolute (newSolver SolverType.bicgstab) (identity 1)
        [Dbl.ofInt 0] [Dbl.ofInt 1]).result = some ([Dbl.ofInt 0], 0, true) ∧
    (solve Dbl.ops 1 looseAbsolute (newSolver SolverType.gmres) (identity 1)
        [Dbl.ofInt 0] [Dbl.ofInt 1]).result = some ([Dbl.ofInt 0], 0, true) ∧
    Dbl.div (norm_2 Dbl.ops (vsub Dbl.ops ((identity 1).prod [Dbl.ofInt 0]) [Dbl.ofInt 1]))
        (norm_2 Dbl.ops [Dbl.ofInt 1]) = Dbl.ofInt 1 ∧
    Dbl.lt (Dbl.ofInt 1) looseAbsolute.relative_tolerance = false := by
  decide

/-- C1, amended: for every operator `A` (symmetric positive definite or not), every `b`
and every start vector `x`, an engine that returns `converged = true` has passed one of
the two tests of the source, not necessarily the relative one: either the computed
residual norm of the returned `x` is below `atol` (the immediate-success test), or the
last residual norm `r_norm` it computed satisfies `r_norm / r0_norm < rtol` or
`r_norm < atol`, where `r0_norm` is the norm of the first residual `b − A·x`.  Nothing is
said about whether `converged = true` is reached. -/
theorem converged_meets_a_tolerance (fuel : Nat) (x b : List R) :
    ((bicgstabSolver F self A x b).2.converged = false ∨
      ((bicgstabSolver F self A x b).2.r0_norm = norm_2 F (residual F A x b) ∧
        (F.lt (norm_2 F (residual F A (bicgstabSolver F self A x b).2.x b)) self.atol = true ∨
          convergenceTest F self (bicgstabSolver F self A x b).2.r_norm
            (bicgstabSolver F self A x b).2.r0_norm = true))) ∧
    (match (gmresSolver F self A fuel x b).2 with
      | none => True
      | some e =>
        e.converged = false ∨
          (e.r0_norm = norm_2 F (residual F A x b) ∧
            (F.lt (norm_2 F (residual F A e.x b)) self.atol = true ∨
              convergenceTest F self e.r_norm e.r0_norm = true))) := by
  constructor
  · unfold bicgstabSolver
    simp only []
    split
    · next hlt => exact Or.inr ⟨rfl, Or.inl hlt⟩
    · cases hc : (bicgstabLoop F self A b (norm_2 F (axpy_prod F A (vneg F x) b false))
          self.max_it (bicgstabInit F A x b (axpy_prod F A (vneg F x) b false))).converged with
      | false => exact Or.inl rfl
      | true =>
        refine Or.inr ⟨rfl, Or.inr ?_⟩
        exact bicgstabLoop_converged F self A b _ self.max_it _ (by simp [bicgstabInit]) hc
  · cases hg : (gmresSolver F self A fuel x b).2 with
    | none => trivial
    | some e =>
      simp only []
      have hg1 : gmresLoop F self A b fuel (gmresInit F self A x) = some e := hg
      cases hc : e.converged with
      | false => exact Or.inl rfl
      | true =>
        refine Or.inr ⟨?_, ?_⟩
        · exact gmresLoop_r0_norm F self A b x fuel _ e (fun _ => rfl)
            (by simp [gmresInit]) hg1 hc
        · exact (gmresLoop_returns F self A b fuel _ e (by simp [gmresInit])
            (by simp [gmresInit]) hg1).2.2 hc

end Convergence

/-! ## C2, C3: the dimension check and the start vector -/

section Facade

variable {R : Type} (F : RealOps R)

/-- C2, as stated, fails: for the 1×2 operator `(1 1)` and a right-hand side of length `1`
the number of rows equals the length of `b`, and `solve` is aborted by the dimension
error all the same, because the check compares the number of columns `A.size(1)`. -/
theorem dimension_check_rows_counterexample :
    rowOfOnes.size 0 = [Dbl.ofInt 1].length ∧
    (solve Dbl.ops 1 looseAbsolute (newSolver SolverType.bicgstab) rowOfOnes
      [Dbl.ofInt 0, Dbl.ofInt 0] [Dbl.ofInt 1]).failed = true := by
  decide

/-- The dimension check of `solve` compares `A.size(1)` with the length of `b`. -/
theorem solve_failed (fuel : Nat) (P : ParameterSource R) (self : uBlasKrylovSolver R)
    (A : uBlasSparseMatrix R) (x b : List R) :
    (solve F fuel P self A x b).failed = decide (A.size 1 ≠ b.length) := by
  unfold solve init
  simp only []
  split
  · next h => simp [dolfin_error, Outcome.failed, h]
  · next h =>
    split <;> simp [Outcome.failed, h]

/-- C2, amended: `solve` fails with the dimension error exactly when `A.size(1)`, the
number of columns of `A`, differs from the length of `b`, and when they are equal it
does not fail; for a square operator this is to say: exactly when the number of rows
`A.size(0)` differs from the length of `b`. -/
theorem solve_failed_iff (fuel : Nat) (P : ParameterSource R) (self : uBlasKrylovSolver R)
    (A : uBlasSparseMatrix R) (x b : List R) :
    ((solve F fuel P self A x b).failed = true ↔ A.size 1 ≠ b.length) ∧
    (A.size 0 = A.size 1 →
      ((solve F fuel P self A x b).failed = true ↔ A.size 0 ≠ b.length)) := by
  rw [solve_failed]
  refine ⟨by simp, fun h => ?_⟩
  rw [h]
  simp

/-- The amended C2 at work: the square 1×1 identity operator with a right-hand side of
length `2`. -/
theorem solve_failed_iff_witness :
    (identity 1).size 0 = (identity 1).size 1 ∧
    ((solve Dbl.ops 1 everyday (newSolver SolverType.bicgstab) (identity 1) [Dbl.ofInt 0]
        [Dbl.ofInt 1, Dbl.ofInt 2]).failed = true ↔
      (identity 1).size 0 ≠ [Dbl.ofInt 1, Dbl.ofInt 2].length) :=
  ⟨rfl,
    (solve_failed_iff Dbl.ops 1 everyday (newSolver SolverType.bicgstab) (identity 1)
      [Dbl.ofInt 0] [Dbl.ofInt 1, Dbl.ofInt 2]).2 rfl⟩

/-- What a call of `solve` returns, in terms of the engine chosen by `dispatch`: the engine
is started from the zero vector of length `b.length`, whatever `x` was passed in. -/
theorem solve_result (fuel : Nat) (P : ParameterSource R) (self : uBlasKrylovSolver R)
    (A : uBlasSparseMatrix R) (x b : List R) :
    (solve F fuel P self A x b).result =
      if A.size 1 ≠ b.length then none
      else (dispatch F fuel (readIfNeeded P self).1 A (vzero F b.length) b).2.map
        EngineExit.result := by
  unfold solve init
  simp only []
  split
  · rfl
  · split
    · next h => simp [Outcome.result, h]
    · next h => simp [Outcome.result, EngineExit.result, h]

/-- The events of a call of `solve` that passes the dimension check: the look-ups of
`readParameters` if they are made, the start message if `report` is set, the messages of
`dispatch`, and the messages of the final convergence check if the engine returned. -/
theorem solve_log (fuel : Nat) (P : ParameterSource R) (self : uBlasKrylovSolver R)
    (A : uBlasSparseMatrix R) (x b : List R) (hdim : A.size 1 = b.length) :
    (solve F fuel P self A x b).log =
      (readIfNeeded P self).2 ++
      (if (readIfNeeded P self).1.report then
        [Event.info "Solving linear system of size %d x %d (uBlas Krylov solver)."
          [A.size 0, A.size 1]]
       else []) ++
      (dispatch F fuel (readIfNeeded P self).1 A (vzero F b.length) b).1 ++
      (match (dispatch F fuel (readIfNeeded P self).1 A (vzero F b.length) b).2 with
       | none => []
       | some e => convergenceEvents (readIfNeeded P self).1.report e.converged e.iterations)
      := by
  unfold solve init
  simp only [hdim, ne_eq, not_true_eq_false, if_false]
  split
  · next l h => cases hr : (readIfNeeded P self).1.report <;> simp [Outcome.log, h, hr]
  · next l e h => cases hr : (readIfNeeded P self).1.report <;> simp [Outcome.log, h, hr]

theorem solve_failed_of_dim (fuel : Nat) (P : ParameterSource R) (self : uBlasKrylovSolver R)
    (A : uBlasSparseMatrix R) (x b : List R) (hdim : A.size 1 = b.length) :
    (solve F fuel P self A x b).failed = false := by
  unfold solve init
  simp only [hdim, ne_eq, not_true_eq_false, if_false]
  split <;> rfl

theorem readIfNeeded_type (P : ParameterSource R) (self : uBlasKrylovSolver R)
    (t : SolverType) :
    (readIfNeeded P { self with type := t }).1 = { (readIfNeeded P self).1 with type := t } ∧
    (readIfNeeded P { self with type := t }).2 = (readIfNeeded P self).2 := by
  unfold readIfNeeded readParameters
  simp only []
  split <;> exact ⟨rfl, rfl⟩

/-- C3: the vector `x` passed in has no influence on what `solve` returns: two calls
that differ only in `x` return the same solution vector, iteration count and `converged`
flag, namely those of the engine started from the zero vector of length `b.length` (and
when the dimension check fails, neither call returns anything). -/
theorem solve_discards_initial_guess (fuel : Nat) (P : ParameterSource R)
    (self : uBlasKrylovSolver R) (A : uBlasSparseMatrix R) (x x' b : List R) :
    (solve F fuel P self A x b).result = (solve F fuel P self A x' b).result ∧
    (solve F fuel P self A x b).result =
      if A.size 1 ≠ b.length then none
      else (dispatch F fuel (readIfNeeded P self).1 A (vzero F b.length) b).2.map
        EngineExit.result :=
  ⟨(solve_result F fuel P self A x b).trans (solve_result F fuel P self A x' b).symm,
    solve_result F fuel P self A x b⟩

end Facade

/-! ## C4: immediate success -/

section Immediate

variable {R : Type} (F : RealOps R)

theorem bicgstabSolver_immediate (self : uBlasKrylovSolver R) (A : uBlasSparseMatrix R)
    (x b : List R) (h : F.lt (norm_2 F (residual F A x b)) self.atol = true) :
    (bicgstabSolver F self A x b).2.result = (x, 0, true) := by
  have h1 : F.lt (norm_2 F (axpy_prod F A (vneg F x) b false)) self.atol = true := h
  simp [bicgstabSolver, h1, EngineExit.result]

theorem gmresSolver_immediate (self : uBlasKrylovSolver R) (A : uBlasSparseMatrix R)
    (fuel : Nat) (x b : List R) (h : F.lt (norm_2 F (residual F A x b)) self.atol = true)
    (hb : 1 ≤ self.max_it) :
    (gmresSolver F self A (fuel + 1) x b).2.map EngineExit.result = some (x, 0, true) := by
  have h1 : F.lt (norm_2 F (axpy_prod F A (vneg F x) b false)) self.atol = true := h
  have hg : gmresGuard self (gmresInit F self A x) = true := by
    simp [gmresGuard, gmresInit]
    omega
  have hx : (gmresInit F self A x).x = x := rfl
  have hi : (gmresInit F self A x).iteration = 0 := rfl
  simp [gmresSolver, gmresLoop, hg, hx, hi, h1, EngineExit.result]

/-- C4, as stated, fails for GMRES: with `max_it = 0` the engine never reaches its test
`beta < atol`.  On the 1×1 identity system with zero right-hand side the initial residual
norm `0` is below `atol = 1/2`, and `solve` with GMRES returns `converged = false`. -/
theorem immediate_success_counterexample :
    Dbl.lt (norm_2 Dbl.ops (residual Dbl.ops (identity 1) [Dbl.ofInt 0] [Dbl.ofInt 0]))
      noBudget.absolute_tolerance = true ∧
    (solve Dbl.ops 1 noBudget (newSolver SolverType.gmres) (identity 1)
      [Dbl.ofInt 0] [Dbl.ofInt 0]).result = some ([Dbl.ofInt 0], 0, false) := by
  decide

/-- C4, amended: for every dimension-compatible system whose initial residual
`b − A·0`, as the engine computes it, has norm below `atol`, `solve` returns
`iterations = 0`, `converged = true` and `x = 0` with BiCGStab for every `max_it`, and
with GMRES whenever `max_it ≥ 1`. -/
theorem immediate_success (fuel : Nat) (P : ParameterSource R) (self : uBlasKrylovSolver R)
    (A : uBlasSparseMatrix R) (x b : List R) (hdim : A.size 1 = b.length)
    (hres : F.lt (norm_2 F (residual F A (vzero F b.length) b))
      (readIfNeeded P self).1.atol = true)
    (hbudget : self.type = SolverType.gmres → 1 ≤ (readIfNeeded P self).1.max_it) :
    (solve F (fuel + 1) P self A x b).result = some (vzero F b.length, 0, true) := by
  rw [solve_result F (fuel + 1) P self A x b]
  have htype : (readIfNeeded P self).1.type = self.type := by
    unfold readIfNeeded readParameters
    split <;> rfl
  simp only [hdim, ne_eq, not_true_eq_false, if_false]
  unfold dispatch
  rw [htype]
  cases ht : self.type with
  | gmres => exact gmresSolver_immediate F _ A fuel _ b hres (hbudget ht)
  | bicgstab => simp [bicgstabSolver_immediate F _ A _ b hres]
  | default_solver => simp [bicgstabSolver_immediate F _ A _ b hres]
  | unknown v => simp [bicgstabSolver_immediate F _ A _ b hres]

/-- The amended C4 at work: GMRES on the 1×1 identity system with zero right-hand side and
`max_it = 2`. -/
theorem immediate_success_witness :
    (identity 1).size 1 = [Dbl.ofInt 0].length ∧
    (solve Dbl.ops (0 + 1) everyday (newSolver SolverType.gmres) (identity 1)
      [Dbl.ofInt 7] [Dbl.ofInt 0]).result = some (vzero Dbl.ops [Dbl.ofInt 0].length, 0, true) :=
  ⟨by decide,
    immediate_success Dbl.ops 0 everyday (newSolver SolverType.gmres) (identity 1)
      [Dbl.ofInt 7] [Dbl.ofInt 0] (by decide) (by decide) (by decide)⟩

end Immediate

/-! ## C5: termination of GMRES -/

/-- C5 fails on the code: with parameters of the usual size, GMRES on the singular 1×1 system
`0·x = 1` never returns.  The first inner step divides `0` by `0`, so `r_norm` and `x`
become NaN; the inner loop stops because `r_norm/beta < div_tol` is false; and from then
on every turn of the outer loop finds `iteration = 1 < max_it`, `converged = false` and an
inner loop that cannot make a pass, so whatever the budget of restart cycles, it is used
up. -/
theorem gmresSolver_never_returns :
    ∀ fuel : Nat,
      (gmresSolver Dbl.ops (readParameters usual (newSolver SolverType.gmres)) zeroEntry
        fuel [Dbl.ofInt 0] [Dbl.ofInt 1]).2 = none := by
  intro fuel
  cases fuel with
  | zero => rfl
  | succ n =>
    show gmresLoop Dbl.ops (readParameters usual (newSolver SolverType.gmres)) zeroEntry
      [Dbl.ofInt 1] (n + 1) (gmresInit Dbl.ops
        (readParameters usual (newSolver SolverType.gmres)) zeroEntry [Dbl.ofInt 0]) = none
    rw [gmresLoop_succ Dbl.ops _ zeroEntry [Dbl.ofInt 1] n _ (by decide) (by decide)]
    exact gmresLoop_spins Dbl.ops _ zeroEntry [Dbl.ofInt 1] n _ (by decide) (by decide)
      (by decide)

/-! ## C6: dispatch -/

section Dispatch

variable {R : Type} (F : RealOps R)

theorem dispatch_bicgstab (fuel : Nat) (self : uBlasKrylovSolver R) (A : uBlasSparseMatrix R)
    (x b : List R) (t : SolverType) (ht : t ≠ SolverType.gmres) :
    (dispatch F fuel { self with type := t } A x b).2 = some (bicgstabSolver F self A x b).2 ∧
    (dispatch F fuel { self with type := t } A x b).1 =
      typeWarnings t ++ [bicgstabWarning] := by
  unfold dispatch
  cases t with
  | gmres => exact absurd rfl ht
  | bicgstab => simp [bicgstabSolver_type, bicgstabSolver_log, typeWarnings]
  | default_solver => simp [bicgstabSolver_type, bicgstabSolver_log, typeWarnings]
  | unknown v => simp [bicgstabSolver_type, bicgstabSolver_log, typeWarnings]

/-- C6: on a dimension-compatible system, `solve` with type `default_solver` returns
exactly what the BiCGStab engine returns (as does type `bicgstab`), with the same
messages; with a type that is none of the enumerators it returns the same, is not
aborted, and its messages are those of the `bicgstab` call with one warning added; with
type `gmres` it returns what the GMRES engine returns. -/
theorem solve_dispatch (fuel : Nat) (P : ParameterSource R) (self : uBlasKrylovSolver R)
    (A : uBlasSparseMatrix R) (x b : List R) (hdim : A.size 1 = b.length) :
    (solve F fuel P { self with type := SolverType.bicgstab } A x b).result =
      some (bicgstabSolver F (readIfNeeded P self).1 A (vzero F b.length) b).2.result ∧
    (solve F fuel P { self with type := SolverType.default_solver } A x b).result =
      some (bicgstabSolver F (readIfNeeded P self).1 A (vzero F b.length) b).2.result ∧
    (solve F fuel P { self with type := SolverType.default_solver } A x b).log =
      (solve F fuel P { self with type := SolverType.bicgstab } A x b).log ∧
    (∀ v : Nat,
      (solve F fuel P { self with type := SolverType.unknown v } A x b).result =
        some (bicgstabSolver F (readIfNeeded P self).1 A (vzero F b.length) b).2.result ∧
      (solve F fuel P { self with type := SolverType.unknown v } A x b).failed = false ∧
      ∃ pre post : List Event,
        (solve F fuel P { self with type := SolverType.bicgstab } A x b).log = pre ++ post ∧
        (solve F fuel P { self with type := SolverType.unknown v } A x b).log =
          pre ++ unknownTypeWarning :: post) ∧
    (solve F fuel P { self with type := SolverType.gmres } A x b).result =
      (gmresSolver F (readIfNeeded P { self with type := SolverType.gmres }).1 A fuel
        (vzero F b.length) b).2.map EngineExit.result := by
  have hres : ∀ t : SolverType, t ≠ SolverType.gmres →
      (solve F fuel P { self with type := t } A x b).result =
        some (bicgstabSolver F (readIfNeeded P self).1 A (vzero F b.length) b).2.result := by
    intro t ht
    rw [solve_result, (readIfNeeded_type P self t).1,
      (dispatch_bicgstab F fuel _ A _ b t ht).1]
    simp [hdim]
  have hlog : ∀ t : SolverType, t ≠ SolverType.gmres →
      (solve F fuel P { self with type := t } A x b).log =
        ((readIfNeeded P self).2 ++
          (if (readIfNeeded P self).1.report then
            [Event.info "Solving linear system of size %d x %d (uBlas Krylov solver)."
              [A.size 0, A.size 1]]
           else [])) ++
        (typeWarnings t ++ [bicgstabWarning] ++
        convergenceEvents (readIfNeeded P self).1.report
          (bicgstabSolver F (readIfNeeded P self).1 A (vzero F b.length) b).2.converged
          (bicgstabSolver F (readIfNeeded P self).1 A (vzero F b.length) b).2.iterations) := by
    intro t ht
    rw [solve_log F fuel P _ A x b hdim, (readIfNeeded_type P self t).1,
      (readIfNeeded_type P self t).2, (dispatch_bicgstab F fuel _ A _ b t ht).1,
      (dispatch_bicgstab F fuel _ A _ b t ht).2]
    simp
  refine ⟨hres _ (by simp), hres _ (by simp), ?_, ?_, ?_⟩
  · rw [hlog _ (by simp), hlog _ (by simp)]
    simp [typeWarnings]
  · intro v
    refine ⟨hres _ (by simp), solve_failed_of_dim F fuel P _ A x b hdim, _, _,
      hlog _ (by simp), ?_⟩
    rw [hlog _ (by simp)]
    simp [typeWarnings]
  · have ht : (readIfNeeded P { self with type := SolverType.gmres }).1.type =
        SolverType.gmres := by
      rw [(readIfNeeded_type P self SolverType.gmres).1]
    rw [solve_result]
    simp [hdim, dispatch, ht]

/-- C6 at work on the 1×1 identity system `x = 1`. -/
theorem solve_dispatch_witness :
    (identity 1).size 1 = [Dbl.ofInt 1].length ∧
    (solve Dbl.ops 1 everyday
        { newSolver SolverType.gmres with type := SolverType.default_solver } (identity 1)
        [Dbl.ofInt 0] [Dbl.ofInt 1]).result =
      some (bicgstabSolver Dbl.ops (readIfNeeded everyday (newSolver SolverType.gmres)).1
        (identity 1) (vzero Dbl.ops [Dbl.ofInt 1].length) [Dbl.ofInt 1]).2.result :=
  ⟨by decide,
    (solve_dispatch Dbl.ops 1 everyday (newSolver SolverType.gmres) (identity 1)
      [Dbl.ofInt 0] [Dbl.ofInt 1] (by decide)).2.1⟩

end Dispatch

/-! ## C7: the identity operator -/

/-- C7 fails on the code for BiCGStab: on the identity system `x = 1` (tolerances `1/2`,
`div_tol = 10000`, `max_it = 2`, restart `1`) the first pass finds `alpha = 1`, hence
`s = r − alpha·A·p = 0`, `As = 0` and `omega = (As, s)/(As, As) = 0/0`, which is NaN; `x`
and `r_norm` become NaN, no convergence test passes and the divergence test ends the
loop.  `solve` returns `converged = false` after one iteration with `x = NaN`, and
likewise on the 2×2 identity system with `b = (3, 4)`.  (Every value in these runs is a
small integer or NaN, so they are the runs of the machine.)  GMRES on the system `x = 1`
returns `x = 1` after one iteration with `converged = true`. -/
theorem bicgstab_identity_breakdown :
    (solve Dbl.ops 1 everyday (newSolver SolverType.bicgstab) (identity 1)
      [Dbl.ofInt 0] [Dbl.ofInt 1]).result = some ([Dbl.nan], 1, false) ∧
    (solve Dbl.ops 1 everyday (newSolver SolverType.bicgstab) (identity 2)
      [Dbl.ofInt 0, Dbl.ofInt 0] [Dbl.ofInt 3, Dbl.ofInt 4]).result =
        some ([Dbl.nan, Dbl.nan], 1, false) ∧
    (solve Dbl.ops 1 everyday (newSolver SolverType.gmres) (identity 1)
      [Dbl.ofInt 0] [Dbl.ofInt 1]).result = some ([Dbl.ofInt 1], 1, true) := by
  decide

/-! ## C8: non-convergence as a soft outcome -/

section SoftOutcome

variable {R : Type} (F : RealOps R)

/-- A call that passes the dimension check and whose engine does not return within the
budget is still running. -/
theorem solve_running (fuel : Nat) (P : ParameterSource R) (self : uBlasKrylovSolver R)
    (A : uBlasSparseMatrix R) (x b : List R) (hdim : A.size 1 = b.length)
    (h : (dispatch F fuel (readIfNeeded P self).1 A (vzero F b.length) b).2 = none) :
    ∃ log : List Event, solve F fuel P self A x b = Outcome.running (readIfNeeded P self).1 log := by
  unfold solve init
  simp only [hdim, ne_eq, not_true_eq_false, if_false]
  split
  · exact ⟨_, rfl⟩
  · next l e he => rw [he] at h; exact absurd h (by simp)

/-- C8 fails on the code for GMRES: a tripped divergence guard does not make `solve`
return.  On the quarter-turn system `A·x = (1, 0)` with restart `1` and `div_tol = 1` the
first restart cycle ends with `r_norm = 1`, `x = 0` and `iteration = 1 < max_it = 5`; in
every later cycle `r_norm/beta = 1 < div_tol` is false, no inner step runs, and the outer
loop goes on: whatever the budget of restart cycles, the call is still running. -/
theorem solve_gmres_guard_tripped_never_returns :
    ∀ fuel : Nat, ∃ log : List Event,
      solve Dbl.ops fuel impatient (newSolver SolverType.gmres) quarterTurn
        [Dbl.ofInt 0, Dbl.ofInt 0] [Dbl.ofInt 1, Dbl.ofInt 0] =
      Outcome.running (readParameters impatient (newSolver SolverType.gmres)) log := by
  intro fuel
  refine solve_running Dbl.ops fuel impatient (newSolver SolverType.gmres) quarterTurn _ _
    (by decide) ?_
  show gmresLoop Dbl.ops (readParameters impatient (newSolver SolverType.gmres)) quarterTurn
    [Dbl.ofInt 1, Dbl.ofInt 0] fuel (gmresInit Dbl.ops
      (readParameters impatient (newSolver SolverType.gmres)) quarterTurn
      [Dbl.ofInt 0, Dbl.ofInt 0]) = none
  cases fuel with
  | zero => rfl
  | succ n =>
    rw [gmresLoop_succ Dbl.ops _ quarterTurn _ n _ (by decide) (by decide)]
    exact gmresLoop_spins Dbl.ops _ quarterTurn _ n _ (by decide) (by decide) (by decide)

end SoftOutcome

/-! ## C9: the parameters are read once -/

section ReadOnce

variable {R : Type} (F : RealOps R)

theorem readIfNeeded_of_read (P : ParameterSource R) (self : uBlasKrylovSolver R)
    (h : self.parameters_read = true) : readIfNeeded P self = (self, []) := by
  simp [readIfNeeded, h]

theorem readIfNeeded_parameters_read (P : ParameterSource R) (self : uBlasKrylovSolver R) :
    (readIfNeeded P self).1.parameters_read = true := by
  unfold readIfNeeded
  cases h : self.parameters_read <;> simp [h, readParameters]

theorem readIfNeeded_count (P : ParameterSource R) (self : uBlasKrylovSolver R)
    (key : String) : (readIfNeeded P self).2.count (Event.get key) ≤ 1 := by
  unfold readIfNeeded
  split
  · have hn : readParametersEvents.Nodup := by decide
    exact List.nodup_iff_count_le_one.mp hn _
  · simp

theorem solve_solver (fuel : Nat) (P : ParameterSource R) (self : uBlasKrylovSolver R)
    (A : uBlasSparseMatrix R) (x b : List R) :
    (solve F fuel P self A x b).solver =
      if A.size 1 ≠ b.length then self else (readIfNeeded P self).1 := by
  unfold solve init
  simp only []
  split
  · rfl
  · split <;> rfl

theorem dispatch_log_count (fuel : Nat) (self : uBlasKrylovSolver R)
    (A : uBlasSparseMatrix R) (x b : List R) (key : String) :
    (dispatch F fuel self A x b).1.count (Event.get key) = 0 := by
  unfold dispatch
  split <;>
    simp [gmresSolver, bicgstabSolver_log, gmresWarning, bicgstabWarning, unknownTypeWarning]

/-- The look-ups in the parameter source during a call of `solve` are those of
`readIfNeeded`, and there are none when the call is aborted. -/
theorem solve_log_count (fuel : Nat) (P : ParameterSource R) (self : uBlasKrylovSolver R)
    (A : uBlasSparseMatrix R) (x b : List R) (key : String) :
    (solve F fuel P self A x b).log.count (Event.get key) =
      if A.size 1 ≠ b.length then 0 else (readIfNeeded P self).2.count (Event.get key) := by
  by_cases hdim : A.size 1 = b.length
  · rw [solve_log F fuel P self A x b hdim]
    simp only [hdim, ne_eq, not_true_eq_false, if_false, List.count_append,
      dispatch_log_count]
    have h1 : (if (readIfNeeded P self).1.report then
        [Event.info "Solving linear system of size %d x %d (uBlas Krylov solver)."
          [A.size 0, b.length]]
       else []).count (Event.get key) = 0 := by
      split <;> simp
    have h2 : (match (dispatch F fuel (readIfNeeded P self).1 A (vzero F b.length) b).2 with
       | none => []
       | some e => convergenceEvents (readIfNeeded P self).1.report e.converged
          e.iterations).count (Event.get key) = 0 := by
      split
      · simp
      · unfold convergenceEvents
        split
        · simp
        · split <;> simp
    rw [h1, h2]
    simp
  · unfold solve init
    simp [hdim, dolfin_error, Outcome.log]

/-- Once the parameters have been read, a call neither changes the solver object nor
looks at the parameter source. -/
theorem solve_of_read (fuel : Nat) (P P' : ParameterSource R) (self : uBlasKrylovSolver R)
    (A : uBlasSparseMatrix R) (x b : List R) (h : self.parameters_read = true) :
    solve F fuel P self A x b = solve F fuel P' self A x b ∧
    (solve F fuel P self A x b).solver = self ∧
    ∀ key : String, (solve F fuel P self A x b).log.count (Event.get key) = 0 := by
  refine ⟨?_, ?_, ?_⟩
  · unfold solve init
    simp only [readIfNeeded_of_read P self h, readIfNeeded_of_read P' self h]
  · rw [solve_solver, readIfNeeded_of_read P self h]
    simp
  · intro key
    rw [solve_log_count, readIfNeeded_of_read P self h]
    simp

theorem solveAll_cons (fuel : Nat) (self : uBlasKrylovSolver R) (c : Call R)
    (cs : List (Call R)) :
    solveAll F fuel self (c :: cs) = [solve F fuel c.P self c.A c.x c.b] ∨
    solveAll F fuel self (c :: cs) =
      solve F fuel c.P self c.A c.x c.b ::
        solveAll F fuel (solve F fuel c.P self c.A c.x c.b).solver cs := by
  cases h : solve F fuel c.P self c.A c.x c.b with
  | running s l => left; simp [solveAll, h]
  | dolfin_error s y l => right; simp [solveAll, h]
  | returned s y i cv l => right; simp [solveAll, h]

/-- Once the parameters have been read, every later call leaves the solver object as it
is, makes no look-up, and does not depend on the parameter source. -/
theorem solveAll_of_read (fuel : Nat) (cs : List (Call R)) :
    ∀ (self : uBlasKrylovSolver R), self.parameters_read = true →
      (∀ o ∈ solveAll F fuel self cs,
        o.solver = self ∧ ∀ key : String, o.log.count (Event.get key) = 0) ∧
      (∀ key : String, (trace (solveAll F fuel self cs)).count (Event.get key) = 0) ∧
      (∀ cs' : List (Call R), cs.map Call.system = cs'.map Call.system →
        solveAll F fuel self cs = solveAll F fuel self cs') := by
  induction cs with
  | nil =>
    intro self _
    refine ⟨by simp [solveAll], by simp [solveAll, trace], ?_⟩
    intro cs' h
    cases cs' with
    | nil => rfl
    | cons c' cs' => simp at h
  | cons c cs ih =>
    intro self h
    have hs := solve_of_read F fuel c.P c.P self c.A c.x c.b h
    have ih1 := ih self h
    refine ⟨?_, ?_, ?_⟩
    · intro o ho
      rcases solveAll_cons F fuel self c cs with h1 | h1
      · rw [h1] at ho
        simp at ho
        rw [ho]; exact hs.2
      · rw [h1, hs.2.1] at ho
        simp at ho
        rcases ho with ho | ho
        · rw [ho]; exact hs.2
        · exact ih1.1 o ho
    · intro key
      rcases solveAll_cons F fuel self c cs with h1 | h1
      · rw [h1]
        simp [trace, hs.2.2 key]
      · rw [h1, hs.2.1]
        have := ih1.2.1 key
        simp only [trace, List.map_cons, List.flatten_cons, List.count_append, hs.2.2 key] at this ⊢
        simpa using this
    · intro cs' hm
      cases cs' with
      | nil => simp at hm
      | cons c' cs' =>
        simp only [List.map_cons, List.cons.injEq, Call.system, Prod.mk.injEq] at hm
        obtain ⟨⟨hA, hx, hb⟩, hrest⟩ := hm
        have hsame : solve F fuel c.P self c.A c.x c.b = solve F fuel c'.P self c'.A c'.x c'.b := by
          rw [hA, hx, hb]
          exact (solve_of_read F fuel c.P c'.P self c'.A c'.x c'.b h).1
        have hrec := ih1.2.2 cs' hrest
        cases ho : solve F fuel c.P self c.A c.x c.b with
        | running s l =>
          have ho' := hsame ▸ ho
          simp [solveAll, ho, ho']
        | dolfin_error s y l =>
          have ho' := hsame ▸ ho
          have hsol : s = self := by have := hs.2.1; rw [ho] at this; exact this
          simp [solveAll, ho, ho', Outcome.solver, hsol, hrec]
        | returned s y i cv l =>
          have ho' := hsame ▸ ho
          have hsol : s = self := by have := hs.2.1; rw [ho] at this; exact this
          simp [solveAll, ho, ho', Outcome.solver, hsol, hrec]

theorem solveAll_count (fuel : Nat) (key : String) (cs : List (Call R)) :
    ∀ self : uBlasKrylovSolver R,
      (trace (solveAll F fuel self cs)).count (Event.get key) ≤ 1 := by
  induction cs with
  | nil => intro self; simp [solveAll, trace]
  | cons c cs ih =>
    intro self
    have hlog := solve_log_count F fuel c.P self c.A c.x c.b key
    have hone := readIfNeeded_count c.P self key
    have hsol := solve_solver F fuel c.P self c.A c.x c.b
    rcases solveAll_cons F fuel self c cs with h1 | h1
    · rw [h1]
      simp only [trace, List.map_cons, List.map_nil, List.flatten_cons, List.flatten_nil,
        List.append_nil, hlog]
      split
      · exact Nat.zero_le _
      · exact hone
    · rw [h1]
      simp only [trace, List.map_cons, List.flatten_cons, List.count_append]
      by_cases hdim : c.A.size 1 = c.b.length
      · have hrd : (solve F fuel c.P self c.A c.x c.b).solver.parameters_read = true := by
          rw [hsol]
          simp [hdim, readIfNeeded_parameters_read]
        have hz := (solveAll_of_read F fuel cs _ hrd).2.1 key
        simp only [trace] at hz
        rw [hz, hlog]
        simpa [hdim] using hone
      · have hs' : (solve F fuel c.P self c.A c.x c.b).solver = self := by
          rw [hsol]
          simp [hdim]
        have := ih self
        simp only [trace] at this
        rw [hs', hlog]
        simpa [hdim] using this

theorem solveAll_settled (fuel : Nat) (cs : List (Call R)) :
    ∀ (self : uBlasKrylovSolver R) (i j : Nat) (oi oj : Outcome R), i < j →
      (solveAll F fuel self cs)[i]? = some oi → (solveAll F fuel self cs)[j]? = some oj →
      oi.failed = false →
      oi.solver.parameters_read = true ∧ oj.solver = oi.solver ∧
        ∀ key : String, oj.log.count (Event.get key) = 0 := by
  induction cs with
  | nil => intro self i j oi oj _ hi; simp [solveAll] at hi
  | cons c cs ih =>
    intro self i j oi oj hij hi hj hf
    rcases solveAll_cons F fuel self c cs with h1 | h1
    · rw [h1] at hj
      cases j with
      | zero => omega
      | succ j => simp at hj
    · rw [h1] at hi hj
      cases j with
      | zero => omega
      | succ j =>
        rw [List.getElem?_cons_succ] at hj
        cases i with
        | zero =>
          rw [List.getElem?_cons_zero] at hi
          have hoi := Option.some.inj hi
          subst hoi
          have hdim : c.A.size 1 = c.b.length := by
            rw [solve_failed] at hf
            simpa using hf
          have hrd : (solve F fuel c.P self c.A c.x c.b).solver.parameters_read = true := by
            rw [solve_solver]
            simp [hdim, readIfNeeded_parameters_read]
          have := (solveAll_of_read F fuel cs _ hrd).1 oj (List.getElem?_mem hj)
          exact ⟨hrd, this.1, this.2⟩
        | succ i =>
          rw [List.getElem?_cons_succ] at hi
          exact ih _ i j oi oj (by omega) hi hj hf

theorem solveAll_sources (fuel : Nat) (c : Call R) (post post' : List (Call R))
    (hdim : c.A.size 1 = c.b.length)
    (hpost : post.map Call.system = post'.map Call.system) (pre : List (Call R)) :
    ∀ self : uBlasKrylovSolver R,
      solveAll F fuel self (pre ++ c :: post) = solveAll F fuel self (pre ++ c :: post') := by
  induction pre with
  | nil =>
    intro self
    have hrd : (solve F fuel c.P self c.A c.x c.b).solver.parameters_read = true := by
      rw [solve_solver]
      simp [hdim, readIfNeeded_parameters_read]
    have := (solveAll_of_read F fuel post _ hrd).2.2 post' hpost
    cases ho : solve F fuel c.P self c.A c.x c.b with
    | running s l => simp [solveAll, ho]
    | dolfin_error s y l =>
      rw [ho] at this
      simp [solveAll, ho, this]
    | returned s y i cv l =>
      rw [ho] at this
      simp [solveAll, ho, this]
  | cons p pre ih =>
    intro self
    cases ho : solve F fuel p.P self p.A p.x p.b with
    | running s l => simp [solveAll, ho]
    | dolfin_error s y l => simp [solveAll, ho, ih]
    | returned s y i cv l => simp [solveAll, ho, ih]

/-- C9: in any sequence of calls of `solve` on one solver object, each parameter is
looked up at most once in all; after a call that has passed the dimension check, the flag
`parameters_read` is set, every later call leaves the solver object (so `rtol`, `atol`,
`div_tol`, `max_it`, `restart` and `report`) as that call left it and makes no look-up;
and the outcomes of the whole sequence stay the same when the calls after it find other
values in the parameter source. -/
theorem parameters_read_once (fuel : Nat) (self : uBlasKrylovSolver R)
    (calls : List (Call R)) :
    (∀ key : String, (trace (solveAll F fuel self calls)).count (Event.get key) ≤ 1) ∧
    (∀ (i j : Nat) (oi oj : Outcome R), i < j →
      (solveAll F fuel self calls)[i]? = some oi →
      (solveAll F fuel self calls)[j]? = some oj →
      oi.failed = false →
      oi.solver.parameters_read = true ∧ oj.solver = oi.solver ∧
        ∀ key : String, oj.log.count (Event.get key) = 0) ∧
    (∀ (pre post post' : List (Call R)) (c : Call R), calls = pre ++ c :: post →
      c.A.size 1 = c.b.length → post.map Call.system = post'.map Call.system →
      solveAll F fuel self calls = solveAll F fuel self (pre ++ c :: post')) := by
  refine ⟨fun key => solveAll_count F fuel key calls self,
    solveAll_settled F fuel calls self, ?_⟩
  intro pre post post' c hc hdim hpost
  rw [hc]
  exact solveAll_sources F fuel c post post' hdim hpost pre self
/-- C9 at work: two calls on a fresh GMRES solver, the second made after the parameter
source has changed from `everyday` to `noBudget` (or to `usual`). -/
theorem parameters_read_once_witness :
    (trace (solveAll Dbl.ops 3 (newSolver SolverType.gmres)
      [firstCall, laterCall noBudget])).count (Event.get "Krylov maximum iterations") ≤ 1 ∧
    firstCall.A.size 1 = firstCall.b.length ∧
    solveAll Dbl.ops 3 (newSolver SolverType.gmres) [firstCall, laterCall noBudget] =
      solveAll Dbl.ops 3 (newSolver SolverType.gmres) ([] ++ firstCall :: [laterCall usual]) :=
  ⟨(parameters_read_once Dbl.ops 3 (newSolver SolverType.gmres)
      [firstCall, laterCall noBudget]).1 "Krylov maximum iterations",
    by decide,
    (parameters_read_once Dbl.ops 3 (newSolver SolverType.gmres)
      [firstCall, laterCall noBudget]).2.2 [] [laterCall noBudget] [laterCall usual] firstCall
      rfl (by decide) rfl⟩

end ReadOnce

/-! ## C10: a dimension mismatch comes first -/

section Mismatch

variable {R : Type} (F : RealOps R)

/-- C10: for an operator with `N` columns (an `N×N` operator in particular) and a
right-hand side of length `N + 1`, `solve` is aborted by the dimension error with the
solver object and `x` exactly as they were passed in, and the error message is the only
event of the call: no look-up in the parameter source, no message of an engine. -/
theorem dimension_mismatch_aborts_first (fuel : Nat) (P : ParameterSource R)
    (self : uBlasKrylovSolver R) (A : uBlasSparseMatrix R) (x b : List R) (N : Nat)
    (hA : A.size 1 = N) (hb : b.length = N + 1) :
    solve F fuel P self A x b =
      Outcome.dolfin_error self x
        [Event.error "Non-matching dimensions for linear system."] := by
  have h : A.size 1 ≠ b.length := by omega
  simp [solve, h, dolfin_error]

/-- C10 at work: the 1×1 identity operator with a right-hand side of length `2`. -/
theorem dimension_mismatch_aborts_first_witness :
    (identity 1).size 1 = 1 ∧ [Dbl.ofInt 1, Dbl.ofInt 2].length = 1 + 1 ∧
    solve Dbl.ops 1 everyday (newSolver SolverType.gmres) (identity 1) [Dbl.ofInt 5]
        [Dbl.ofInt 1, Dbl.ofInt 2] =
      Outcome.dolfin_error (newSolver SolverType.gmres) [Dbl.ofInt 5]
        [Event.error "Non-matching dimensions for linear system."] :=
  ⟨rfl, rfl,
    dimension_mismatch_aborts_first Dbl.ops 1 everyday (newSolver SolverType.gmres)
      (identity 1) [Dbl.ofInt 5] [Dbl.ofInt 1, Dbl.ofInt 2] 1 rfl rfl⟩

end Mismatch

/-! ## C11: the messages after the engine has returned -/

section Diagnostics

variable {R : Type} (F : RealOps R)

theorem dispatch_log_mem (fuel : Nat) (self : uBlasKrylovSolver R) (A : uBlasSparseMatrix R)
    (x b : List R) (ev : Event) (h : ev ∈ (dispatch F fuel self A x b).1) :
    ev = gmresWarning ∨ ev = bicgstabWarning ∨ ev = unknownTypeWarning := by
  unfold dispatch at h
  split at h
  · simp [gmresSolver] at h; exact Or.inl h
  · simp [bicgstabSolver_log] at h; exact Or.inr (Or.inl h)
  · simp [bicgstabSolver_log] at h; exact Or.inr (Or.inl h)
  · simp [bicgstabSolver_log] at h
    rcases h with h | h
    · exact Or.inr (Or.inr h)
    · exact Or.inr (Or.inl h)

theorem readIfNeeded_log_mem (P : ParameterSource R) (self : uBlasKrylovSolver R)
    (ev : Event) (h : ev ∈ (readIfNeeded P self).2) : ∃ key : String, ev = Event.get key := by
  unfold readIfNeeded at h
  split at h
  · simp [readParametersEvents] at h
    rcases h with h | h | h | h | h | h <;> exact ⟨_, h⟩
  · simp at h

/-- Before the final convergence check a call of `solve` has emitted neither of the two
messages of that check. -/
theorem solve_log_before (fuel : Nat) (P : ParameterSource R) (self : uBlasKrylovSolver R)
    (A : uBlasSparseMatrix R) (x b : List R) (ev : Event)
    (hev : ev = notConvergedWarning ∨ ∃ k : Nat, ev = convergedInfo k) :
    ((readIfNeeded P self).2 ++
      (if (readIfNeeded P self).1.report then
        [Event.info "Solving linear system of size %d x %d (uBlas Krylov solver)."
          [A.size 0, A.size 1]]
       else []) ++
      (dispatch F fuel (readIfNeeded P self).1 A x b).1).count ev = 0 := by
  rw [List.count_eq_zero]
  intro hmem
  simp only [List.mem_append] at hmem
  rcases hmem with (hmem | hmem) | hmem
  · obtain ⟨key, hk⟩ := readIfNeeded_log_mem P self ev hmem
    rcases hev with h | ⟨k, h⟩ <;> rw [h] at hk <;>
      simp [notConvergedWarning, convergedInfo] at hk
  · split at hmem
    · simp only [List.mem_singleton] at hmem
      rcases hev with h | ⟨k, h⟩ <;> rw [h] at hmem <;>
        simp [notConvergedWarning, convergedInfo] at hmem
    · simp at hmem
  · rcases dispatch_log_mem F fuel _ A x b ev hmem with h1 | h1 | h1 <;>
      rcases hev with h | ⟨k, h⟩ <;> rw [h] at h1 <;>
        simp [notConvergedWarning, convergedInfo, gmresWarning, bicgstabWarning,
          unknownTypeWarning] at h1

/-- C11, as stated, fails: a solve with `report` set that does not converge emits the
warning only.  BiCGStab on the system `x = 1` with `max_it = 0` returns `0` without
convergence; the events of the call are the six look-ups, the start message, the warning
about preconditioning and the warning about non-convergence, and no message carries the
iteration count. -/
theorem report_and_failure_counterexample :
    solve Dbl.ops 1 (reporting noBudget) (newSolver SolverType.bicgstab) (identity 1)
        [Dbl.ofInt 0] [Dbl.ofInt 1] =
      Outcome.returned (readParameters (reporting noBudget) (newSolver SolverType.bicgstab))
        [Dbl.ofInt 0] 0 false
        (readParametersEvents ++
          [Event.info "Solving linear system of size %d x %d (uBlas Krylov solver)." [1, 1],
           bicgstabWarning, notConvergedWarning]) := by
  rfl

/-- C11, amended: for every solve whose engine returns, the value returned is the engine's
iteration count; if `converged` is false the non-convergence warning is emitted once and
no message carries the iteration count, whatever `report` is; if `converged` is true
and `report` is set, the informational message with the iteration count is emitted once
and no warning about convergence; otherwise neither is emitted.  These messages close
the events of the call. -/
theorem solve_diagnostics (fuel : Nat) (P : ParameterSource R) (self : uBlasKrylovSolver R)
    (A : uBlasSparseMatrix R) (x b : List R) (e : EngineExit R)
    (hdim : A.size 1 = b.length)
    (he : (dispatch F fuel (readIfNeeded P self).1 A (vzero F b.length) b).2 = some e) :
    (solve F fuel P self A x b).result = some (e.x, e.iterations, e.converged) ∧
    (∃ before : List Event,
      (solve F fuel P self A x b).log = before ++
        (if e.converged = false then [notConvergedWarning]
         else if (readIfNeeded P self).1.report = true then [convergedInfo e.iterations]
         else [])) ∧
    (solve F fuel P self A x b).log.count notConvergedWarning =
      (if e.converged = false then 1 else 0) ∧
    (∀ k : Nat, (solve F fuel P self A x b).log.count (convergedInfo k) =
      if e.converged = true ∧ (readIfNeeded P self).1.report = true ∧ k = e.iterations
      then 1 else 0) := by
  have hlog := solve_log F fuel P self A x b hdim
  rw [he] at hlog
  simp only [] at hlog
  have hclose : convergenceEvents (readIfNeeded P self).1.report e.converged e.iterations =
      (if e.converged = false then [notConvergedWarning]
       else if (readIfNeeded P self).1.report = true then [convergedInfo e.iterations]
       else []) := by
    unfold convergenceEvents notConvergedWarning convergedInfo
    cases e.converged <;> simp
  rw [hclose] at hlog
  refine ⟨?_, ⟨_, hlog⟩, ?_, ?_⟩
  · rw [solve_result, he]
    simp [hdim, EngineExit.result]
  · rw [hlog, List.count_append,
      solve_log_before F fuel P self A (vzero F b.length) b _ (Or.inl rfl)]
    cases hc : e.converged
    · simp
    · cases hr : (readIfNeeded P self).1.report <;>
        simp [notConvergedWarning, convergedInfo]
  · intro k
    rw [hlog, List.count_append,
      solve_log_before F fuel P self A (vzero F b.length) b _ (Or.inr ⟨k, rfl⟩)]
    cases hc : e.converged
    · simp [notConvergedWarning, convergedInfo]
    · cases hr : (readIfNeeded P self).1.report
      · simp
      · by_cases hk : k = e.iterations
        · simp [hk]
        · have : ¬ e.iterations = k := fun h => hk h.symm
          simp [hk, convergedInfo, this]

/-- The amended C11 at work: GMRES with `report` set on the 1×1 identity system `x = 1`,
which converges after one iteration. -/
theorem solve_diagnostics_witness :
    (identity 1).size 1 = [Dbl.ofInt 1].length ∧
    (solve Dbl.ops 1 (reporting everyday) (newSolver SolverType.gmres) (identity 1)
      [Dbl.ofInt 0] [Dbl.ofInt 1]).log.count (convergedInfo 1) = 1 :=
  ⟨rfl,
    ((solve_diagnostics Dbl.ops 1 (reporting everyday) (newSolver SolverType.gmres)
      (identity 1) [Dbl.ofInt 0] [Dbl.ofInt 1]
      { x := [Dbl.ofInt 1], iterations := 1, converged := true, r_norm := Dbl.ofInt 0,
        r0_norm := Dbl.ofInt 1 } rfl rfl).2.2.2 1).trans (by decide)⟩

end Diagnostics

/-! ## Exact arithmetic: vectors -/

section ExactVectors

variable {R : Type} [LinearOrderedField R] (sqrt : R → R)

@[simp] theorem exactOps_zero : (exactOps sqrt).zero = 0 := rfl
@[simp] theorem exactOps_add (a b : R) : (exactOps sqrt).add a b = a + b := rfl
@[simp] theorem exactOps_sub (a b : R) : (exactOps sqrt).sub a b = a - b := rfl
@[simp] theorem exactOps_mul (a b : R) : (exactOps sqrt).mul a b = a * b := rfl
@[simp] theorem exactOps_div (a b : R) : (exactOps sqrt).div a b = a / b := rfl
@[simp] theorem exactOps_neg (a : R) : (exactOps sqrt).neg a = -a := rfl
@[simp] theorem exactOps_sqrt (a : R) : (exactOps sqrt).sqrt a = sqrt a := rfl
@[simp] theorem exactOps_fabs (a : R) : (exactOps sqrt).fabs a = |a| := rfl
@[simp] theorem exactOps_lt (a b : R) : (exactOps sqrt).lt a b = decide (a < b) := rfl

@[simp] theorem length_vzero (n : Nat) : (vzero (exactOps sqrt) n).length = n := by
  simp [vzero]

@[simp] theorem vget_vzero (n p : Nat) : vget (exactOps sqrt) (vzero (exactOps sqrt) n) p = 0 := by
  simp only [vget, vzero, exactOps_zero, List.getD_eq_getElem?_getD, List.getElem?_replicate]
  split <;> rfl

theorem vget_of_le (u : List R) (p : Nat) (h : u.length ≤ p) : vget (exactOps sqrt) u p = 0 := by
  simp [vget, List.getD_eq_getElem?_getD, List.getElem?_eq_none h]

theorem vget_of_lt (u : List R) (p : Nat) (h : p < u.length) :
    vget (exactOps sqrt) u p = u[p] := by
  simp [vget, List.getD_eq_getElem?_getD, List.getElem?_eq_getElem h]

theorem length_vadd (u v : List R) (h : u.length = v.length) :
    (vadd (exactOps sqrt) u v).length = u.length := by
  simp [vadd, h]

theorem length_vsub (u v : List R) (h : u.length = v.length) :
    (vsub (exactOps sqrt) u v).length = u.length := by
  simp [vsub, h]

@[simp] theorem length_vscale (a : R) (u : List R) :
    (vscale (exactOps sqrt) a u).length = u.length := by
  simp [vscale]

@[simp] theorem length_vdiv (a : R) (u : List R) :
    (vdiv (exactOps sqrt) u a).length = u.length := by
  simp [vdiv]

@[simp] theorem length_vneg (u : List R) : (vneg (exactOps sqrt) u).length = u.length := by
  simp [vneg]

theorem vget_vadd (u v : List R) (h : u.length = v.length) (p : Nat) :
    vget (exactOps sqrt) (vadd (exactOps sqrt) u v) p =
      vget (exactOps sqrt) u p + vget (exactOps sqrt) v p := by
  by_cases hp : p < u.length
  · have hv : p < v.length := h ▸ hp
    have hw : p < (vadd (exactOps sqrt) u v).length := by rw [length_vadd _ _ _ h]; exact hp
    rw [vget_of_lt sqrt u p hp, vget_of_lt sqrt v p hv, vget_of_lt sqrt _ p hw]
    simp [vadd]
  · have hu : u.length ≤ p := not_lt.mp hp
    have hv : v.length ≤ p := h ▸ hu
    have hw : (vadd (exactOps sqrt) u v).length ≤ p := by rw [length_vadd _ _ _ h]; exact hu
    rw [vget_of_le sqrt u p hu, vget_of_le sqrt v p hv, vget_of_le sqrt _ p hw]
    simp

theorem vget_vsub (u v : List R) (h : u.length = v.length) (p : Nat) :
    vget (exactOps sqrt) (vsub (exactOps sqrt) u v) p =
      vget (exactOps sqrt) u p - vget (exactOps sqrt) v p := by
  by_cases hp : p < u.length
  · have hv : p < v.length := h ▸ hp
    have hw : p < (vsub (exactOps sqrt) u v).length := by rw [length_vsub _ _ _ h]; exact hp
    rw [vget_of_lt sqrt u p hp, vget_of_lt sqrt v p hv, vget_of_lt sqrt _ p hw]
    simp [vsub]
  · have hu : u.length ≤ p := not_lt.mp hp
    have hv : v.length ≤ p := h ▸ hu
    have hw : (vsub (exactOps sqrt) u v).length ≤ p := by rw [length_vsub _ _ _ h]; exact hu
    rw [vget_of_le sqrt u p hu, vget_of_le sqrt v p hv, vget_of_le sqrt _ p hw]
    simp

@[simp] theorem vget_vscale (a : R) (u : List R) (p : Nat) :
    vget (exactOps sqrt) (vscale (exactOps sqrt) a u) p = a * vget (exactOps sqrt) u p := by
  by_cases hp : p < u.length
  · rw [vget_of_lt sqrt u p hp, vget_of_lt sqrt (vscale (exactOps sqrt) a u) p (by simpa using hp)]
    simp [vscale]
  · rw [vget_of_le sqrt u p (not_lt.mp hp),
      vget_of_le sqrt (vscale (exactOps sqrt) a u) p (by simpa using hp)]
    simp

@[simp] theorem vget_vdiv (a : R) (u : List R) (p : Nat) :
    vget (exactOps sqrt) (vdiv (exactOps sqrt) u a) p = vget (exactOps sqrt) u p / a := by
  by_cases hp : p < u.length
  · rw [vget_of_lt sqrt u p hp, vget_of_lt sqrt (vdiv (exactOps sqrt) u a) p (by simpa using hp)]
    simp [vdiv]
  · rw [vget_of_le sqrt u p (not_lt.mp hp),
      vget_of_le sqrt (vdiv (exactOps sqrt) u a) p (by simpa using hp)]
    simp

@[simp] theorem vget_vneg (u : List R) (p : Nat) :
    vget (exactOps sqrt) (vneg (exactOps sqrt) u) p = - vget (exactOps sqrt) u p := by
  by_cases hp : p < u.length
  · rw [vget_of_lt sqrt u p hp, vget_of_lt sqrt (vneg (exactOps sqrt) u) p (by simpa using hp)]
    simp [vneg]
  · rw [vget_of_le sqrt u p (not_lt.mp hp),
      vget_of_le sqrt (vneg (exactOps sqrt) u) p (by simpa using hp)]
    simp

/-- Two vectors of the same length with the same entries are equal. -/
theorem vec_ext (u v : List R) (h : u.length = v.length)
    (hp : ∀ p : Nat, p < u.length → vget (exactOps sqrt) u p = vget (exactOps sqrt) v p) :
    u = v := by
  apply List.ext_getElem h
  intro p h1 h2
  have := hp p h1
  rwa [vget_of_lt sqrt u p h1, vget_of_lt sqrt v p h2] at this

theorem foldl_add_eq (l : List R) (x : R) :
    l.foldl (fun a b => a + b) x = x + l.foldl (fun a b => a + b) 0 := by
  induction l generalizing x with
  | nil => simp
  | cons a l ih =>
    simp only [List.foldl_cons]
    rw [ih (x + a), ih (0 + a)]
    ring

theorem inner_prod_cons (a b : R) (u v : List R) :
    inner_prod (exactOps sqrt) (a :: u) (b :: v) = a * b + inner_prod (exactOps sqrt) u v := by
  simp only [inner_prod, List.zipWith_cons_cons, List.foldl_cons]
  show List.foldl (fun a b => a + b) (0 + a * b) _ = a * b + List.foldl (fun a b => a + b) 0 _
  rw [foldl_add_eq]
  ring

/-- The inner product of two vectors of length `n` as a sum over the entries. -/
theorem inner_prod_eq_sum (n : Nat) :
    ∀ u v : List R, u.length = n → v.length = n →
      inner_prod (exactOps sqrt) u v =
        ∑ p in Finset.range n, vget (exactOps sqrt) u p * vget (exactOps sqrt) v p := by
  induction n with
  | zero =>
    intro u v hu hv
    rw [List.length_eq_zero] at hu hv
    subst hu hv
    simp [inner_prod]
  | succ n ih =>
    intro u v hu hv
    cases u with
    | nil => simp at hu
    | cons a u =>
      cases v with
      | nil => simp at hv
      | cons b v =>
        rw [inner_prod_cons, Finset.sum_range_succ', ih u v (by simpa using hu) (by simpa using hv)]
        simp [vget]
        ring

end ExactVectors

/-! ## C13, C17: BiCGStab in exact arithmetic -/

section BicgstabFields

variable {R : Type} {F : RealOps R} (self : uBlasKrylovSolver R) (A : uBlasSparseMatrix R)

theorem bicgstabStep_x (rstar : List R) (r0_norm : R) (st : BicgstabState R) :
    (bicgstabStep F self A rstar r0_norm st).x =
      vadd F st.x (vadd F (vscale F (bicgstabAlpha F A rstar st) st.p)
        (vscale F (bicgstabOmega F A rstar st) (bicgstabS F A rstar st))) := by
  unfold bicgstabStep
  simp only []
  split <;> rfl

theorem bicgstabStep_r (rstar : List R) (r0_norm : R) (st : BicgstabState R) :
    (bicgstabStep F self A rstar r0_norm st).r =
      vsub F (bicgstabS F A rstar st)
        (vscale F (bicgstabOmega F A rstar st) (A.prod (bicgstabS F A rstar st))) := by
  unfold bicgstabStep
  simp only []
  split <;> rfl

theorem bicgstabStep_r_norm (rstar : List R) (r0_norm : R) (st : BicgstabState R) :
    (bicgstabStep F self A rstar r0_norm st).r_norm =
      norm_2 F (bicgstabStep F self A rstar r0_norm st).r := by
  unfold bicgstabStep
  simp only []
  split <;> rfl

theorem bicgstabStep_p (rstar : List R) (r0_norm : R) (st : BicgstabState R) :
    (bicgstabStep F self A rstar r0_norm st).p = st.p ∨
    ∃ beta : R, (bicgstabStep F self A rstar r0_norm st).p =
      vsub F (vadd F (bicgstabStep F self A rstar r0_norm st).r (vscale F beta st.p))
        (vscale F (F.mul beta (bicgstabOmega F A rstar st)) (A.prod st.p)) := by
  unfold bicgstabStep
  simp only []
  split
  · exact Or.inl rfl
  · exact Or.inr ⟨_, rfl⟩

end BicgstabFields

section ExactBicgstab

variable {R : Type} [LinearOrderedField R] (sqrt : R → R)

theorem IsLinear.prod_vadd {A : uBlasSparseMatrix R} {n : Nat} (hA : IsLinear A n)
    (u v : List R) (hu : u.length = n) (hv : v.length = n) :
    A.prod (vadd (exactOps sqrt) u v) = vadd (exactOps sqrt) (A.prod u) (A.prod v) :=
  hA.add u v hu hv

theorem IsLinear.prod_vscale {A : uBlasSparseMatrix R} {n : Nat} (hA : IsLinear A n)
    (a : R) (v : List R) (hv : v.length = n) :
    A.prod (vscale (exactOps sqrt) a v) = vscale (exactOps sqrt) a (A.prod v) :=
  hA.smul a v hv

theorem vneg_eq_vscale (v : List R) :
    vneg (exactOps sqrt) v = vscale (exactOps sqrt) (-1) v := by
  simp [vneg, vscale]

theorem IsLinear.prod_vneg {A : uBlasSparseMatrix R} {n : Nat} (hA : IsLinear A n)
    (v : List R) (hv : v.length = n) :
    A.prod (vneg (exactOps sqrt) v) = vneg (exactOps sqrt) (A.prod v) := by
  rw [vneg_eq_vscale, vneg_eq_vscale, hA.prod_vscale sqrt _ _ hv]

theorem length_residual {A : uBlasSparseMatrix R} {n : Nat} (hA : IsLinear A n)
    (x b : List R) (hx : x.length = n) (hb : b.length = n) :
    (residual (exactOps sqrt) A x b).length = n := by
  unfold residual axpy_prod
  simp only [Bool.false_eq_true, if_false]
  rw [length_vadd sqrt _ _ (by rw [hb, hA.length _ (by simpa using hx)]), hb]

/-- The entries of the residual `b − A·x` as the engines compute it. -/
theorem vget_residual {A : uBlasSparseMatrix R} {n : Nat} (hA : IsLinear A n)
    (x b : List R) (hx : x.length = n) (hb : b.length = n) (p : Nat) :
    vget (exactOps sqrt) (residual (exactOps sqrt) A x b) p =
      vget (exactOps sqrt) b p - vget (exactOps sqrt) (A.prod x) p := by
  unfold residual axpy_prod
  simp only [Bool.false_eq_true, if_false]
  rw [vget_vadd sqrt _ _ (by rw [hb, hA.length _ (by simpa using hx)]),
    hA.prod_vneg sqrt x hx, vget_vneg]
  ring

/-- The update of `x` and `r` in one pass of BiCGStab keeps `r` the residual of `x`, for any
values of `alpha` and `omega`. -/
theorem bicgstab_update_residual {A : uBlasSparseMatrix R} {n : Nat} (hA : IsLinear A n)
    (alpha omega : R) (x r p b : List R) (hx : x.length = n) (hr : r.length = n)
    (hp : p.length = n) (hb : b.length = n)
    (hres : r = residual (exactOps sqrt) A x b) :
    vsub (exactOps sqrt) (vsub (exactOps sqrt) r (vscale (exactOps sqrt) alpha (A.prod p)))
        (vscale (exactOps sqrt) omega
          (A.prod (vsub (exactOps sqrt) r (vscale (exactOps sqrt) alpha (A.prod p))))) =
      residual (exactOps sqrt) A
        (vadd (exactOps sqrt) x
          (vadd (exactOps sqrt) (vscale (exactOps sqrt) alpha p)
            (vscale (exactOps sqrt) omega
              (vsub (exactOps sqrt) r (vscale (exactOps sqrt) alpha (A.prod p)))))) b := by
  have hAp : (A.prod p).length = n := hA.length p hp
  have hs : (vsub (exactOps sqrt) r (vscale (exactOps sqrt) alpha (A.prod p))).length = n := by
    rw [length_vsub sqrt _ _ (by simp [hr, hAp]), hr]
  have hAs := hA.length _ hs
  have hd : (vadd (exactOps sqrt) (vscale (exactOps sqrt) alpha p)
      (vscale (exactOps sqrt) omega
        (vsub (exactOps sqrt) r (vscale (exactOps sqrt) alpha (A.prod p))))).length = n := by
    rw [length_vadd sqrt _ _ (by simp [hp, hs])]
    simp [hp]
  have hx' : (vadd (exactOps sqrt) x
      (vadd (exactOps sqrt) (vscale (exactOps sqrt) alpha p)
        (vscale (exactOps sqrt) omega
          (vsub (exactOps sqrt) r (vscale (exactOps sqrt) alpha (A.prod p)))))).length = n := by
    rw [length_vadd sqrt _ _ (by rw [hx, hd]), hx]
  apply vec_ext sqrt
  · rw [length_vsub sqrt _ _ (by simp [hs, hAs]), hs, length_residual sqrt hA _ _ hx' hb]
  · intro q _
    rw [vget_residual sqrt hA _ b hx' hb, hA.prod_vadd sqrt _ _ hx hd,
      hA.prod_vadd sqrt _ _ (by simp [hp]) (by simp [hs]),
      hA.prod_vscale sqrt _ _ hp, hA.prod_vscale sqrt _ _ hs,
      vget_vsub sqrt _ _ (by simp [hs, hAs]), vget_vscale,
      vget_vsub sqrt _ _ (by simp [hr, hAp]), vget_vscale,
      vget_vadd sqrt _ _ (by rw [hA.length x hx, length_vadd sqrt _ _ (by simp [hAp, hAs])]; simp [hAp]),
      vget_vadd sqrt _ _ (by simp [hAp, hAs]), vget_vscale, vget_vscale]
    have h1 := congrArg (fun l => vget (exactOps sqrt) l q) hres
    simp only [] at h1
    rw [vget_residual sqrt hA x b hx hb] at h1
    rw [h1]
    ring




/-- One pass of the BiCGStab loop keeps the lengths of `x`, `r` and `p` and keeps `r` the
residual of `x`. -/
theorem bicgstabStep_residual {A : uBlasSparseMatrix R} {n : Nat} (hA : IsLinear A n)
    (self : uBlasKrylovSolver R) (rstar b : List R) (r0_norm : R) (st : BicgstabState R)
    (hb : b.length = n)
    (h : st.x.length = n ∧ st.r.length = n ∧ st.p.length = n ∧
      st.r = residual (exactOps sqrt) A st.x b) :
    (bicgstabStep (exactOps sqrt) self A rstar r0_norm st).x.length = n ∧
    (bicgstabStep (exactOps sqrt) self A rstar r0_norm st).r.length = n ∧
    (bicgstabStep (exactOps sqrt) self A rstar r0_norm st).p.length = n ∧
    (bicgstabStep (exactOps sqrt) self A rstar r0_norm st).r =
      residual (exactOps sqrt) A
        (bicgstabStep (exactOps sqrt) self A rstar r0_norm st).x b := by
  obtain ⟨hx, hr, hp, hres⟩ := h
  have hAp : (A.prod st.p).length = n := hA.length _ hp
  have hs : (bicgstabS (exactOps sqrt) A rstar st).length = n := by
    unfold bicgstabS
    rw [length_vsub sqrt _ _ (by simp [hr, hAp]), hr]
  have hAs := hA.length _ hs
  have hxl : (bicgstabStep (exactOps sqrt) self A rstar r0_norm st).x.length = n := by
    rw [bicgstabStep_x, length_vadd sqrt _ _ (by
      rw [hx, length_vadd sqrt _ _ (by simp [hp, hs])]; simp [hp]), hx]
  have hrl : (bicgstabStep (exactOps sqrt) self A rstar r0_norm st).r.length = n := by
    rw [bicgstabStep_r, length_vsub sqrt _ _ (by simp [hs, hAs]), hs]
  refine ⟨hxl, hrl, ?_, ?_⟩
  · rcases bicgstabStep_p self A rstar r0_norm st with h1 | ⟨beta, h1⟩
    · rw [h1]; exact hp
    · rw [h1, length_vsub sqrt _ _ (by
        rw [length_vadd sqrt _ _ (by simp [hrl, hp])]; simp [hrl, hAp]),
        length_vadd sqrt _ _ (by simp [hrl, hp]), hrl]
  · rw [bicgstabStep_r, bicgstabStep_x]
    exact bicgstab_update_residual sqrt hA _ _ st.x st.r st.p b hx hr hp hb hres

/-- The BiCGStab loop keeps `r` the residual of `x`, and `r_norm` is the norm of `r` once
`converged` is set. -/
theorem bicgstabLoop_residual {A : uBlasSparseMatrix R} {n : Nat} (hA : IsLinear A n)
    (self : uBlasKrylovSolver R) (rstar b : List R) (r0_norm : R) (hb : b.length = n)
    (m : Nat) :
    ∀ st : BicgstabState R,
      (st.x.length = n ∧ st.r.length = n ∧ st.p.length = n ∧
        st.r = residual (exactOps sqrt) A st.x b) →
      (st.converged = true → st.r_norm = norm_2 (exactOps sqrt) st.r) →
      ((bicgstabLoop (exactOps sqrt) self A rstar r0_norm m st).x.length = n ∧
        (bicgstabLoop (exactOps sqrt) self A rstar r0_norm m st).r.length = n ∧
        (bicgstabLoop (exactOps sqrt) self A rstar r0_norm m st).p.length = n ∧
        (bicgstabLoop (exactOps sqrt) self A rstar r0_norm m st).r =
          residual (exactOps sqrt) A
            (bicgstabLoop (exactOps sqrt) self A rstar r0_norm m st).x b) ∧
      ((bicgstabLoop (exactOps sqrt) self A rstar r0_norm m st).converged = true →
        (bicgstabLoop (exactOps sqrt) self A rstar r0_norm m st).r_norm =
          norm_2 (exactOps sqrt) (bicgstabLoop (exactOps sqrt) self A rstar r0_norm m st).r) := by
  induction m with
  | zero => intro st h1 h2; exact ⟨h1, h2⟩
  | succ m ih =>
    intro st h1 h2
    unfold bicgstabLoop
    split
    · exact ih _ (bicgstabStep_residual sqrt hA self rstar b r0_norm st hb h1)
        (fun _ => bicgstabStep_r_norm self A rstar r0_norm st)
    · exact ⟨h1, h2⟩


theorem identityOn_isLinear (n : Nat) : IsLinear (identityOn R n) n :=
  { length := fun _ h => h, add := fun _ _ _ _ => rfl, smul := fun _ _ _ => rfl }

/-- C13: in exact arithmetic, for a linear operator `A`, the update of one BiCGStab pass
keeps `r` equal to the true residual `b − A·x` for any values of `alpha` and `omega`; so
after every number of passes of the loop `r` is the residual of the current `x`, and when
`bicgstabSolver` returns `converged = true` the returned `x` satisfies `‖b − A·x‖ < atol`
or `‖b − A·x‖ / r0_norm < rtol`, with `r0_norm` the norm of the initial residual. -/
theorem bicgstab_residual_invariant {A : uBlasSparseMatrix R} {n : Nat} (hA : IsLinear A n)
    (self : uBlasKrylovSolver R) (x b : List R) (hx : x.length = n) (hb : b.length = n) :
    (∀ (alpha omega : R) (y r p : List R), y.length = n → r.length = n → p.length = n →
      r = residual (exactOps sqrt) A y b →
      vsub (exactOps sqrt) (vsub (exactOps sqrt) r (vscale (exactOps sqrt) alpha (A.prod p)))
          (vscale (exactOps sqrt) omega
            (A.prod (vsub (exactOps sqrt) r (vscale (exactOps sqrt) alpha (A.prod p))))) =
        residual (exactOps sqrt) A
          (vadd (exactOps sqrt) y
            (vadd (exactOps sqrt) (vscale (exactOps sqrt) alpha p)
              (vscale (exactOps sqrt) omega
                (vsub (exactOps sqrt) r (vscale (exactOps sqrt) alpha (A.prod p)))))) b) ∧
    (∀ m : Nat,
      (bicgstabLoop (exactOps sqrt) self A b (norm_2 (exactOps sqrt) (residual (exactOps sqrt) A x b))
          m (bicgstabInit (exactOps sqrt) A x b (residual (exactOps sqrt) A x b))).r =
        residual (exactOps sqrt) A
          (bicgstabLoop (exactOps sqrt) self A b
            (norm_2 (exactOps sqrt) (residual (exactOps sqrt) A x b))
            m (bicgstabInit (exactOps sqrt) A x b (residual (exactOps sqrt) A x b))).x b) ∧
    ((bicgstabSolver (exactOps sqrt) self A x b).2.converged = true →
      norm_2 (exactOps sqrt)
          (residual (exactOps sqrt) A (bicgstabSolver (exactOps sqrt) self A x b).2.x b) <
        self.atol ∨
      norm_2 (exactOps sqrt)
          (residual (exactOps sqrt) A (bicgstabSolver (exactOps sqrt) self A x b).2.x b) /
        norm_2 (exactOps sqrt) (residual (exactOps sqrt) A x b) < self.rtol) := by
  have hinit : (bicgstabInit (exactOps sqrt) A x b (residual (exactOps sqrt) A x b)).x.length = n ∧
      (bicgstabInit (exactOps sqrt) A x b (residual (exactOps sqrt) A x b)).r.length = n ∧
      (bicgstabInit (exactOps sqrt) A x b (residual (exactOps sqrt) A x b)).p.length = n ∧
      (bicgstabInit (exactOps sqrt) A x b (residual (exactOps sqrt) A x b)).r =
        residual (exactOps sqrt) A
          (bicgstabInit (exactOps sqrt) A x b (residual (exactOps sqrt) A x b)).x b :=
    ⟨hx, length_residual sqrt hA x b hx hb, length_residual sqrt hA x b hx hb, rfl⟩
  have hloop := fun m => bicgstabLoop_residual sqrt hA self b b
    (norm_2 (exactOps sqrt) (residual (exactOps sqrt) A x b)) hb m _ hinit
    (by simp [bicgstabInit])
  refine ⟨?_, fun m => (hloop m).1.2.2.2, ?_⟩
  · intro alpha omega y r p hy hr hp hres
    exact bicgstab_update_residual sqrt hA alpha omega y r p b hy hr hp hb hres
  · unfold bicgstabSolver
    simp only []
    split
    · next hlt =>
      intro _
      left
      simpa [residual] using hlt
    · intro hc
      have ht := bicgstabLoop_converged (exactOps sqrt) self A b
        (norm_2 (exactOps sqrt) (axpy_prod (exactOps sqrt) A (vneg (exactOps sqrt) x) b false))
        self.max_it _ (by simp [bicgstabInit]) hc
      have hl := hloop self.max_it
      have hl1 := hl.2 hc
      have hl2 := hl.1.2.2.2
      simp only [residual] at hl1 hl2
      rw [hl1, hl2] at ht
      simp only [convergenceTest, exactOps_lt, exactOps_div, Bool.or_eq_true,
        decide_eq_true_eq] at ht
      simp only [residual]
      rcases ht with h | h
      · exact Or.inr h
      · exact Or.inl h

/-- C13 at work over the real numbers: the identity operator on vectors of length `1`. -/
theorem bicgstab_residual_invariant_witness :
    ([0] : List ℝ).length = 1 ∧ ([1] : List ℝ).length = 1 ∧
    (bicgstabLoop (exactOps Real.sqrt) (uBlasKrylovSolver.mk SolverType.bicgstab false true
          (1 / 2) (1 / 2) 10000 2 1) (identityOn ℝ 1) [1]
        (norm_2 (exactOps Real.sqrt) (residual (exactOps Real.sqrt) (identityOn ℝ 1) [0] [1]))
        1 (bicgstabInit (exactOps Real.sqrt) (identityOn ℝ 1) [0] [1]
          (residual (exactOps Real.sqrt) (identityOn ℝ 1) [0] [1]))).r =
      residual (exactOps Real.sqrt) (identityOn ℝ 1)
        (bicgstabLoop (exactOps Real.sqrt) (uBlasKrylovSolver.mk SolverType.bicgstab false true
            (1 / 2) (1 / 2) 10000 2 1) (identityOn ℝ 1) [1]
          (norm_2 (exactOps Real.sqrt) (residual (exactOps Real.sqrt) (identityOn ℝ 1) [0] [1]))
          1 (bicgstabInit (exactOps Real.sqrt) (identityOn ℝ 1) [0] [1]
            (residual (exactOps Real.sqrt) (identityOn ℝ 1) [0] [1]))).x [1] :=
  ⟨rfl, rfl,
    (bicgstab_residual_invariant Real.sqrt (identityOn_isLinear 1)
      (uBlasKrylovSolver.mk SolverType.bicgstab false true (1 / 2) (1 / 2) 10000 2 1)
      [0] [1] rfl rfl).2.1 1⟩


theorem IsLinear.prod_vzero {A : uBlasSparseMatrix R} {n : Nat} (hA : IsLinear A n) :
    A.prod (vzero (exactOps sqrt) n) = vzero (exactOps sqrt) n := by
  have h0 : vzero (exactOps sqrt) n = vscale (exactOps sqrt) 0 (vzero (exactOps sqrt) n) := by
    simp [vzero, vscale]
  have h1 : A.prod (vzero (exactOps sqrt) n) =
      vscale (exactOps sqrt) 0 (A.prod (vzero (exactOps sqrt) n)) := by
    conv_lhs => rw [h0]
    exact hA.prod_vscale sqrt 0 _ (by simp)
  apply vec_ext sqrt
  · rw [hA.length _ (by simp)]; simp
  · intro p _
    rw [h1]
    simp

/-- The residual of the zero vector is the right-hand side. -/
theorem residual_vzero {A : uBlasSparseMatrix R} {n : Nat} (hA : IsLinear A n)
    (b : List R) (hb : b.length = n) :
    residual (exactOps sqrt) A (vzero (exactOps sqrt) n) b = b := by
  apply vec_ext sqrt
  · rw [length_residual sqrt hA _ b (by simp) hb, hb]
  · intro p _
    rw [vget_residual sqrt hA _ b (by simp) hb, hA.prod_vzero sqrt]
    simp

/-- C17: in exact arithmetic, for a linear operator `A` and the zero start vector that
`solve` passes on, the initial residual `b − A·0` is `b`, so the shadow residual `r* = b`
of `bicgstabSolver` is the true initial residual, and the run of `bicgstabSolver` (hence
what `solve` returns with type `bicgstab`) is that of the classical recursion with
`r* = r0`: same `x`, iteration count and `converged` flag. -/
theorem bicgstab_shadow_is_initial_residual {A : uBlasSparseMatrix R} {n : Nat}
    (hA : IsLinear A n) (b : List R) (hb : b.length = n) :
    residual (exactOps sqrt) A (vzero (exactOps sqrt) n) b = b ∧
    (∀ self : uBlasKrylovSolver R,
      (bicgstabSolver (exactOps sqrt) self A (vzero (exactOps sqrt) n) b).2 =
        classicalBicgstab (exactOps sqrt) self A (vzero (exactOps sqrt) n) b) ∧
    (∀ (fuel : Nat) (P : ParameterSource R) (self : uBlasKrylovSolver R) (x : List R),
      A.size 1 = n →
      (solve (exactOps sqrt) fuel P { self with type := SolverType.bicgstab } A x b).result =
        some (classicalBicgstab (exactOps sqrt) (readIfNeeded P self).1 A
          (vzero (exactOps sqrt) n) b).result) := by
  have hres := residual_vzero sqrt hA b hb
  have hres' : axpy_prod (exactOps sqrt) A (vneg (exactOps sqrt) (vzero (exactOps sqrt) n)) b
      false = b := hres
  have hcl : ∀ self : uBlasKrylovSolver R,
      (bicgstabSolver (exactOps sqrt) self A (vzero (exactOps sqrt) n) b).2 =
        classicalBicgstab (exactOps sqrt) self A (vzero (exactOps sqrt) n) b := by
    intro self
    unfold bicgstabSolver classicalBicgstab
    simp only [hres, hres']
    split <;> rfl
  refine ⟨hres, hcl, ?_⟩
  intro fuel P self x hdim
  rw [solve_result, (readIfNeeded_type P self SolverType.bicgstab).1,
    (dispatch_bicgstab (exactOps sqrt) fuel _ A _ b SolverType.bicgstab (by simp)).1]
  simp [hdim, hb, ← hcl]

/-- C17 at work over the real numbers: the identity operator on vectors of length `2` and
`b = (3, 4)`. -/
theorem bicgstab_shadow_is_initial_residual_witness :
    ([3, 4] : List ℝ).length = 2 ∧
    residual (exactOps Real.sqrt) (identityOn ℝ 2) (vzero (exactOps Real.sqrt) 2) [3, 4] =
      [3, 4] :=
  ⟨rfl, (bicgstab_shadow_is_initial_residual Real.sqrt (identityOn_isLinear 2) [3, 4] rfl).1⟩

end ExactBicgstab

/-! ## The parts of an inner step of GMRES -/

section GmresFields

variable {R : Type} (F : RealOps R) (self : uBlasKrylovSolver R) (A : uBlasSparseMatrix R)

theorem gmresStep_j (st : GmresState R) : (gmresStep F self A st).j = st.j + 1 := rfl

theorem gmresStep_V (st : GmresState R) :
    (gmresStep F self A st).V =
      st.V.set (st.j + 1) (vdiv F (arnoldiW F A st) (vget F (arnoldiH F A st) (st.j + 1))) :=
  rfl

theorem gmresStep_c (st : GmresState R) :
    (gmresStep F self A st).c =
      st.c.set st.j (F.div (vget F (rotatedH F A st) st.j) (givensNu F A st)) := rfl

theorem gmresStep_s (st : GmresState R) :
    (gmresStep F self A st).s =
      st.s.set st.j (F.div (F.neg (vget F (rotatedH F A st) (st.j + 1))) (givensNu F A st)) :=
  rfl

theorem gmresStep_h (st : GmresState R) :
    (gmresStep F self A st).h =
      (rotatedH F A st).set st.j
        (F.sub (F.mul (vget F (gmresStep F self A st).c st.j) (vget F (rotatedH F A st) st.j))
          (F.mul (vget F (gmresStep F self A st).s st.j)
            (vget F (rotatedH F A st) (st.j + 1)))) := rfl

theorem gmresStep_gamma (st : GmresState R) :
    (gmresStep F self A st).gamma =
      (st.gamma.set (st.j + 1)
        (F.add (F.mul (vget F (gmresStep F self A st).s st.j) (vget F st.gamma st.j))
          (F.mul (vget F (gmresStep F self A st).c st.j) (vget F st.gamma (st.j + 1))))).set
        st.j
        (F.sub (F.mul (vget F (gmresStep F self A st).c st.j) (vget F st.gamma st.j))
          (F.mul (vget F (gmresStep F self A st).s st.j) (vget F st.gamma (st.j + 1)))) := rfl

theorem gmresStep_r_norm (st : GmresState R) :
    (gmresStep F self A st).r_norm =
      F.fabs (vget F (gmresStep F self A st).gamma (st.j + 1)) := rfl

theorem gmresStep_H (st : GmresState R) :
    (gmresStep F self A st).H =
      st.H.set st.j ((gmresStep F self A st).h.take self.restart) := rfl

theorem gmresStep_r (st : GmresState R) : (gmresStep F self A st).r = st.r := rfl

/-- A restart cycle is the inner loop run from the seeded state, followed by the
triangular solve and the update of `x`. -/
theorem gmresCycle_eq (r : List R) (beta beta0 : R) (st : GmresState R) :
    gmresCycle F self A r beta beta0 st =
      { gmresInner F self A beta self.restart (gmresSeed F self r beta beta0 st) with
        gamma := inplace_solve F
          (gmresInner F self A beta self.restart (gmresSeed F self r beta beta0 st)).H
          (gmresInner F self A beta self.restart (gmresSeed F self r beta beta0 st)).subiteration
          (gmresInner F self A beta self.restart (gmresSeed F self r beta beta0 st)).gamma
        x := addColumns F
          (gmresInner F self A beta self.restart (gmresSeed F self r beta beta0 st)).V
          (gmresInner F self A beta self.restart (gmresSeed F self r beta beta0 st)).subiteration
          (inplace_solve F
            (gmresInner F self A beta self.restart (gmresSeed F self r beta beta0 st)).H
            (gmresInner F self A beta self.restart (gmresSeed F self r beta beta0 st)).subiteration
            (gmresInner F self A beta self.restart (gmresSeed F self r beta beta0 st)).gamma)
          (gmresInner F self A beta self.restart (gmresSeed F self r beta beta0 st)).x } := rfl

/-- An invariant of the inner loop that every pass with property `P` keeps holds after any
number of such passes. -/
theorem gmresInner_invariant (P Inv : GmresState R → Prop) (beta : R)
    (hstep : ∀ st : GmresState R, Inv st → gmresInnerGuard F self beta st = true → P st →
      Inv (gmresStep F self A st)) (m : Nat) :
    ∀ st : GmresState R, Inv st → stepsOK F self A P beta m st →
      Inv (gmresInner F self A beta m st) := by
  induction m with
  | zero => intro st h _; exact h
  | succ m ih =>
    intro st h hok
    unfold gmresInner
    unfold stepsOK at hok
    split
    · next hg =>
      rw [if_pos hg] at hok
      exact ih _ (hstep st h hg hok.1) hok.2
    · exact h

theorem stepsOK_mono (P : GmresState R → Prop) (beta : R) (m : Nat) :
    ∀ st : GmresState R, stepsOK F self A P beta (m + 1) st → stepsOK F self A P beta m st := by
  induction m with
  | zero => intro st _; trivial
  | succ m ih =>
    intro st h
    unfold stepsOK at h ⊢
    split
    · next hg =>
      rw [if_pos hg] at h
      exact ⟨h.1, ih _ h.2⟩
    · trivial

/-- With `P` at every pass of up to `m + 1` passes, `P` holds of the state after `m` passes
if a further pass is made from it. -/
theorem stepsOK_last (P : GmresState R → Prop) (beta : R) (m : Nat) :
    ∀ st : GmresState R, stepsOK F self A P beta (m + 1) st →
      gmresInnerGuard F self beta (gmresInner F self A beta m st) = true →
      P (gmresInner F self A beta m st) := by
  induction m with
  | zero =>
    intro st h hg
    unfold stepsOK at h
    simp only [gmresInner] at hg
    rw [if_pos hg] at h
    exact h.1
  | succ m ih =>
    intro st h hg
    unfold gmresInner at hg ⊢
    unfold stepsOK at h
    split
    · next hg0 =>
      rw [if_pos hg0] at hg h
      exact ih _ h.2 hg
    · next hg0 =>
      rw [if_neg hg0] at hg
      exact absurd hg hg0

end GmresFields

section ListLemmas

variable {R : Type} (F : RealOps R)

theorem vget_set_eq (l : List R) (i : Nat) (a : R) (h : i < l.length) :
    vget F (l.set i a) i = a := by
  simp [vget, List.getD_eq_getElem?_getD, List.getElem?_set, h]

theorem vget_set_ne (l : List R) (i p : Nat) (a : R) (h : i ≠ p) :
    vget F (l.set i a) p = vget F l p := by
  simp [vget, List.getD_eq_getElem?_getD, List.getElem?_set, h]

theorem vget_take (l : List R) (k p : Nat) (h : p < k) :
    vget F (l.take k) p = vget F l p := by
  simp [vget, List.getD_eq_getElem?_getD, List.getElem?_take, h]

theorem column_set_eq (V : List (List R)) (i : Nat) (u : List R) (h : i < V.length) :
    column (V.set i u) i = u := by
  simp [column, List.getD_eq_getElem?_getD, List.getElem?_set, h]

theorem column_set_ne (V : List (List R)) (i l : Nat) (u : List R) (h : i ≠ l) :
    column (V.set i u) l = column V l := by
  simp [column, List.getD_eq_getElem?_getD, List.getElem?_set, h]

theorem gramSchmidt_eq_first (V : List (List R)) (j : Nat) (w h : List R) :
    gramSchmidt F V j w h = gramSchmidtFirst F V (j + 1) w h := rfl

theorem gramSchmidtFirst_zero (V : List (List R)) (w h : List R) :
    gramSchmidtFirst F V 0 w h = (w, h) := rfl

theorem gramSchmidtFirst_succ (V : List (List R)) (m : Nat) (w h : List R) :
    gramSchmidtFirst F V (m + 1) w h =
      (vsub F (gramSchmidtFirst F V m w h).1
          (vscale F (inner_prod F (gramSchmidtFirst F V m w h).1 (column V m)) (column V m)),
        (gramSchmidtFirst F V m w h).2.set m
          (inner_prod F (gramSchmidtFirst F V m w h).1 (column V m))) := by
  unfold gramSchmidtFirst
  rw [List.range_succ, List.foldl_append]
  rfl

theorem length_gramSchmidtFirst (V : List (List R)) (m : Nat) (w h : List R) :
    (gramSchmidtFirst F V m w h).2.length = h.length := by
  induction m with
  | zero => rfl
  | succ m ih => rw [gramSchmidtFirst_succ]; simpa using ih

theorem length_gramSchmidt (V : List (List R)) (j : Nat) (w h : List R) :
    (gramSchmidt F V j w h).2.length = h.length :=
  length_gramSchmidtFirst F V (j + 1) w h

theorem applyGivens_succ (c s : List R) (j : Nat) (h : List R) :
    applyGivens F c s (j + 1) h =
      ((applyGivens F c s j h).set j
          (F.sub (F.mul (vget F c j) (vget F (applyGivens F c s j h) j))
            (F.mul (vget F s j) (vget F (applyGivens F c s j h) (j + 1))))).set (j + 1)
        (F.add (F.mul (vget F s j) (vget F (applyGivens F c s j h) j))
          (F.mul (vget F c j) (vget F (applyGivens F c s j h) (j + 1)))) := by
  unfold applyGivens
  rw [List.range_succ, List.foldl_append]
  rfl

theorem applyGivens_zero (c s h : List R) : applyGivens F c s 0 h = h := by
  simp [applyGivens]

theorem length_applyGivens (c s : List R) (j : Nat) (h : List R) :
    (applyGivens F c s j h).length = h.length := by
  induction j with
  | zero => simp [applyGivens_zero]
  | succ j ih => rw [applyGivens_succ]; simpa using ih

/-- The rotations `0..j-1` leave the entries of `h` above `j` as they are. -/
theorem vget_applyGivens_of_lt (c s : List R) (j : Nat) (h : List R) (p : Nat) (hp : j < p) :
    vget F (applyGivens F c s j h) p = vget F h p := by
  induction j with
  | zero => simp [applyGivens_zero]
  | succ j ih =>
    rw [applyGivens_succ, vget_set_ne F _ _ _ _ (by omega), vget_set_ne F _ _ _ _ (by omega)]
    exact ih (by omega)

theorem length_arnoldiH (A : uBlasSparseMatrix R) (st : GmresState R) :
    (arnoldiH F A st).length = st.h.length := by
  simp [arnoldiH, length_gramSchmidt]

theorem length_rotatedH (A : uBlasSparseMatrix R) (st : GmresState R) :
    (rotatedH F A st).length = st.h.length := by
  simp [rotatedH, length_applyGivens, length_arnoldiH]

end ListLemmas

section CycleSizesLemmas

variable {R : Type} (F : RealOps R) (self : uBlasKrylovSolver R) (A : uBlasSparseMatrix R)

theorem stepsOK_trivial (beta : R) (m : Nat) :
    ∀ st : GmresState R, stepsOK F self A (fun _ => True) beta m st := by
  induction m with
  | zero => intro st; trivial
  | succ m ih =>
    intro st
    unfold stepsOK
    split
    · exact ⟨trivial, ih _⟩
    · trivial

theorem cycleSizes_seed (n : Nat) (r : List R) (beta beta0 : R) (st : GmresState R)
    (h : WellSized self n st) : CycleSizes F self (gmresSeed F self r beta beta0 st) := by
  obtain ⟨_, hV, hH, hh, hc, hs⟩ := h
  refine ⟨rfl, Nat.zero_le _, ?_, hH, hh, hc, hs, ?_, ?_⟩
  · simp [gmresSeed, hV]
  · simp [gmresSeed, vzero]
  · intro i hi
    have hi' : 0 ≠ i := by
      have : (gmresSeed F self r beta beta0 st).j = 0 := rfl
      omega
    show vget F (((vzero F (self.restart + 1)).set 0 beta)) i = F.zero
    rw [vget_set_ne F _ _ _ _ hi']
    simp only [vget, vzero, List.getD_eq_getElem?_getD, List.getElem?_replicate]
    split <;> rfl

theorem cycleSizes_step (beta : R) (st : GmresState R) (h : CycleSizes F self st)
    (hg : gmresInnerGuard F self beta st = true) :
    CycleSizes F self (gmresStep F self A st) := by
  obtain ⟨hj, hjr, hV, hH, hh, hc, hs, hgam, hzero⟩ := h
  have hsub := (gmresInnerGuard_true F self beta st hg).1
  refine ⟨?_, ?_, ?_, ?_, ?_, ?_, ?_, ?_, ?_⟩
  · rw [gmresStep_j, gmresStep_subiteration, hj]
  · rw [gmresStep_j]; omega
  · rw [gmresStep_V]; simpa using hV
  · rw [gmresStep_H]; simpa using hH
  · rw [gmresStep_h]; simp [length_rotatedH, hh]
  · rw [gmresStep_c]; simpa using hc
  · rw [gmresStep_s]; simpa using hs
  · rw [gmresStep_gamma]; simpa using hgam
  · intro i hi
    rw [gmresStep_j] at hi
    rw [gmresStep_gamma, vget_set_ne F _ _ _ _ (by omega), vget_set_ne F _ _ _ _ (by omega)]
    exact hzero i (by omega)

/-- Every state of the inner loop of a restart cycle has the sizes of `CycleSizes`. -/
theorem cycleSizes_inner (n : Nat) (r : List R) (beta beta0 : R) (st0 : GmresState R)
    (h : WellSized self n st0) (m : Nat) :
    CycleSizes F self (gmresInner F self A beta m (gmresSeed F self r beta beta0 st0)) :=
  gmresInner_invariant F self A (fun _ => True) (CycleSizes F self) beta
    (fun st hst hg _ => cycleSizes_step F self A beta st hst hg) m _
    (cycleSizes_seed F self n r beta beta0 st0 h) (stepsOK_trivial F self A beta m _)

end CycleSizesLemmas

section Givens

variable {R : Type} [LinearOrderedField R] (sqrt : R → R)

/-- The algebra of one Givens rotation. -/
theorem givens_algebra (hsq : IsSqrt sqrt) (a b : R) (hnu : sqrt (a * a + b * b) ≠ 0) :
    0 < sqrt (a * a + b * b) ∧
    a / sqrt (a * a + b * b) * (a / sqrt (a * a + b * b)) +
      -b / sqrt (a * a + b * b) * (-b / sqrt (a * a + b * b)) = 1 ∧
    a / sqrt (a * a + b * b) * a - -b / sqrt (a * a + b * b) * b = sqrt (a * a + b * b) ∧
    -b / sqrt (a * a + b * b) * a + a / sqrt (a * a + b * b) * b = 0 := by
  have h := hsq (a * a + b * b) (add_nonneg (mul_self_nonneg a) (mul_self_nonneg b))
  generalize sqrt (a * a + b * b) = nu at h hnu
  have hpos : 0 < nu := lt_of_le_of_ne h.1 (Ne.symm hnu)
  refine ⟨hpos, ?_, ?_, ?_⟩
  · field_simp
    rw [h.2]
  · field_simp
    rw [h.2]
  · field_simp
    ring

theorem abs_le_one_of_sq_add_sq (c s : R) (h : c * c + s * s = 1) : |s| ≤ 1 := by
  rw [abs_le_one_iff_mul_self_le_one]
  nlinarith [mul_self_nonneg c]

end Givens

section GivensStep

variable {R : Type} [LinearOrderedField R] (sqrt : R → R) (self : uBlasKrylovSolver R)
  (A : uBlasSparseMatrix R)

theorem givensNu_exact (st : GmresState R) :
    givensNu (exactOps sqrt) A st =
      sqrt (vget (exactOps sqrt) (rotatedH (exactOps sqrt) A st) st.j *
          vget (exactOps sqrt) (rotatedH (exactOps sqrt) A st) st.j +
        vget (exactOps sqrt) (rotatedH (exactOps sqrt) A st) (st.j + 1) *
          vget (exactOps sqrt) (rotatedH (exactOps sqrt) A st) (st.j + 1)) := rfl

/-- The facts about one inner step of GMRES that follow from the algebra of its Givens
rotation, for a state with the sizes of a restart cycle. -/
theorem givens_step (hsq : IsSqrt sqrt) (st : GmresState R)
    (hsz : CycleSizes (exactOps sqrt) self st) (hj : st.j < self.restart)
    (hnu : givensNu (exactOps sqrt) A st ≠ 0) :
    vget (exactOps sqrt) (gmresStep (exactOps sqrt) self A st).c st.j =
        vget (exactOps sqrt) (rotatedH (exactOps sqrt) A st) st.j /
          givensNu (exactOps sqrt) A st ∧
    vget (exactOps sqrt) (gmresStep (exactOps sqrt) self A st).s st.j =
        -vget (exactOps sqrt) (rotatedH (exactOps sqrt) A st) (st.j + 1) /
          givensNu (exactOps sqrt) A st ∧
    vget (exactOps sqrt) (gmresStep (exactOps sqrt) self A st).c st.j *
          vget (exactOps sqrt) (gmresStep (exactOps sqrt) self A st).c st.j +
        vget (exactOps sqrt) (gmresStep (exactOps sqrt) self A st).s st.j *
          vget (exactOps sqrt) (gmresStep (exactOps sqrt) self A st).s st.j = 1 ∧
    vget (exactOps sqrt) (gmresStep (exactOps sqrt) self A st).c st.j *
          vget (exactOps sqrt) (rotatedH (exactOps sqrt) A st) st.j -
        vget (exactOps sqrt) (gmresStep (exactOps sqrt) self A st).s st.j *
          vget (exactOps sqrt) (rotatedH (exactOps sqrt) A st) (st.j + 1) =
        givensNu (exactOps sqrt) A st ∧
    vget (exactOps sqrt) (gmresStep (exactOps sqrt) self A st).s st.j *
          vget (exactOps sqrt) (rotatedH (exactOps sqrt) A st) st.j +
        vget (exactOps sqrt) (gmresStep (exactOps sqrt) self A st).c st.j *
          vget (exactOps sqrt) (rotatedH (exactOps sqrt) A st) (st.j + 1) = 0 ∧
    vget (exactOps sqrt) (column (gmresStep (exactOps sqrt) self A st).H st.j) st.j =
        givensNu (exactOps sqrt) A st ∧
    0 < givensNu (exactOps sqrt) A st ∧
    vget (exactOps sqrt) (gmresStep (exactOps sqrt) self A st).gamma st.j =
        vget (exactOps sqrt) (gmresStep (exactOps sqrt) self A st).c st.j *
          vget (exactOps sqrt) st.gamma st.j ∧
    vget (exactOps sqrt) (gmresStep (exactOps sqrt) self A st).gamma (st.j + 1) =
        vget (exactOps sqrt) (gmresStep (exactOps sqrt) self A st).s st.j *
          vget (exactOps sqrt) st.gamma st.j ∧
    (gmresStep (exactOps sqrt) self A st).r_norm =
        |vget (exactOps sqrt) (gmresStep (exactOps sqrt) self A st).s st.j| *
          |vget (exactOps sqrt) st.gamma st.j| := by
  obtain ⟨_, _, hV, hH, hh, hc, hs, hgam, hzero⟩ := hsz
  have hcj : vget (exactOps sqrt) (gmresStep (exactOps sqrt) self A st).c st.j =
      vget (exactOps sqrt) (rotatedH (exactOps sqrt) A st) st.j /
        givensNu (exactOps sqrt) A st := by
    rw [gmresStep_c, vget_set_eq _ _ _ _ (by omega)]
    rfl
  have hsj : vget (exactOps sqrt) (gmresStep (exactOps sqrt) self A st).s st.j =
      -vget (exactOps sqrt) (rotatedH (exactOps sqrt) A st) (st.j + 1) /
        givensNu (exactOps sqrt) A st := by
    rw [gmresStep_s, vget_set_eq _ _ _ _ (by omega)]
    rfl
  have hg1 : vget (exactOps sqrt) st.gamma (st.j + 1) = 0 := hzero (st.j + 1) (by omega)
  have hgj : vget (exactOps sqrt) (gmresStep (exactOps sqrt) self A st).gamma st.j =
      vget (exactOps sqrt) (gmresStep (exactOps sqrt) self A st).c st.j *
        vget (exactOps sqrt) st.gamma st.j := by
    rw [gmresStep_gamma, vget_set_eq _ _ _ _ (by simp; omega), hg1]
    simp
  have hgj1 : vget (exactOps sqrt) (gmresStep (exactOps sqrt) self A st).gamma (st.j + 1) =
      vget (exactOps sqrt) (gmresStep (exactOps sqrt) self A st).s st.j *
        vget (exactOps sqrt) st.gamma st.j := by
    rw [gmresStep_gamma, vget_set_ne _ _ _ _ _ (by omega), vget_set_eq _ _ _ _ (by omega), hg1]
    simp
  have halg := givens_algebra sqrt hsq
    (vget (exactOps sqrt) (rotatedH (exactOps sqrt) A st) st.j)
    (vget (exactOps sqrt) (rotatedH (exactOps sqrt) A st) (st.j + 1))
    hnu
  rw [← givensNu_exact sqrt A st] at halg
  rw [← hcj, ← hsj] at halg
  obtain ⟨hpos, hone, hdiag, hsub⟩ := halg
  refine ⟨hcj, hsj, hone, hdiag, hsub, ?_, hpos, hgj, hgj1, ?_⟩
  · rw [gmresStep_H, column_set_eq _ _ _ (by omega), vget_take _ _ _ _ hj, gmresStep_h,
      vget_set_eq _ _ _ _ (by rw [length_rotatedH]; omega)]
    exact hdiag
  · rw [gmresStep_r_norm, hgj1]
    exact abs_mul _ _

end GivensStep

section GivensClaims

variable {R : Type} [LinearOrderedField R] (sqrt : R → R) (self : uBlasKrylovSolver R)
  (A : uBlasSparseMatrix R)

theorem isSqrt_real : IsSqrt Real.sqrt :=
  fun x hx => ⟨Real.sqrt_nonneg x, Real.mul_self_sqrt hx⟩

/-- The estimate that an inner step leaves is `|s_j|·|γ(j)|`, whatever `nu` is. -/
theorem gmresStep_r_norm_exact (st : GmresState R)
    (hsz : CycleSizes (exactOps sqrt) self st) (hj : st.j < self.restart) :
    (gmresStep (exactOps sqrt) self A st).r_norm =
      |vget (exactOps sqrt) (gmresStep (exactOps sqrt) self A st).s st.j| *
        |vget (exactOps sqrt) st.gamma st.j| ∧
    vget (exactOps sqrt) (gmresStep (exactOps sqrt) self A st).gamma (st.j + 1) =
        vget (exactOps sqrt) (gmresStep (exactOps sqrt) self A st).s st.j *
          vget (exactOps sqrt) st.gamma st.j := by
  obtain ⟨_, _, hV, hH, hh, hc, hs, hgam, hzero⟩ := hsz
  have hg1 : vget (exactOps sqrt) st.gamma (st.j + 1) = 0 := hzero (st.j + 1) (by omega)
  have hgj1 : vget (exactOps sqrt) (gmresStep (exactOps sqrt) self A st).gamma (st.j + 1) =
      vget (exactOps sqrt) (gmresStep (exactOps sqrt) self A st).s st.j *
        vget (exactOps sqrt) st.gamma st.j := by
    rw [gmresStep_gamma, vget_set_ne _ _ _ _ _ (by omega), vget_set_eq _ _ _ _ (by omega), hg1]
    simp
  refine ⟨?_, hgj1⟩
  rw [gmresStep_r_norm, hgj1]
  exact abs_mul _ _

/-- C15 (Givens rotation of an inner step of GMRES, in exact arithmetic).  Let `st` be a
state of the inner loop of a restart cycle from which a further step `j` is made, `h` the
Hessenberg column of that step after the stored rotations, and `nu = sqrt(h(j)² + h(j+1)²)`
non-zero.  Then the step computes `c_j = h(j)/nu` and `s_j = −h(j+1)/nu` with
`c_j² + s_j² = 1`; the rotation sends `(h(j), h(j+1))` to `(nu, 0)`; the diagonal entry
`H(j, j)` it stores is `nu`, which is positive; and `γ(j)` becomes `c_j·γ(j)`, `γ(j+1)`
becomes `s_j·γ(j)` and `r_norm` becomes `|s_j|·|γ(j)|`. -/
theorem givens_rotation (hsq : IsSqrt sqrt) (n : Nat) (r : List R) (beta beta0 : R)
    (st0 : GmresState R) (m : Nat) (st : GmresState R) (hws : WellSized self n st0)
    (hst : st = gmresInner (exactOps sqrt) self A beta m
      (gmresSeed (exactOps sqrt) self r beta beta0 st0))
    (hg : gmresInnerGuard (exactOps sqrt) self beta st = true)
    (hnu : givensNu (exactOps sqrt) A st ≠ 0) :
    vget (exactOps sqrt) (gmresStep (exactOps sqrt) self A st).c st.j =
        vget (exactOps sqrt) (rotatedH (exactOps sqrt) A st) st.j /
          givensNu (exactOps sqrt) A st ∧
    vget (exactOps sqrt) (gmresStep (exactOps sqrt) self A st).s st.j =
        -vget (exactOps sqrt) (rotatedH (exactOps sqrt) A st) (st.j + 1) /
          givensNu (exactOps sqrt) A st ∧
    vget (exactOps sqrt) (gmresStep (exactOps sqrt) self A st).c st.j *
          vget (exactOps sqrt) (gmresStep (exactOps sqrt) self A st).c st.j +
        vget (exactOps sqrt) (gmresStep (exactOps sqrt) self A st).s st.j *
          vget (exactOps sqrt) (gmresStep (exactOps sqrt) self A st).s st.j = 1 ∧
    vget (exactOps sqrt) (gmresStep (exactOps sqrt) self A st).c st.j *
          vget (exactOps sqrt) (rotatedH (exactOps sqrt) A st) st.j -
        vget (exactOps sqrt) (gmresStep (exactOps sqrt) self A st).s st.j *
          vget (exactOps sqrt) (rotatedH (exactOps sqrt) A st) (st.j + 1) =
        givensNu (exactOps sqrt) A st ∧
    vget (exactOps sqrt) (gmresStep (exactOps sqrt) self A st).s st.j *
          vget (exactOps sqrt) (rotatedH (exactOps sqrt) A st) st.j +
        vget (exactOps sqrt) (gmresStep (exactOps sqrt) self A st).c st.j *
          vget (exactOps sqrt) (rotatedH (exactOps sqrt) A st) (st.j + 1) = 0 ∧
    vget (exactOps sqrt) (column (gmresStep (exactOps sqrt) self A st).H st.j) st.j =
        givensNu (exactOps sqrt) A st ∧
    0 < givensNu (exactOps sqrt) A st ∧
    vget (exactOps sqrt) (gmresStep (exactOps sqrt) self A st).gamma st.j =
        vget (exactOps sqrt) (gmresStep (exactOps sqrt) self A st).c st.j *
          vget (exactOps sqrt) st.gamma st.j ∧
    vget (exactOps sqrt) (gmresStep (exactOps sqrt) self A st).gamma (st.j + 1) =
        vget (exactOps sqrt) (gmresStep (exactOps sqrt) self A st).s st.j *
          vget (exactOps sqrt) st.gamma st.j ∧
    (gmresStep (exactOps sqrt) self A st).r_norm =
        |vget (exactOps sqrt) (gmresStep (exactOps sqrt) self A st).s st.j| *
          |vget (exactOps sqrt) st.gamma st.j| := by
  have hsz : CycleSizes (exactOps sqrt) self st := by
    rw [hst]
    exact cycleSizes_inner (exactOps sqrt) self A n r beta beta0 st0 hws m
  have hj : st.j < self.restart := by
    have := (gmresInnerGuard_true (exactOps sqrt) self beta st hg).1
    rw [hsz.1]
    exact this
  exact givens_step sqrt self A hsq st hsz hj hnu

/-- C15 at work over the real numbers: the first inner step for the system
`[[0, 1], [1, 0]]·x = [1, 0]`, where `h = (0, 1)`, `nu = 1`, `c_0 = 0` and `s_0 = −1`. -/
theorem givens_rotation_witness :
    gmresInnerGuard (exactOps Real.sqrt) (onePass ℝ) 1
        (gmresSeed (exactOps Real.sqrt) (onePass ℝ) [1, 0] 1 1
          (gmresInit (exactOps Real.sqrt) (onePass ℝ) (reversal ℝ 2) [0, 0])) = true ∧
    givensNu (exactOps Real.sqrt) (reversal ℝ 2)
        (gmresSeed (exactOps Real.sqrt) (onePass ℝ) [1, 0] 1 1
          (gmresInit (exactOps Real.sqrt) (onePass ℝ) (reversal ℝ 2) [0, 0])) ≠ 0 ∧
    vget (exactOps Real.sqrt) (column (gmresStep (exactOps Real.sqrt) (onePass ℝ) (reversal ℝ 2)
        (gmresSeed (exactOps Real.sqrt) (onePass ℝ) [1, 0] 1 1
          (gmresInit (exactOps Real.sqrt) (onePass ℝ) (reversal ℝ 2) [0, 0]))).H 0) 0 =
      givensNu (exactOps Real.sqrt) (reversal ℝ 2)
        (gmresSeed (exactOps Real.sqrt) (onePass ℝ) [1, 0] 1 1
          (gmresInit (exactOps Real.sqrt) (onePass ℝ) (reversal ℝ 2) [0, 0])) :=
  have hg : gmresInnerGuard (exactOps Real.sqrt) (onePass ℝ) 1
      (gmresSeed (exactOps Real.sqrt) (onePass ℝ) [1, 0] 1 1
        (gmresInit (exactOps Real.sqrt) (onePass ℝ) (reversal ℝ 2) [0, 0])) = true := by
    simp [gmresInnerGuard, gmresSeed, gmresInit, onePass]
  have hnu : givensNu (exactOps Real.sqrt) (reversal ℝ 2)
      (gmresSeed (exactOps Real.sqrt) (onePass ℝ) [1, 0] 1 1
        (gmresInit (exactOps Real.sqrt) (onePass ℝ) (reversal ℝ 2) [0, 0])) ≠ 0 := by
    simp [givensNu, rotatedH, arnoldiH, arnoldiW, gramSchmidt, applyGivens, gmresSeed,
      gmresInit, onePass, reversal, vzero, vdiv, vget, column, inner_prod, vsub, vscale,
      norm_2, List.range, List.range.loop]
  ⟨hg, hnu,
    (givens_rotation Real.sqrt (onePass ℝ) (reversal ℝ 2) isSqrt_real 2 [1, 0] 1 1
      (gmresInit (exactOps Real.sqrt) (onePass ℝ) (reversal ℝ 2) [0, 0]) 0 _
      ⟨rfl, rfl, rfl, rfl, rfl, rfl⟩ rfl hg hnu).2.2.2.2.2.1⟩

end GivensClaims

section Estimate

variable {R : Type} [LinearOrderedField R] (sqrt : R → R) (self : uBlasKrylovSolver R)
  (A : uBlasSparseMatrix R)

theorem inner_prod_self_nonneg (v : List R) : 0 ≤ inner_prod (exactOps sqrt) v v := by
  rw [inner_prod_eq_sum sqrt v.length v v rfl rfl]
  exact Finset.sum_nonneg (fun p _ => mul_self_nonneg _)

theorem norm_2_nonneg (hsq : IsSqrt sqrt) (v : List R) : 0 ≤ norm_2 (exactOps sqrt) v :=
  (hsq _ (inner_prod_self_nonneg sqrt v)).1

theorem norm_2_mul_self (hsq : IsSqrt sqrt) (v : List R) :
    norm_2 (exactOps sqrt) v * norm_2 (exactOps sqrt) v = inner_prod (exactOps sqrt) v v :=
  (hsq _ (inner_prod_self_nonneg sqrt v)).2

/-- Inside a restart cycle the estimate `r_norm` is `|γ(j)|` once a step has been made, and
`γ(j)` is `beta` before. -/
theorem estimate_is_gamma (n : Nat) (r : List R) (beta beta0 : R) (st0 : GmresState R)
    (hws : WellSized self n st0) (m : Nat) (st : GmresState R)
    (hst : st = gmresInner (exactOps sqrt) self A beta m
      (gmresSeed (exactOps sqrt) self r beta beta0 st0)) :
    (0 < st.subiteration → st.r_norm = |vget (exactOps sqrt) st.gamma st.j|) ∧
      (st.subiteration = 0 → vget (exactOps sqrt) st.gamma st.j = beta) := by
  have h := gmresInner_invariant (exactOps sqrt) self A (fun _ => True)
    (fun st => CycleSizes (exactOps sqrt) self st ∧
      (0 < st.subiteration → st.r_norm = |vget (exactOps sqrt) st.gamma st.j|) ∧
      (st.subiteration = 0 → vget (exactOps sqrt) st.gamma st.j = beta)) beta
    (fun st hst hg _ => by
      refine ⟨cycleSizes_step (exactOps sqrt) self A beta st hst.1 hg, fun _ => ?_, fun h0 => ?_⟩
      · rw [gmresStep_r_norm, gmresStep_j]
        rfl
      · rw [gmresStep_subiteration] at h0
        exact absurd h0 (Nat.succ_ne_zero _)) m
    (gmresSeed (exactOps sqrt) self r beta beta0 st0)
    ⟨cycleSizes_seed (exactOps sqrt) self n r beta beta0 st0 hws,
      fun h => absurd h (Nat.lt_irrefl 0), fun _ => by
        show vget (exactOps sqrt) ((vzero (exactOps sqrt) (self.restart + 1)).set 0 beta) 0 = beta
        rw [vget_set_eq _ _ _ _ (by simp [vzero])]⟩
    (stepsOK_trivial (exactOps sqrt) self A beta m _)
  rw [hst]
  exact h.2

/-- Inside a restart cycle in which no `nu` is zero, `|γ(j)|` stays below `beta`. -/
theorem gamma_le_beta (hsq : IsSqrt sqrt) (n : Nat) (r : List R) (beta beta0 : R)
    (hbeta : 0 ≤ beta) (st0 : GmresState R) (hws : WellSized self n st0) (m : Nat)
    (hok : stepsOK (exactOps sqrt) self A (fun t => givensNu (exactOps sqrt) A t ≠ 0) beta m
      (gmresSeed (exactOps sqrt) self r beta beta0 st0)) :
    |vget (exactOps sqrt) (gmresInner (exactOps sqrt) self A beta m
          (gmresSeed (exactOps sqrt) self r beta beta0 st0)).gamma
        (gmresInner (exactOps sqrt) self A beta m
          (gmresSeed (exactOps sqrt) self r beta beta0 st0)).j| ≤ beta := by
  have h := gmresInner_invariant (exactOps sqrt) self A
    (fun t => givensNu (exactOps sqrt) A t ≠ 0)
    (fun st => CycleSizes (exactOps sqrt) self st ∧
      |vget (exactOps sqrt) st.gamma st.j| ≤ beta) beta
    (fun st hst hg hnu => by
      have hj : st.j < self.restart := by
        rw [hst.1.1]
        exact (gmresInnerGuard_true (exactOps sqrt) self beta st hg).1
      refine ⟨cycleSizes_step (exactOps sqrt) self A beta st hst.1 hg, ?_⟩
      have hs := givens_step sqrt self A hsq st hst.1 hj hnu
      rw [gmresStep_j, hs.2.2.2.2.2.2.2.2.1, abs_mul]
      have h1 := abs_le_one_of_sq_add_sq _ _ hs.2.2.1
      calc |vget (exactOps sqrt) (gmresStep (exactOps sqrt) self A st).s st.j| *
            |vget (exactOps sqrt) st.gamma st.j|
          ≤ 1 * |vget (exactOps sqrt) st.gamma st.j| :=
            mul_le_mul_of_nonneg_right h1 (abs_nonneg _)
        _ = |vget (exactOps sqrt) st.gamma st.j| := one_mul _
        _ ≤ beta := hst.2) m
    (gmresSeed (exactOps sqrt) self r beta beta0 st0)
    ⟨cycleSizes_seed (exactOps sqrt) self n r beta beta0 st0 hws, by
      show |vget (exactOps sqrt) ((vzero (exactOps sqrt) (self.restart + 1)).set 0 beta) 0| ≤ beta
      rw [vget_set_eq _ _ _ _ (by simp [vzero]), abs_of_nonneg hbeta]⟩
    hok
  exact h.2

/-- C16 (the residual estimate never grows inside a restart cycle, in exact arithmetic).
Let `st` be the state after `m` inner steps of the restart cycle seeded with the residual
`r` (`beta = norm_2 r`), from which a further step with `nu ≠ 0` is made.  Then the new
`r_norm` is at most the `r_norm` of the previous step (at most `beta` for the first step of
the cycle); and if `nu` was non-zero in the earlier steps of the cycle too, the new `r_norm`
is at most `beta`, so `r_norm/beta ≤ 1`, and with `div_tol > 1` the divergence test
`r_norm/beta < div_tol` holds after the step. -/
theorem estimate_never_grows (hsq : IsSqrt sqrt) (n : Nat) (r : List R) (beta0 : R)
    (st0 : GmresState R) (m : Nat) (st : GmresState R) (hws : WellSized self n st0)
    (hst : st = gmresInner (exactOps sqrt) self A (norm_2 (exactOps sqrt) r) m
      (gmresSeed (exactOps sqrt) self r (norm_2 (exactOps sqrt) r) beta0 st0))
    (hg : gmresInnerGuard (exactOps sqrt) self (norm_2 (exactOps sqrt) r) st = true)
    (hnu : givensNu (exactOps sqrt) A st ≠ 0) :
    (gmresStep (exactOps sqrt) self A st).r_norm ≤
        (if st.subiteration = 0 then norm_2 (exactOps sqrt) r else st.r_norm) ∧
    (stepsOK (exactOps sqrt) self A (fun t => givensNu (exactOps sqrt) A t ≠ 0)
        (norm_2 (exactOps sqrt) r) m
        (gmresSeed (exactOps sqrt) self r (norm_2 (exactOps sqrt) r) beta0 st0) →
      (gmresStep (exactOps sqrt) self A st).r_norm ≤ norm_2 (exactOps sqrt) r ∧
      (gmresStep (exactOps sqrt) self A st).r_norm / norm_2 (exactOps sqrt) r ≤ 1 ∧
      (1 < self.div_tol →
        (exactOps sqrt).lt
          ((exactOps sqrt).div (gmresStep (exactOps sqrt) self A st).r_norm
            (norm_2 (exactOps sqrt) r)) self.div_tol = true)) := by
  have hsz : CycleSizes (exactOps sqrt) self st := by
    rw [hst]
    exact cycleSizes_inner (exactOps sqrt) self A n r _ beta0 st0 hws m
  have hj : st.j < self.restart := by
    rw [hsz.1]
    exact (gmresInnerGuard_true (exactOps sqrt) self _ st hg).1
  have hs := givens_step sqrt self A hsq st hsz hj hnu
  have h1 := abs_le_one_of_sq_add_sq _ _ hs.2.2.1
  have hle : (gmresStep (exactOps sqrt) self A st).r_norm ≤
      |vget (exactOps sqrt) st.gamma st.j| := by
    rw [hs.2.2.2.2.2.2.2.2.2]
    calc |vget (exactOps sqrt) (gmresStep (exactOps sqrt) self A st).s st.j| *
          |vget (exactOps sqrt) st.gamma st.j|
        ≤ 1 * |vget (exactOps sqrt) st.gamma st.j| :=
          mul_le_mul_of_nonneg_right h1 (abs_nonneg _)
      _ = |vget (exactOps sqrt) st.gamma st.j| := one_mul _
  have hbeta := norm_2_nonneg sqrt hsq r
  have hrn : 0 ≤ (gmresStep (exactOps sqrt) self A st).r_norm := by
    rw [hs.2.2.2.2.2.2.2.2.2]
    exact mul_nonneg (abs_nonneg _) (abs_nonneg _)
  have hest := estimate_is_gamma sqrt self A n r (norm_2 (exactOps sqrt) r) beta0 st0 hws m
    st hst
  refine ⟨?_, fun hok => ?_⟩
  · split
    · next h0 =>
      rw [(hest.2 h0), abs_of_nonneg hbeta] at hle
      exact hle
    · next h0 =>
      rw [hest.1 (Nat.pos_of_ne_zero h0)]
      exact hle
  · have hgb := gamma_le_beta sqrt self A hsq n r _ beta0 hbeta st0 hws m hok
    rw [← hst] at hgb
    have h2 : (gmresStep (exactOps sqrt) self A st).r_norm ≤ norm_2 (exactOps sqrt) r :=
      le_trans hle hgb
    have h3 : (gmresStep (exactOps sqrt) self A st).r_norm / norm_2 (exactOps sqrt) r ≤ 1 :=
      div_le_one_of_le₀ h2 hbeta
    refine ⟨h2, h3, fun hd => ?_⟩
    show decide (_ < _) = true
    exact decide_eq_true (lt_of_le_of_lt h3 hd)

/-- C16 at work over the real numbers: the first inner step for the system
`[[0, 1], [1, 0]]·x = [1, 0]`, which leaves the estimate at `beta = 1`. -/
theorem estimate_never_grows_witness :
    gmresInnerGuard (exactOps Real.sqrt) (onePass ℝ) (norm_2 (exactOps Real.sqrt) [1, 0])
        (gmresSeed (exactOps Real.sqrt) (onePass ℝ) [1, 0] (norm_2 (exactOps Real.sqrt) [1, 0])
          1 (gmresInit (exactOps Real.sqrt) (onePass ℝ) (reversal ℝ 2) [0, 0])) = true ∧
    givensNu (exactOps Real.sqrt) (reversal ℝ 2)
        (gmresSeed (exactOps Real.sqrt) (onePass ℝ) [1, 0] (norm_2 (exactOps Real.sqrt) [1, 0])
          1 (gmresInit (exactOps Real.sqrt) (onePass ℝ) (reversal ℝ 2) [0, 0])) ≠ 0 ∧
    (gmresStep (exactOps Real.sqrt) (onePass ℝ) (reversal ℝ 2)
        (gmresSeed (exactOps Real.sqrt) (onePass ℝ) [1, 0] (norm_2 (exactOps Real.sqrt) [1, 0])
          1 (gmresInit (exactOps Real.sqrt) (onePass ℝ) (reversal ℝ 2) [0, 0]))).r_norm ≤
      norm_2 (exactOps Real.sqrt) [1, 0] :=
  have hg : gmresInnerGuard (exactOps Real.sqrt) (onePass ℝ)
      (norm_2 (exactOps Real.sqrt) [1, 0])
      (gmresSeed (exactOps Real.sqrt) (onePass ℝ) [1, 0] (norm_2 (exactOps Real.sqrt) [1, 0])
        1 (gmresInit (exactOps Real.sqrt) (onePass ℝ) (reversal ℝ 2) [0, 0])) = true := by
    simp [gmresInnerGuard, gmresSeed, gmresInit, onePass]
  have hnu : givensNu (exactOps Real.sqrt) (reversal ℝ 2)
      (gmresSeed (exactOps Real.sqrt) (onePass ℝ) [1, 0] (norm_2 (exactOps Real.sqrt) [1, 0])
        1 (gmresInit (exactOps Real.sqrt) (onePass ℝ) (reversal ℝ 2) [0, 0])) ≠ 0 := by
    simp [givensNu, rotatedH, arnoldiH, arnoldiW, gramSchmidt, applyGivens, gmresSeed,
      gmresInit, onePass, reversal, vzero, vdiv, vget, column, inner_prod, vsub, vscale,
      norm_2, List.range, List.range.loop]
  ⟨hg, hnu,
    ((estimate_never_grows Real.sqrt (onePass ℝ) (reversal ℝ 2) isSqrt_real 2 [1, 0] 1
      (gmresInit (exactOps Real.sqrt) (onePass ℝ) (reversal ℝ 2) [0, 0]) 0 _
      ⟨rfl, rfl, rfl, rfl, rfl, rfl⟩ rfl hg hnu).2 trivial).1⟩

end Estimate

section InnerProducts

variable {R : Type} [LinearOrderedField R] (sqrt : R → R)

theorem inner_prod_comm (n : Nat) (u v : List R) (hu : u.length = n) (hv : v.length = n) :
    inner_prod (exactOps sqrt) u v = inner_prod (exactOps sqrt) v u := by
  rw [inner_prod_eq_sum sqrt n u v hu hv, inner_prod_eq_sum sqrt n v u hv hu]
  exact Finset.sum_congr rfl (fun p _ => mul_comm _ _)

theorem inner_prod_vsub_left (n : Nat) (u v z : List R) (hu : u.length = n)
    (hv : v.length = n) (hz : z.length = n) :
    inner_prod (exactOps sqrt) (vsub (exactOps sqrt) u v) z =
      inner_prod (exactOps sqrt) u z - inner_prod (exactOps sqrt) v z := by
  rw [inner_prod_eq_sum sqrt n _ z (by rw [length_vsub sqrt u v (by rw [hu, hv]), hu]) hz,
    inner_prod_eq_sum sqrt n u z hu hz, inner_prod_eq_sum sqrt n v z hv hz,
    ← Finset.sum_sub_distrib]
  refine Finset.sum_congr rfl (fun p _ => ?_)
  rw [vget_vsub sqrt u v (by rw [hu, hv])]
  ring

theorem inner_prod_vadd_left (n : Nat) (u v z : List R) (hu : u.length = n)
    (hv : v.length = n) (hz : z.length = n) :
    inner_prod (exactOps sqrt) (vadd (exactOps sqrt) u v) z =
      inner_prod (exactOps sqrt) u z + inner_prod (exactOps sqrt) v z := by
  rw [inner_prod_eq_sum sqrt n _ z (by rw [length_vadd sqrt u v (by rw [hu, hv]), hu]) hz,
    inner_prod_eq_sum sqrt n u z hu hz, inner_prod_eq_sum sqrt n v z hv hz,
    ← Finset.sum_add_distrib]
  refine Finset.sum_congr rfl (fun p _ => ?_)
  rw [vget_vadd sqrt u v (by rw [hu, hv])]
  ring

theorem inner_prod_vscale_left (n : Nat) (a : R) (u z : List R) (hu : u.length = n)
    (hz : z.length = n) :
    inner_prod (exactOps sqrt) (vscale (exactOps sqrt) a u) z =
      a * inner_prod (exactOps sqrt) u z := by
  rw [inner_prod_eq_sum sqrt n _ z (by simpa using hu) hz,
    inner_prod_eq_sum sqrt n u z hu hz, Finset.mul_sum]
  refine Finset.sum_congr rfl (fun p _ => ?_)
  rw [vget_vscale]
  ring

theorem inner_prod_vdiv_left (n : Nat) (a : R) (u z : List R) (hu : u.length = n)
    (hz : z.length = n) :
    inner_prod (exactOps sqrt) (vdiv (exactOps sqrt) u a) z =
      inner_prod (exactOps sqrt) u z / a := by
  rw [inner_prod_eq_sum sqrt n _ z (by simpa using hu) hz,
    inner_prod_eq_sum sqrt n u z hu hz, Finset.sum_div]
  refine Finset.sum_congr rfl (fun p _ => ?_)
  rw [vget_vdiv]
  ring

theorem linComb_succ (n : Nat) (a : Nat → R) (v : Nat → List R) (m : Nat) :
    linComb (exactOps sqrt) n a v (m + 1) =
      vadd (exactOps sqrt) (linComb (exactOps sqrt) n a v m)
        (vscale (exactOps sqrt) (a m) (v m)) := by
  simp [linComb, List.range_succ]

theorem length_linComb (n : Nat) (a : Nat → R) (v : Nat → List R) (m : Nat)
    (hv : ∀ l : Nat, l < m → (v l).length = n) :
    (linComb (exactOps sqrt) n a v m).length = n := by
  induction m with
  | zero => simp [linComb]
  | succ m ih =>
    have h1 := ih (fun l hl => hv l (Nat.lt_succ_of_lt hl))
    rw [linComb_succ, length_vadd sqrt _ _ (by rw [h1, length_vscale, hv m (Nat.lt_succ_self m)]),
      h1]

theorem vget_linComb (n : Nat) (a : Nat → R) (v : Nat → List R) (m : Nat)
    (hv : ∀ l : Nat, l < m → (v l).length = n) (p : Nat) :
    vget (exactOps sqrt) (linComb (exactOps sqrt) n a v m) p =
      ∑ l in Finset.range m, a l * vget (exactOps sqrt) (v l) p := by
  induction m with
  | zero => simp [linComb]
  | succ m ih =>
    have hv1 : ∀ l : Nat, l < m → (v l).length = n := fun l hl => hv l (Nat.lt_succ_of_lt hl)
    rw [linComb_succ, vget_vadd sqrt _ _
      (by rw [length_linComb sqrt n a v m hv1, length_vscale, hv m (Nat.lt_succ_self m)]),
      ih hv1, vget_vscale, Finset.sum_range_succ]

end InnerProducts

section ArnoldiStep

variable {R : Type} [LinearOrderedField R] (sqrt : R → R)

/-- The modified Gram-Schmidt loop against orthonormal columns `0..m-1`: the remainder is
orthogonal to them, and the start vector is the remainder plus the components taken off. -/
theorem gramSchmidtFirst_spec (n : Nat) (V : List (List R)) (w h : List R)
    (hw : w.length = n) (m : Nat) :
    m ≤ h.length →
    (∀ l : Nat, l < m → (column V l).length = n) →
    (∀ l k : Nat, l < m → k < m →
      inner_prod (exactOps sqrt) (column V l) (column V k) = if l = k then 1 else 0) →
    (gramSchmidtFirst (exactOps sqrt) V m w h).1.length = n ∧
    (∀ l : Nat, l < m →
      inner_prod (exactOps sqrt) (gramSchmidtFirst (exactOps sqrt) V m w h).1 (column V l) = 0) ∧
    (∀ p : Nat, vget (exactOps sqrt) w p =
      vget (exactOps sqrt) (gramSchmidtFirst (exactOps sqrt) V m w h).1 p +
        ∑ l in Finset.range m,
          vget (exactOps sqrt) (gramSchmidtFirst (exactOps sqrt) V m w h).2 l *
            vget (exactOps sqrt) (column V l) p) := by
  induction m with
  | zero =>
    intro _ _ _
    refine ⟨hw, fun l hl => absurd hl (Nat.not_lt_zero l), fun p => ?_⟩
    simp [gramSchmidtFirst_zero]
  | succ m ih =>
    intro hm hcols horth
    obtain ⟨hlen, hperp, hsum⟩ := ih (Nat.le_of_succ_le hm)
      (fun l hl => hcols l (Nat.lt_succ_of_lt hl))
      (fun l k hl hk => horth l k (Nat.lt_succ_of_lt hl) (Nat.lt_succ_of_lt hk))
    have hcm : (column V m).length = n := hcols m (Nat.lt_succ_self m)
    rw [gramSchmidtFirst_succ]
    have hsc : (vscale (exactOps sqrt)
        (inner_prod (exactOps sqrt) (gramSchmidtFirst (exactOps sqrt) V m w h).1 (column V m))
        (column V m)).length = n := by rw [length_vscale, hcm]
    refine ⟨?_, ?_, ?_⟩
    · show (vsub _ _ _).length = n
      rw [length_vsub sqrt _ _ (by rw [hlen, hsc]), hlen]
    · intro l hl
      show inner_prod _ (vsub _ _ _) _ = 0
      have hcl : (column V l).length = n := hcols l hl
      rw [inner_prod_vsub_left sqrt n _ _ _ hlen hsc hcl,
        inner_prod_vscale_left sqrt n _ _ _ hcm hcl, horth m l (Nat.lt_succ_self m) hl]
      by_cases hlm : l = m
      · subst hlm
        simp
      · have hl1 : l < m := lt_of_le_of_ne (Nat.le_of_lt_succ hl) hlm
        rw [hperp l hl1, if_neg (fun h => hlm h.symm)]
        simp
    · intro p
      show _ = vget _ (vsub _ _ _) p + ∑ l in Finset.range (m + 1), vget _ (List.set _ _ _) l * _
      rw [hsum p, vget_vsub sqrt _ _ (by rw [hlen, hsc]), vget_vscale, Finset.sum_range_succ,
        vget_set_eq _ _ _ _ (by rw [length_gramSchmidtFirst]; exact hm)]
      have hrest : ∑ l in Finset.range m,
          vget (exactOps sqrt) ((gramSchmidtFirst (exactOps sqrt) V m w h).2.set m
            (inner_prod (exactOps sqrt) (gramSchmidtFirst (exactOps sqrt) V m w h).1
              (column V m))) l * vget (exactOps sqrt) (column V l) p =
          ∑ l in Finset.range m,
            vget (exactOps sqrt) (gramSchmidtFirst (exactOps sqrt) V m w h).2 l *
              vget (exactOps sqrt) (column V l) p := by
        refine Finset.sum_congr rfl (fun l hl => ?_)
        rw [vget_set_ne _ _ _ _ _ (by have := Finset.mem_range.mp hl; omega)]
      rw [hrest]
      ring

/-- One Arnoldi step from orthonormal columns `0..j`: the columns `0..j+1` of the new `V`
are orthonormal, the old columns are kept, and `A·V[:,j]` is the combination of the new
columns with the entries of the Hessenberg column. -/
theorem arnoldi_step (hsq : IsSqrt sqrt) (self : uBlasKrylovSolver R)
    {A : uBlasSparseMatrix R} {n : Nat} (hA : IsLinear A n) (st : GmresState R)
    (hV : st.j + 1 < st.V.length) (hh : st.j + 1 < st.h.length)
    (hcols : ∀ l : Nat, l ≤ st.j → (column st.V l).length = n)
    (horth : ∀ l k : Nat, l ≤ st.j → k ≤ st.j →
      inner_prod (exactOps sqrt) (column st.V l) (column st.V k) = if l = k then 1 else 0)
    (hne : vget (exactOps sqrt) (arnoldiH (exactOps sqrt) A st) (st.j + 1) ≠ 0) :
    (∀ l : Nat, l ≤ st.j + 1 →
      (column (gmresStep (exactOps sqrt) self A st).V l).length = n) ∧
    (∀ l k : Nat, l ≤ st.j + 1 → k ≤ st.j + 1 →
      inner_prod (exactOps sqrt) (column (gmresStep (exactOps sqrt) self A st).V l)
        (column (gmresStep (exactOps sqrt) self A st).V k) = if l = k then 1 else 0) ∧
    (∀ p : Nat, vget (exactOps sqrt) (A.prod (column st.V st.j)) p =
      ∑ l in Finset.range (st.j + 2),
        vget (exactOps sqrt) (arnoldiH (exactOps sqrt) A st) l *
          vget (exactOps sqrt) (column (gmresStep (exactOps sqrt) self A st).V l) p) ∧
    (∀ l : Nat, l ≤ st.j →
      column (gmresStep (exactOps sqrt) self A st).V l = column st.V l) := by
  have hw0 : (A.prod (column st.V st.j)).length = n := hA.length _ (hcols _ (Nat.le_refl _))
  obtain ⟨hlen, hperp, hsum⟩ := gramSchmidtFirst_spec sqrt n st.V
    (A.prod (column st.V st.j)) st.h hw0 (st.j + 1) (Nat.le_of_lt hh)
    (fun l hl => hcols l (Nat.le_of_lt_succ hl))
    (fun l k hl hk => horth l k (Nat.le_of_lt_succ hl) (Nat.le_of_lt_succ hk))
  rw [← gramSchmidt_eq_first] at hlen hperp hsum
  have hWlen : (arnoldiW (exactOps sqrt) A st).length = n := hlen
  have heta : vget (exactOps sqrt) (arnoldiH (exactOps sqrt) A st) (st.j + 1) =
      norm_2 (exactOps sqrt) (arnoldiW (exactOps sqrt) A st) := by
    unfold arnoldiH
    rw [vget_set_eq _ _ _ _ (by rw [length_gramSchmidt]; exact hh)]
  have hHl : ∀ l : Nat, l ≤ st.j → vget (exactOps sqrt) (arnoldiH (exactOps sqrt) A st) l =
      vget (exactOps sqrt)
        (gramSchmidt (exactOps sqrt) st.V st.j (A.prod (column st.V st.j)) st.h).2 l := by
    intro l hl
    unfold arnoldiH
    rw [vget_set_ne _ _ _ _ _ (by omega)]
  have hnew : column (gmresStep (exactOps sqrt) self A st).V (st.j + 1) =
      vdiv (exactOps sqrt) (arnoldiW (exactOps sqrt) A st)
        (vget (exactOps sqrt) (arnoldiH (exactOps sqrt) A st) (st.j + 1)) := by
    rw [gmresStep_V, column_set_eq _ _ _ hV]
  have hold : ∀ l : Nat, l ≤ st.j →
      column (gmresStep (exactOps sqrt) self A st).V l = column st.V l := by
    intro l hl
    rw [gmresStep_V, column_set_ne _ _ _ _ (by omega)]
  have hnewlen : (column (gmresStep (exactOps sqrt) self A st).V (st.j + 1)).length = n := by
    rw [hnew, length_vdiv, hWlen]
  have hWW : inner_prod (exactOps sqrt) (arnoldiW (exactOps sqrt) A st)
      (arnoldiW (exactOps sqrt) A st) =
      vget (exactOps sqrt) (arnoldiH (exactOps sqrt) A st) (st.j + 1) *
        vget (exactOps sqrt) (arnoldiH (exactOps sqrt) A st) (st.j + 1) := by
    rw [heta, norm_2_mul_self sqrt hsq]
  have hnk : ∀ k : Nat, k ≤ st.j →
      inner_prod (exactOps sqrt) (column (gmresStep (exactOps sqrt) self A st).V (st.j + 1))
        (column st.V k) = 0 := by
    intro k hk
    rw [hnew, inner_prod_vdiv_left sqrt n _ _ _ hWlen (hcols k hk)]
    have := hperp k (Nat.lt_succ_of_le hk)
    rw [show inner_prod (exactOps sqrt) (arnoldiW (exactOps sqrt) A st) (column st.V k) = 0
      from this]
    simp
  have hnn : inner_prod (exactOps sqrt)
      (column (gmresStep (exactOps sqrt) self A st).V (st.j + 1))
      (column (gmresStep (exactOps sqrt) self A st).V (st.j + 1)) = 1 := by
    rw [hnew, inner_prod_vdiv_left sqrt n _ _ _ hWlen (by rw [length_vdiv, hWlen]),
      inner_prod_comm sqrt n _ _ hWlen (by rw [length_vdiv, hWlen]),
      inner_prod_vdiv_left sqrt n _ _ _ hWlen hWlen, hWW]
    field_simp
  refine ⟨?_, ?_, ?_, hold⟩
  · intro l hl
    by_cases hlj : l = st.j + 1
    · rw [hlj]; exact hnewlen
    · rw [hold l (by omega)]; exact hcols l (by omega)
  · intro l k hl hk
    by_cases hlj : l = st.j + 1
    · by_cases hkj : k = st.j + 1
      · rw [hlj, hkj, if_pos rfl]; exact hnn
      · rw [hlj, hold k (by omega), hnk k (by omega), if_neg (fun h => hkj h.symm)]
    · by_cases hkj : k = st.j + 1
      · rw [hkj, hold l (by omega),
          inner_prod_comm sqrt n _ _ (hcols l (by omega)) hnewlen, hnk l (by omega),
          if_neg hlj]
      · rw [hold l (by omega), hold k (by omega)]
        exact horth l k (by omega) (by omega)
  · intro p
    rw [hsum p, Finset.sum_range_succ _ (st.j + 1), hnew, vget_vdiv]
    have hrest : ∑ l in Finset.range (st.j + 1),
        vget (exactOps sqrt) (arnoldiH (exactOps sqrt) A st) l *
          vget (exactOps sqrt) (column (gmresStep (exactOps sqrt) self A st).V l) p =
        ∑ l in Finset.range (st.j + 1),
          vget (exactOps sqrt)
            (gramSchmidt (exactOps sqrt) st.V st.j (A.prod (column st.V st.j)) st.h).2 l *
            vget (exactOps sqrt) (column st.V l) p := by
      refine Finset.sum_congr rfl (fun l hl => ?_)
      have hl1 : l ≤ st.j := Nat.le_of_lt_succ (Finset.mem_range.mp hl)
      rw [hHl l hl1, hold l hl1]
    rw [hrest]
    have : vget (exactOps sqrt) (arnoldiH (exactOps sqrt) A st) (st.j + 1) *
        (vget (exactOps sqrt) (arnoldiW (exactOps sqrt) A st) p /
          vget (exactOps sqrt) (arnoldiH (exactOps sqrt) A st) (st.j + 1)) =
        vget (exactOps sqrt) (arnoldiW (exactOps sqrt) A st) p := by
      field_simp
    rw [this]
    unfold arnoldiW
    ring

theorem reversal_isLinear (n : Nat) : IsLinear (reversal R n) n where
  length := fun v hv => by simpa [reversal] using hv
  add := fun u v hu hv => by
    simp only [reversal]
    exact List.reverse_zipWith (by rw [hu, hv])
  smul := fun a v _ => by simp [reversal]

/-- C14 (Arnoldi step of GMRES with modified Gram-Schmidt, in exact arithmetic).  Let the
columns `0..j` of `V` be orthonormal vectors of length `n`, `A` linear on such vectors, and
the computed `h(j+1) = ‖remainder‖₂` non-zero (`V` and `h` having room for index `j + 1`).
Then after the inner step the columns `0..j+1` of `V` are orthonormal, and
`A·V[:,j] = Σ_{i=0..j+1} h(i)·V[:,i]` for the entries `h(0..j+1)` computed before the Givens
rotations. -/
theorem arnoldi_relation (hsq : IsSqrt sqrt) (self : uBlasKrylovSolver R)
    {A : uBlasSparseMatrix R} {n : Nat} (hA : IsLinear A n) (st : GmresState R)
    (hV : st.j + 1 < st.V.length) (hh : st.j + 1 < st.h.length)
    (hcols : ∀ l : Nat, l ≤ st.j → (column st.V l).length = n)
    (horth : ∀ l k : Nat, l ≤ st.j → k ≤ st.j →
      inner_prod (exactOps sqrt) (column st.V l) (column st.V k) = if l = k then 1 else 0)
    (hne : vget (exactOps sqrt) (arnoldiH (exactOps sqrt) A st) (st.j + 1) ≠ 0) :
    (∀ l k : Nat, l ≤ st.j + 1 → k ≤ st.j + 1 →
      inner_prod (exactOps sqrt) (column (gmresStep (exactOps sqrt) self A st).V l)
        (column (gmresStep (exactOps sqrt) self A st).V k) = if l = k then 1 else 0) ∧
    A.prod (column (gmresStep (exactOps sqrt) self A st).V st.j) =
      linComb (exactOps sqrt) n (vget (exactOps sqrt) (arnoldiH (exactOps sqrt) A st))
        (column (gmresStep (exactOps sqrt) self A st).V) (st.j + 2) := by
  obtain ⟨hlen, horth1, hsum, hold⟩ := arnoldi_step sqrt hsq self hA st hV hh hcols horth hne
  refine ⟨horth1, ?_⟩
  have hl2 : ∀ l : Nat, l < st.j + 2 →
      (column (gmresStep (exactOps sqrt) self A st).V l).length = n :=
    fun l hl => hlen l (Nat.le_of_lt_succ hl)
  rw [hold st.j (Nat.le_refl _)]
  apply vec_ext sqrt
  · rw [hA.length _ (hcols _ (Nat.le_refl _)), length_linComb sqrt n _ _ _ hl2]
  · intro p _
    rw [hsum p, vget_linComb sqrt n _ _ _ hl2]

/-- C14 at work over the real numbers: the first inner step for the system
`[[0, 1], [1, 0]]·x = [1, 0]`, from the basis `v₀ = (1, 0)`. -/
theorem arnoldi_relation_witness :
    vget (exactOps Real.sqrt) (arnoldiH (exactOps Real.sqrt) (reversal ℝ 2)
        (gmresSeed (exactOps Real.sqrt) (onePass ℝ) [1, 0] 1 1
          (gmresInit (exactOps Real.sqrt) (onePass ℝ) (reversal ℝ 2) [0, 0]))) 1 ≠ 0 ∧
    (reversal ℝ 2).prod (column (gmresStep (exactOps Real.sqrt) (onePass ℝ) (reversal ℝ 2)
        (gmresSeed (exactOps Real.sqrt) (onePass ℝ) [1, 0] 1 1
          (gmresInit (exactOps Real.sqrt) (onePass ℝ) (reversal ℝ 2) [0, 0]))).V 0) =
      linComb (exactOps Real.sqrt) 2
        (vget (exactOps Real.sqrt) (arnoldiH (exactOps Real.sqrt) (reversal ℝ 2)
          (gmresSeed (exactOps Real.sqrt) (onePass ℝ) [1, 0] 1 1
            (gmresInit (exactOps Real.sqrt) (onePass ℝ) (reversal ℝ 2) [0, 0]))))
        (column (gmresStep (exactOps Real.sqrt) (onePass ℝ) (reversal ℝ 2)
          (gmresSeed (exactOps Real.sqrt) (onePass ℝ) [1, 0] 1 1
            (gmresInit (exactOps Real.sqrt) (onePass ℝ) (reversal ℝ 2) [0, 0]))).V) 2 :=
  have hne : vget (exactOps Real.sqrt) (arnoldiH (exactOps Real.sqrt) (reversal ℝ 2)
      (gmresSeed (exactOps Real.sqrt) (onePass ℝ) [1, 0] 1 1
        (gmresInit (exactOps Real.sqrt) (onePass ℝ) (reversal ℝ 2) [0, 0]))) 1 ≠ 0 := by
    simp [arnoldiH, arnoldiW, gramSchmidt, gmresSeed, gmresInit, onePass, reversal, vzero,
      vdiv, vget, column, inner_prod, vsub, vscale, norm_2, List.range, List.range.loop]
  ⟨hne,
    (arnoldi_relation Real.sqrt isSqrt_real (onePass ℝ) (reversal_isLinear 2)
      (gmresSeed (exactOps Real.sqrt) (onePass ℝ) [1, 0] 1 1
        (gmresInit (exactOps Real.sqrt) (onePass ℝ) (reversal ℝ 2) [0, 0]))
      (by simp [gmresSeed, gmresInit, onePass]) (by simp [gmresSeed, gmresInit, onePass, vzero])
      (fun l hl => by
        obtain rfl := Nat.le_zero.mp hl
        simp [gmresSeed, gmresInit, onePass, column, vdiv])
      (fun l k hl hk => by
        obtain rfl := Nat.le_zero.mp hl
        obtain rfl := Nat.le_zero.mp hk
        simp [gmresSeed, gmresInit, onePass, column, vdiv, inner_prod])
      hne).2⟩

end ArnoldiStep

section RotatedBasis

variable {R : Type} [LinearOrderedField R] (sqrt : R → R)

theorem zhat_congr (c s c1 s1 : Nat → R) (v v1 : Nat → List R) (i : Nat) :
    (∀ l : Nat, l < i → c l = c1 l ∧ s l = s1 l) → (∀ l : Nat, l ≤ i → v l = v1 l) →
    zhat (exactOps sqrt) c s v i = zhat (exactOps sqrt) c1 s1 v1 i := by
  induction i with
  | zero => intro _ hv; exact hv 0 (Nat.le_refl 0)
  | succ i ih =>
    intro hcs hv
    have h1 := ih (fun l hl => hcs l (Nat.lt_succ_of_lt hl)) (fun l hl => hv l (Nat.le_succ_of_le hl))
    show vadd _ (vscale _ (s i) (zhat _ c s v i)) (vscale _ (c i) (v (i + 1))) =
      vadd _ (vscale _ (s1 i) (zhat _ c1 s1 v1 i)) (vscale _ (c1 i) (v1 (i + 1)))
    rw [h1, (hcs i (Nat.lt_succ_self i)).1, (hcs i (Nat.lt_succ_self i)).2,
      hv (i + 1) (Nat.le_refl _)]

theorem zfin_congr (c s c1 s1 : Nat → R) (v v1 : Nat → List R) (i : Nat)
    (hcs : ∀ l : Nat, l ≤ i → c l = c1 l ∧ s l = s1 l) (hv : ∀ l : Nat, l ≤ i + 1 → v l = v1 l) :
    zfin (exactOps sqrt) c s v i = zfin (exactOps sqrt) c1 s1 v1 i := by
  unfold zfin
  rw [zhat_congr sqrt c s c1 s1 v v1 i (fun l hl => hcs l (Nat.le_of_lt hl))
    (fun l hl => hv l (Nat.le_succ_of_le hl)), (hcs i (Nat.le_refl i)).1,
    (hcs i (Nat.le_refl i)).2, hv (i + 1) (Nat.le_refl _)]

theorem length_zhat (n : Nat) (c s : Nat → R) (v : Nat → List R) (i : Nat) :
    (∀ l : Nat, l ≤ i → (v l).length = n) → (zhat (exactOps sqrt) c s v i).length = n := by
  induction i with
  | zero => intro hv; exact hv 0 (Nat.le_refl 0)
  | succ i ih =>
    intro hv
    have h1 := ih (fun l hl => hv l (Nat.le_succ_of_le hl))
    show (vadd _ (vscale _ (s i) (zhat _ c s v i)) (vscale _ (c i) (v (i + 1)))).length = n
    rw [length_vadd sqrt _ _ (by rw [length_vscale, length_vscale, h1, hv (i + 1) (Nat.le_refl _)]),
      length_vscale, h1]

theorem length_zfin (n : Nat) (c s : Nat → R) (v : Nat → List R) (i : Nat)
    (hv : ∀ l : Nat, l ≤ i + 1 → (v l).length = n) :
    (zfin (exactOps sqrt) c s v i).length = n := by
  have h1 := length_zhat sqrt n c s v i (fun l hl => hv l (Nat.le_succ_of_le hl))
  unfold zfin
  rw [length_vsub sqrt _ _ (by rw [length_vscale, length_vscale, h1, hv (i + 1) (Nat.le_refl _)]),
    length_vscale, h1]

theorem vget_zhat_succ (n : Nat) (c s : Nat → R) (v : Nat → List R) (i : Nat)
    (hv : ∀ l : Nat, l ≤ i + 1 → (v l).length = n) (p : Nat) :
    vget (exactOps sqrt) (zhat (exactOps sqrt) c s v (i + 1)) p =
      s i * vget (exactOps sqrt) (zhat (exactOps sqrt) c s v i) p +
        c i * vget (exactOps sqrt) (v (i + 1)) p := by
  have h1 := length_zhat sqrt n c s v i (fun l hl => hv l (Nat.le_succ_of_le hl))
  show vget _ (vadd _ (vscale _ (s i) (zhat _ c s v i)) (vscale _ (c i) (v (i + 1)))) p = _
  rw [vget_vadd sqrt _ _ (by rw [length_vscale, length_vscale, h1, hv (i + 1) (Nat.le_refl _)]),
    vget_vscale, vget_vscale]

theorem vget_zfin (n : Nat) (c s : Nat → R) (v : Nat → List R) (i : Nat)
    (hv : ∀ l : Nat, l ≤ i + 1 → (v l).length = n) (p : Nat) :
    vget (exactOps sqrt) (zfin (exactOps sqrt) c s v i) p =
      c i * vget (exactOps sqrt) (zhat (exactOps sqrt) c s v i) p -
        s i * vget (exactOps sqrt) (v (i + 1)) p := by
  have h1 := length_zhat sqrt n c s v i (fun l hl => hv l (Nat.le_succ_of_le hl))
  unfold zfin
  rw [vget_vsub sqrt _ _ (by rw [length_vscale, length_vscale, h1, hv (i + 1) (Nat.le_refl _)]),
    vget_vscale, vget_vscale]

end RotatedBasis

section RotationsOnBasis

variable {R : Type} [LinearOrderedField R] (sqrt : R → R)

/-- Applying the stored rotations `0..i-1` to the coordinates `h` and to the basis `v`
together leaves the vector `Σ h(l)·v l` as it is. -/
theorem applyGivens_sum (n : Nat) (c s : List R) (v : Nat → List R) (h : List R) (m p : Nat)
    (hm : m ≤ h.length) (hv : ∀ l : Nat, l < m → (v l).length = n) (i : Nat) :
    i < m →
    (∀ l : Nat, l < i → vget (exactOps sqrt) c l * vget (exactOps sqrt) c l +
      vget (exactOps sqrt) s l * vget (exactOps sqrt) s l = 1) →
    ∑ l in Finset.range m, vget (exactOps sqrt) h l * vget (exactOps sqrt) (v l) p =
      ∑ l in Finset.range i, vget (exactOps sqrt) (applyGivens (exactOps sqrt) c s i h) l *
          vget (exactOps sqrt) (zfin (exactOps sqrt) (vget (exactOps sqrt) c)
            (vget (exactOps sqrt) s) v l) p +
        vget (exactOps sqrt) (applyGivens (exactOps sqrt) c s i h) i *
          vget (exactOps sqrt) (zhat (exactOps sqrt) (vget (exactOps sqrt) c)
            (vget (exactOps sqrt) s) v i) p +
        ∑ l in Finset.Ico (i + 1) m, vget (exactOps sqrt) h l * vget (exactOps sqrt) (v l) p := by
  induction i with
  | zero =>
    intro h0 _
    rw [applyGivens_zero, Finset.sum_range_zero, zero_add, Finset.range_eq_Ico,
      Finset.sum_eq_sum_Ico_succ_bot h0]
    rfl
  | succ i ih =>
    intro hi hrot
    have hi0 : i < m := Nat.lt_of_succ_lt hi
    have hlen : (applyGivens (exactOps sqrt) c s i h).length = h.length :=
      length_applyGivens (exactOps sqrt) c s i h
    have hr := hrot i (Nat.lt_succ_self i)
    have hg1 : vget (exactOps sqrt) (applyGivens (exactOps sqrt) c s i h) (i + 1) =
        vget (exactOps sqrt) h (i + 1) :=
      vget_applyGivens_of_lt (exactOps sqrt) c s i h (i + 1) (Nat.lt_succ_self i)
    have hgi : vget (exactOps sqrt) (applyGivens (exactOps sqrt) c s (i + 1) h) i =
        vget (exactOps sqrt) c i * vget (exactOps sqrt) (applyGivens (exactOps sqrt) c s i h) i -
          vget (exactOps sqrt) s i * vget (exactOps sqrt) h (i + 1) := by
      rw [applyGivens_succ, vget_set_ne _ _ _ _ _ (Nat.succ_ne_self i),
        vget_set_eq _ _ _ _ (by rw [hlen]; omega), hg1]
      rfl
    have hgi1 : vget (exactOps sqrt) (applyGivens (exactOps sqrt) c s (i + 1) h) (i + 1) =
        vget (exactOps sqrt) s i * vget (exactOps sqrt) (applyGivens (exactOps sqrt) c s i h) i +
          vget (exactOps sqrt) c i * vget (exactOps sqrt) h (i + 1) := by
      rw [applyGivens_succ, vget_set_eq _ _ _ _ (by rw [List.length_set, hlen]; omega), hg1]
      rfl
    have hgl : ∀ l : Nat, l < i →
        vget (exactOps sqrt) (applyGivens (exactOps sqrt) c s (i + 1) h) l =
          vget (exactOps sqrt) (applyGivens (exactOps sqrt) c s i h) l := by
      intro l hl
      rw [applyGivens_succ, vget_set_ne _ _ _ _ _ (by omega), vget_set_ne _ _ _ _ _ (by omega)]
    have hz := vget_zfin sqrt n (vget (exactOps sqrt) c) (vget (exactOps sqrt) s) v i
      (fun l hl => hv l (by omega)) p
    have hzh := vget_zhat_succ sqrt n (vget (exactOps sqrt) c) (vget (exactOps sqrt) s) v i
      (fun l hl => hv l (by omega)) p
    have hrest : ∑ l in Finset.range i,
        vget (exactOps sqrt) (applyGivens (exactOps sqrt) c s (i + 1) h) l *
          vget (exactOps sqrt) (zfin (exactOps sqrt) (vget (exactOps sqrt) c)
            (vget (exactOps sqrt) s) v l) p =
        ∑ l in Finset.range i, vget (exactOps sqrt) (applyGivens (exactOps sqrt) c s i h) l *
          vget (exactOps sqrt) (zfin (exactOps sqrt) (vget (exactOps sqrt) c)
            (vget (exactOps sqrt) s) v l) p :=
      Finset.sum_congr rfl (fun l hl => by rw [hgl l (Finset.mem_range.mp hl)])
    rw [ih hi0 (fun l hl => hrot l (Nat.lt_succ_of_lt hl)), Finset.sum_eq_sum_Ico_succ_bot hi,
      Finset.sum_range_succ, hrest, hgi, hgi1, hz, hzh]
    linear_combination
      (-(vget (exactOps sqrt) (applyGivens (exactOps sqrt) c s i h) i *
          vget (exactOps sqrt) (zhat (exactOps sqrt) (vget (exactOps sqrt) c)
            (vget (exactOps sqrt) s) v i) p +
        vget (exactOps sqrt) h (i + 1) * vget (exactOps sqrt) (v (i + 1)) p)) * hr

end RotationsOnBasis

section RotationStep

variable {R : Type} [LinearOrderedField R] (sqrt : R → R)

theorem inner_prod_zhat_succ (n : Nat) (c s : Nat → R) (v : Nat → List R) (i : Nat)
    (hv : ∀ l : Nat, l ≤ i + 1 → (v l).length = n) (u : List R) (hu : u.length = n) :
    inner_prod (exactOps sqrt) (zhat (exactOps sqrt) c s v (i + 1)) u =
      s i * inner_prod (exactOps sqrt) (zhat (exactOps sqrt) c s v i) u +
        c i * inner_prod (exactOps sqrt) (v (i + 1)) u := by
  have h1 := length_zhat sqrt n c s v i (fun l hl => hv l (Nat.le_succ_of_le hl))
  have h2 := hv (i + 1) (Nat.le_refl _)
  show inner_prod _ (vadd _ (vscale _ (s i) (zhat _ c s v i)) (vscale _ (c i) (v (i + 1)))) u = _
  rw [inner_prod_vadd_left sqrt n _ _ _ (by rw [length_vscale, h1]) (by rw [length_vscale, h2]) hu,
    inner_prod_vscale_left sqrt n _ _ _ h1 hu, inner_prod_vscale_left sqrt n _ _ _ h2 hu]

/-- Extending an orthonormal rotated basis by one rotation: the new `ẑ` is a unit vector
in the span of the basis. -/
theorem zhat_succ_unit (n : Nat) (c s : Nat → R) (v : Nat → List R) (i : Nat)
    (hv : ∀ l : Nat, l ≤ i + 1 → (v l).length = n)
    (hrot : c i * c i + s i * s i = 1)
    (hunit : inner_prod (exactOps sqrt) (zhat (exactOps sqrt) c s v i)
      (zhat (exactOps sqrt) c s v i) = 1)
    (hnew : inner_prod (exactOps sqrt) (v (i + 1)) (v (i + 1)) = 1)
    (hperp : inner_prod (exactOps sqrt) (zhat (exactOps sqrt) c s v i) (v (i + 1)) = 0) :
    inner_prod (exactOps sqrt) (zhat (exactOps sqrt) c s v (i + 1))
      (zhat (exactOps sqrt) c s v (i + 1)) = 1 := by
  have h1 := length_zhat sqrt n c s v i (fun l hl => hv l (Nat.le_succ_of_le hl))
  have h2 := hv (i + 1) (Nat.le_refl _)
  have h3 := length_zhat sqrt n c s v (i + 1) hv
  rw [inner_prod_zhat_succ sqrt n c s v i hv _ h3,
    inner_prod_comm sqrt n _ _ h1 h3, inner_prod_comm sqrt n (v (i + 1)) _ h2 h3,
    inner_prod_zhat_succ sqrt n c s v i hv _ h1, inner_prod_zhat_succ sqrt n c s v i hv _ h2,
    hunit, hnew, hperp, inner_prod_comm sqrt n (v (i + 1)) _ h2 h1, hperp]
  linear_combination hrot

theorem krylovInv_step (hsq : IsSqrt sqrt) (self : uBlasKrylovSolver R)
    {A : uBlasSparseMatrix R} {n : Nat} (hA : IsLinear A n) (st : GmresState R)
    (hsz : CycleSizes (exactOps sqrt) self st) (hinv : KrylovInv sqrt A n st)
    (hj : st.j < self.restart) (hnz : NoZeroDivisor (exactOps sqrt) A st) :
    KrylovInv sqrt A n (gmresStep (exactOps sqrt) self A st) := by
  have hsz0 := hsz
  obtain ⟨_, _, hVl, hHl, hhl, hcl, hsl, hgl, hzero⟩ := hsz
  obtain ⟨hlen1, horth1, hsum, hold⟩ := arnoldi_step sqrt hsq self hA st (by omega) (by omega)
    hinv.cols hinv.orth hnz.1
  obtain ⟨hc, hs, hone, hdiag, hsub, hHjj, hpos, hgj, hgj1, _⟩ :=
    givens_step sqrt self A hsq st hsz0 hj hnz.2
  have hcne : ∀ l : Nat, l ≠ st.j →
      vget (exactOps sqrt) (gmresStep (exactOps sqrt) self A st).c l =
        vget (exactOps sqrt) st.c l := by
    intro l hl
    rw [gmresStep_c, vget_set_ne _ _ _ _ _ (fun h => hl h.symm)]
  have hsne : ∀ l : Nat, l ≠ st.j →
      vget (exactOps sqrt) (gmresStep (exactOps sqrt) self A st).s l =
        vget (exactOps sqrt) st.s l := by
    intro l hl
    rw [gmresStep_s, vget_set_ne _ _ _ _ _ (fun h => hl h.symm)]
  have hgne : ∀ l : Nat, l < st.j →
      vget (exactOps sqrt) (gmresStep (exactOps sqrt) self A st).gamma l =
        vget (exactOps sqrt) st.gamma l := by
    intro l hl
    rw [gmresStep_gamma, vget_set_ne _ _ _ _ _ (by omega), vget_set_ne _ _ _ _ _ (by omega)]
  have hHne : ∀ l : Nat, l ≠ st.j →
      column (gmresStep (exactOps sqrt) self A st).H l = column st.H l := by
    intro l hl
    rw [gmresStep_H, column_set_ne _ _ _ _ (fun h => hl h.symm)]
  -- the rotated basis below the new rotation is the old one
  have hzh : ∀ i : Nat, i ≤ st.j →
      zhat (exactOps sqrt) (vget (exactOps sqrt) (gmresStep (exactOps sqrt) self A st).c)
        (vget (exactOps sqrt) (gmresStep (exactOps sqrt) self A st).s)
        (column (gmresStep (exactOps sqrt) self A st).V) i =
      zhat (exactOps sqrt) (vget (exactOps sqrt) st.c) (vget (exactOps sqrt) st.s)
        (column st.V) i := fun i hi =>
    zhat_congr sqrt _ _ _ _ _ _ i
      (fun l hl => ⟨hcne l (by omega), hsne l (by omega)⟩) (fun l hl => hold l (by omega))
  have hzf : ∀ i : Nat, i < st.j →
      zfin (exactOps sqrt) (vget (exactOps sqrt) (gmresStep (exactOps sqrt) self A st).c)
        (vget (exactOps sqrt) (gmresStep (exactOps sqrt) self A st).s)
        (column (gmresStep (exactOps sqrt) self A st).V) i =
      zfin (exactOps sqrt) (vget (exactOps sqrt) st.c) (vget (exactOps sqrt) st.s)
        (column st.V) i := fun i hi =>
    zfin_congr sqrt _ _ _ _ _ _ i
      (fun l hl => ⟨hcne l (by omega), hsne l (by omega)⟩) (fun l hl => hold l (by omega))
  have hzfmix : ∀ i : Nat, i < st.j →
      zfin (exactOps sqrt) (vget (exactOps sqrt) st.c) (vget (exactOps sqrt) st.s)
        (column (gmresStep (exactOps sqrt) self A st).V) i =
      zfin (exactOps sqrt) (vget (exactOps sqrt) (gmresStep (exactOps sqrt) self A st).c)
        (vget (exactOps sqrt) (gmresStep (exactOps sqrt) self A st).s)
        (column (gmresStep (exactOps sqrt) self A st).V) i := fun i hi =>
    zfin_congr sqrt _ _ _ _ _ _ i
      (fun l hl => ⟨(hcne l (by omega)).symm, (hsne l (by omega)).symm⟩) (fun l _ => rfl)
  have hzhmix : zhat (exactOps sqrt) (vget (exactOps sqrt) st.c) (vget (exactOps sqrt) st.s)
        (column (gmresStep (exactOps sqrt) self A st).V) st.j =
      zhat (exactOps sqrt) (vget (exactOps sqrt) (gmresStep (exactOps sqrt) self A st).c)
        (vget (exactOps sqrt) (gmresStep (exactOps sqrt) self A st).s)
        (column (gmresStep (exactOps sqrt) self A st).V) st.j :=
    zhat_congr sqrt _ _ _ _ _ _ st.j
      (fun l hl => ⟨(hcne l (by omega)).symm, (hsne l (by omega)).symm⟩) (fun l _ => rfl)
  have hz := vget_zfin sqrt n
    (vget (exactOps sqrt) (gmresStep (exactOps sqrt) self A st).c)
    (vget (exactOps sqrt) (gmresStep (exactOps sqrt) self A st).s)
    (column (gmresStep (exactOps sqrt) self A st).V) st.j hlen1
  have hzs := vget_zhat_succ sqrt n
    (vget (exactOps sqrt) (gmresStep (exactOps sqrt) self A st).c)
    (vget (exactOps sqrt) (gmresStep (exactOps sqrt) self A st).s)
    (column (gmresStep (exactOps sqrt) self A st).V) st.j hlen1
  refine ⟨hlen1, horth1, ?_, ?_, ?_, ?_, ?_, ?_⟩
  · -- rot
    intro i hi
    rw [gmresStep_j] at hi
    by_cases hij : i = st.j
    · rw [hij]; exact hone
    · rw [hcne i hij, hsne i hij]
      exact hinv.rot i (by omega)
  · -- diag
    intro i hi
    rw [gmresStep_j] at hi
    by_cases hij : i = st.j
    · rw [hij, hHjj]; exact ne_of_gt hpos
    · rw [hHne i hij]
      exact hinv.diag i (by omega)
  · -- res
    intro p
    rw [gmresStep_r, gmresStep_j, Finset.sum_range_succ, hinv.res p, hgj, hgj1, hz p, hzs p,
      hzh st.j (Nat.le_refl _)]
    have hrest : ∑ l in Finset.range st.j,
        vget (exactOps sqrt) (gmresStep (exactOps sqrt) self A st).gamma l *
          vget (exactOps sqrt) (zfin (exactOps sqrt)
            (vget (exactOps sqrt) (gmresStep (exactOps sqrt) self A st).c)
            (vget (exactOps sqrt) (gmresStep (exactOps sqrt) self A st).s)
            (column (gmresStep (exactOps sqrt) self A st).V) l) p =
        ∑ l in Finset.range st.j, vget (exactOps sqrt) st.gamma l *
          vget (exactOps sqrt) (zfin (exactOps sqrt) (vget (exactOps sqrt) st.c)
            (vget (exactOps sqrt) st.s) (column st.V) l) p :=
      Finset.sum_congr rfl (fun l hl => by
        rw [hgne l (Finset.mem_range.mp hl), hzf l (Finset.mem_range.mp hl)])
    rw [hrest]
    linear_combination
      (-(vget (exactOps sqrt) st.gamma st.j *
        vget (exactOps sqrt) (zhat (exactOps sqrt) (vget (exactOps sqrt) st.c)
          (vget (exactOps sqrt) st.s) (column st.V) st.j) p)) * hone
  · -- hess
    intro i hi p
    rw [gmresStep_j] at hi
    by_cases hij : i = st.j
    · subst hij
      rw [hold st.j (Nat.le_refl _), hsum p,
        applyGivens_sum sqrt n st.c st.s (column (gmresStep (exactOps sqrt) self A st).V)
          (arnoldiH (exactOps sqrt) A st) (st.j + 2) p
          (by rw [length_arnoldiH]; omega) (fun l hl => hlen1 l (by omega)) st.j (by omega)
          hinv.rot,
        Nat.Ico_succ_singleton, Finset.sum_singleton, Finset.sum_range_succ, hHjj, hz p, hzhmix]
      have hr1 : vget (exactOps sqrt) (rotatedH (exactOps sqrt) A st) (st.j + 1) =
          vget (exactOps sqrt) (arnoldiH (exactOps sqrt) A st) (st.j + 1) :=
        vget_applyGivens_of_lt (exactOps sqrt) st.c st.s st.j _ (st.j + 1) (Nat.lt_succ_self _)
      have hrest : ∑ l in Finset.range st.j,
          vget (exactOps sqrt)
            (applyGivens (exactOps sqrt) st.c st.s st.j (arnoldiH (exactOps sqrt) A st)) l *
            vget (exactOps sqrt) (zfin (exactOps sqrt) (vget (exactOps sqrt) st.c)
              (vget (exactOps sqrt) st.s)
              (column (gmresStep (exactOps sqrt) self A st).V) l) p =
          ∑ l in Finset.range st.j,
            vget (exactOps sqrt) (column (gmresStep (exactOps sqrt) self A st).H st.j) l *
              vget (exactOps sqrt) (zfin (exactOps sqrt)
                (vget (exactOps sqrt) (gmresStep (exactOps sqrt) self A st).c)
                (vget (exactOps sqrt) (gmresStep (exactOps sqrt) self A st).s)
                (column (gmresStep (exactOps sqrt) self A st).V) l) p := by
        refine Finset.sum_congr rfl (fun l hl => ?_)
        have hl1 := Finset.mem_range.mp hl
        rw [hzfmix l hl1, gmresStep_H, column_set_eq _ _ _ (by omega),
          vget_take _ _ _ _ (by omega), gmresStep_h, vget_set_ne _ _ _ _ _ (by omega)]
        rfl
      rw [hrest, ← hr1]
      have hnu := ne_of_gt hpos
      have h1 : givensNu (exactOps sqrt) A st *
          vget (exactOps sqrt) (gmresStep (exactOps sqrt) self A st).c st.j =
          vget (exactOps sqrt) (rotatedH (exactOps sqrt) A st) st.j := by
        rw [hc]; field_simp
      have h2 : givensNu (exactOps sqrt) A st *
          vget (exactOps sqrt) (gmresStep (exactOps sqrt) self A st).s st.j =
          -vget (exactOps sqrt) (rotatedH (exactOps sqrt) A st) (st.j + 1) := by
        rw [hs]; field_simp; ring
      show _ + vget _ (rotatedH (exactOps sqrt) A st) st.j * _ + _ = _
      linear_combination
        (-(vget (exactOps sqrt) (zhat (exactOps sqrt)
            (vget (exactOps sqrt) (gmresStep (exactOps sqrt) self A st).c)
            (vget (exactOps sqrt) (gmresStep (exactOps sqrt) self A st).s)
            (column (gmresStep (exactOps sqrt) self A st).V) st.j) p)) * h1 +
        (vget (exactOps sqrt) (column (gmresStep (exactOps sqrt) self A st).V (st.j + 1)) p) *
          h2
    · have hi1 : i < st.j := by omega
      rw [hold i (by omega), hHne i hij, hinv.hess i hi1 p]
      exact Finset.sum_congr rfl (fun l hl => by
        rw [hzf l (by have := Finset.mem_range.mp hl; omega)])
  · -- unit
    rw [gmresStep_j]
    refine zhat_succ_unit sqrt n _ _ _ st.j hlen1 hone ?_ (horth1 _ _ (Nat.le_refl _)
      (Nat.le_refl _) |>.trans (if_pos rfl)) ?_
    · rw [hzh st.j (Nat.le_refl _)]; exact hinv.unit
    · rw [hzh st.j (Nat.le_refl _)]
      refine hinv.perp _ (hlen1 _ (Nat.le_refl _)) (fun l hl => ?_)
      rw [← hold l hl, horth1 l (st.j + 1) (by omega) (Nat.le_refl _), if_neg (by omega)]
  · -- perp
    intro u hu hperp
    rw [gmresStep_j] at hperp ⊢
    rw [inner_prod_zhat_succ sqrt n _ _ _ st.j hlen1 u hu, hperp (st.j + 1) (Nat.le_refl _),
      hzh st.j (Nat.le_refl _),
      hinv.perp u hu (fun l hl => by rw [← hold l hl]; exact hperp l (by omega))]
    simp

end RotationStep

section CycleInvariant

variable {R : Type} [LinearOrderedField R] (sqrt : R → R)

theorem krylovInv_seed (hsq : IsSqrt sqrt) (self : uBlasKrylovSolver R)
    (A : uBlasSparseMatrix R) (n : Nat) (r : List R) (hr : r.length = n) (beta0 : R)
    (st0 : GmresState R) (hws : WellSized self n st0)
    (hbeta : norm_2 (exactOps sqrt) r ≠ 0) :
    KrylovInv sqrt A n
      (gmresSeed (exactOps sqrt) self r (norm_2 (exactOps sqrt) r) beta0 st0) := by
  have hcol : column (gmresSeed (exactOps sqrt) self r (norm_2 (exactOps sqrt) r) beta0 st0).V 0 =
      vdiv (exactOps sqrt) r (norm_2 (exactOps sqrt) r) := by
    show column (st0.V.set 0 _) 0 = _
    rw [column_set_eq _ _ _ (by rw [hws.2.1]; omega)]
  have hunit : inner_prod (exactOps sqrt) (vdiv (exactOps sqrt) r (norm_2 (exactOps sqrt) r))
      (vdiv (exactOps sqrt) r (norm_2 (exactOps sqrt) r)) = 1 := by
    rw [inner_prod_vdiv_left sqrt n _ _ _ hr (by rw [length_vdiv, hr]),
      inner_prod_comm sqrt n _ _ hr (by rw [length_vdiv, hr]),
      inner_prod_vdiv_left sqrt n _ _ _ hr hr, ← norm_2_mul_self sqrt hsq]
    field_simp
  have hj : (gmresSeed (exactOps sqrt) self r (norm_2 (exactOps sqrt) r) beta0 st0).j = 0 := rfl
  refine ⟨?_, ?_, ?_, ?_, ?_, ?_, ?_, ?_⟩
  · intro l hl
    rw [hj] at hl
    obtain rfl := Nat.le_zero.mp hl
    rw [hcol, length_vdiv, hr]
  · intro l k hl hk
    rw [hj] at hl hk
    obtain rfl := Nat.le_zero.mp hl
    obtain rfl := Nat.le_zero.mp hk
    rw [hcol, if_pos rfl]
    exact hunit
  · intro i hi
    rw [hj] at hi
    exact absurd hi (Nat.not_lt_zero i)
  · intro i hi
    rw [hj] at hi
    exact absurd hi (Nat.not_lt_zero i)
  · intro p
    rw [hj, Finset.sum_range_zero, zero_add]
    show vget _ r p = vget _ ((vzero _ _).set 0 _) 0 * vget _ (column _ 0) p
    rw [vget_set_eq _ _ _ _ (by simp [vzero]), hcol, vget_vdiv]
    field_simp
  · intro i hi
    rw [hj] at hi
    exact absurd hi (Nat.not_lt_zero i)
  · rw [hj]
    show inner_prod _ (column _ 0) (column _ 0) = 1
    rw [hcol]
    exact hunit
  · intro u _ hperp
    rw [hj] at hperp ⊢
    exact hperp 0 (Nat.le_refl 0)

/-- What holds of every state of the inner loop of a restart cycle in which nothing is
divided by zero. -/
theorem krylovInv_inner (hsq : IsSqrt sqrt) (self : uBlasKrylovSolver R)
    {A : uBlasSparseMatrix R} {n : Nat} (hA : IsLinear A n) (r : List R) (hr : r.length = n)
    (beta0 : R) (st0 : GmresState R) (hws : WellSized self n st0)
    (hbeta : norm_2 (exactOps sqrt) r ≠ 0) (m : Nat)
    (hok : stepsOK (exactOps sqrt) self A (NoZeroDivisor (exactOps sqrt) A)
      (norm_2 (exactOps sqrt) r) m
      (gmresSeed (exactOps sqrt) self r (norm_2 (exactOps sqrt) r) beta0 st0)) :
    CycleSizes (exactOps sqrt) self
        (gmresInner (exactOps sqrt) self A (norm_2 (exactOps sqrt) r) m
          (gmresSeed (exactOps sqrt) self r (norm_2 (exactOps sqrt) r) beta0 st0)) ∧
    KrylovInv sqrt A n
        (gmresInner (exactOps sqrt) self A (norm_2 (exactOps sqrt) r) m
          (gmresSeed (exactOps sqrt) self r (norm_2 (exactOps sqrt) r) beta0 st0)) ∧
    (gmresInner (exactOps sqrt) self A (norm_2 (exactOps sqrt) r) m
          (gmresSeed (exactOps sqrt) self r (norm_2 (exactOps sqrt) r) beta0 st0)).r = r :=
  gmresInner_invariant (exactOps sqrt) self A (NoZeroDivisor (exactOps sqrt) A)
    (fun st => CycleSizes (exactOps sqrt) self st ∧ KrylovInv sqrt A n st ∧ st.r = r)
    (norm_2 (exactOps sqrt) r)
    (fun st hst hg hnz =>
      ⟨cycleSizes_step (exactOps sqrt) self A _ st hst.1 hg,
        krylovInv_step sqrt hsq self hA st hst.1 hst.2.1
          (by rw [hst.1.1]; exact (gmresInnerGuard_true (exactOps sqrt) self _ st hg).1) hnz,
        by rw [gmresStep_r]; exact hst.2.2⟩) m _
    ⟨cycleSizes_seed (exactOps sqrt) self n r _ beta0 st0 hws,
      krylovInv_seed sqrt hsq self A n r hr beta0 st0 hws hbeta, rfl⟩ hok

end CycleInvariant

section BackSubstitution

variable {R : Type} [LinearOrderedField R] (sqrt : R → R)

theorem inplace_solve_eq (H : List (List R)) (k : Nat) (g : List R) :
    inplace_solve (exactOps sqrt) H k g =
      (List.range k).reverse.foldl (fun g n => backSubstitute (exactOps sqrt) H n g) g := rfl

theorem inplace_solve_zero (H : List (List R)) (g : List R) :
    inplace_solve (exactOps sqrt) H 0 g = g := rfl

theorem inplace_solve_succ (H : List (List R)) (k : Nat) (g : List R) :
    inplace_solve (exactOps sqrt) H (k + 1) g =
      inplace_solve (exactOps sqrt) H k (backSubstitute (exactOps sqrt) H k g) := by
  rw [inplace_solve_eq, inplace_solve_eq, List.range_succ, List.reverse_append]
  rfl

theorem eliminateAbove_spec (col : List R) (t : R) (g : List R) (q : Nat) :
    q ≤ g.length →
    (eliminateAbove (exactOps sqrt) col t q g).length = g.length ∧
    ∀ i : Nat, vget (exactOps sqrt) (eliminateAbove (exactOps sqrt) col t q g) i =
      if i < q then vget (exactOps sqrt) g i - vget (exactOps sqrt) col i * t
      else vget (exactOps sqrt) g i := by
  induction q with
  | zero => intro _; exact ⟨rfl, fun i => by simp [eliminateAbove]⟩
  | succ q ih =>
    intro hq
    obtain ⟨hlen, hget⟩ := ih (Nat.le_of_succ_le hq)
    have hstep : eliminateAbove (exactOps sqrt) col t (q + 1) g =
        (eliminateAbove (exactOps sqrt) col t q g).set q
          (vget (exactOps sqrt) (eliminateAbove (exactOps sqrt) col t q g) q -
            vget (exactOps sqrt) col q * t) := by
      simp [eliminateAbove, List.range_succ]
    rw [hstep]
    refine ⟨by rw [List.length_set, hlen], fun i => ?_⟩
    by_cases hiq : i = q
    · subst hiq
      rw [vget_set_eq _ _ _ _ (by rw [hlen]; omega), hget i, if_neg (Nat.lt_irrefl i),
        if_pos (Nat.lt_succ_self i)]
    · rw [vget_set_ne _ _ _ _ _ (fun h => hiq h.symm), hget i]
      by_cases hlt : i < q
      · rw [if_pos hlt, if_pos (Nat.lt_succ_of_lt hlt)]
      · rw [if_neg hlt, if_neg (by omega)]

theorem backSubstitute_spec (H : List (List R)) (n : Nat) (g : List R) (hn : n < g.length) :
    (backSubstitute (exactOps sqrt) H n g).length = g.length ∧
    ∀ i : Nat, vget (exactOps sqrt) (backSubstitute (exactOps sqrt) H n g) i =
      if i < n then vget (exactOps sqrt) g i - vget (exactOps sqrt) (column H n) i *
          (vget (exactOps sqrt) g n / vget (exactOps sqrt) (column H n) n)
      else if i = n then vget (exactOps sqrt) g n / vget (exactOps sqrt) (column H n) n
      else vget (exactOps sqrt) g i := by
  obtain ⟨hlen, hget⟩ := eliminateAbove_spec sqrt (column H n)
    (vget (exactOps sqrt) g n / vget (exactOps sqrt) (column H n) n)
    (g.set n (vget (exactOps sqrt) g n / vget (exactOps sqrt) (column H n) n)) n
    (by rw [List.length_set]; exact Nat.le_of_lt hn)
  refine ⟨by rw [← List.length_set g n]; exact hlen, fun i => ?_⟩
  refine (hget i).trans ?_
  by_cases hlt : i < n
  · rw [if_pos hlt, if_pos hlt, vget_set_ne _ _ _ _ _ (by omega)]
  · rw [if_neg hlt, if_neg hlt]
    by_cases hin : i = n
    · subst hin
      rw [if_pos rfl, vget_set_eq _ _ _ _ hn]
    · rw [if_neg hin, vget_set_ne _ _ _ _ _ (fun h => hin h.symm)]

/-- The back-substitution solves the leading `k × k` upper triangular system and leaves
the entries of `gamma` from `k` on as they were. -/
theorem inplace_solve_spec (H : List (List R)) (k : Nat) :
    (∀ i : Nat, i < k → vget (exactOps sqrt) (column H i) i ≠ 0) →
    ∀ g : List R, k ≤ g.length →
    (inplace_solve (exactOps sqrt) H k g).length = g.length ∧
    (∀ l : Nat, l < k →
      ∑ i in Finset.Ico l k, vget (exactOps sqrt) (column H i) l *
        vget (exactOps sqrt) (inplace_solve (exactOps sqrt) H k g) i =
      vget (exactOps sqrt) g l) ∧
    ∀ i : Nat, k ≤ i →
      vget (exactOps sqrt) (inplace_solve (exactOps sqrt) H k g) i = vget (exactOps sqrt) g i := by
  induction k with
  | zero =>
    intro _ g _
    exact ⟨rfl, fun l hl => absurd hl (Nat.not_lt_zero l), fun i _ => rfl⟩
  | succ k ih =>
    intro hdiag g hk
    obtain ⟨hblen, hbget⟩ := backSubstitute_spec sqrt H k g hk
    obtain ⟨hlen, hsolve, hrest⟩ := ih (fun i hi => hdiag i (Nat.lt_succ_of_lt hi))
      (backSubstitute (exactOps sqrt) H k g) (by rw [hblen]; exact Nat.le_of_succ_le hk)
    rw [inplace_solve_succ]
    refine ⟨by rw [hlen, hblen], fun l hl => ?_, fun i hi => ?_⟩
    · have hgk := hrest k (Nat.le_refl k)
      rw [hbget k, if_neg (Nat.lt_irrefl k), if_pos rfl] at hgk
      rw [Finset.sum_Ico_succ_top (Nat.le_of_lt_succ hl), hgk]
      by_cases hlk : l = k
      · subst hlk
        rw [Finset.Ico_self, Finset.sum_empty, zero_add]
        field_simp [hdiag l (Nat.lt_succ_self l)]
      · have hl1 : l < k := by omega
        rw [hsolve l hl1, hbget l, if_pos hl1]
        ring
    · rw [hrest i (by omega), hbget i, if_neg (by omega), if_neg (by omega)]

end BackSubstitution

section UpdateOfX

variable {R : Type} [LinearOrderedField R] (sqrt : R → R)

theorem addColumns_succ (V : List (List R)) (k : Nat) (g x : List R) :
    addColumns (exactOps sqrt) V (k + 1) g x =
      vadd (exactOps sqrt) (addColumns (exactOps sqrt) V k g x)
        (vscale (exactOps sqrt) (vget (exactOps sqrt) g k) (column V k)) := by
  simp only [addColumns, List.range_succ, List.foldl_append, List.foldl_cons, List.foldl_nil]
  congr 1
  simp only [vscale, exactOps_mul]
  exact List.map_congr_left (fun t _ => mul_comm _ _)

/-- The update `x += V[:, 0..k)·g`, entry by entry, and its image under a linear `A`. -/
theorem addColumns_spec {A : uBlasSparseMatrix R} {n : Nat} (hA : IsLinear A n)
    (V : List (List R)) (g x : List R) (hx : x.length = n) (k : Nat) :
    (∀ l : Nat, l < k → (column V l).length = n) →
    (addColumns (exactOps sqrt) V k g x).length = n ∧
    (∀ p : Nat, vget (exactOps sqrt) (addColumns (exactOps sqrt) V k g x) p =
      vget (exactOps sqrt) x p +
        ∑ i in Finset.range k, vget (exactOps sqrt) g i * vget (exactOps sqrt) (column V i) p) ∧
    ∀ p : Nat, vget (exactOps sqrt) (A.prod (addColumns (exactOps sqrt) V k g x)) p =
      vget (exactOps sqrt) (A.prod x) p +
        ∑ i in Finset.range k, vget (exactOps sqrt) g i *
          vget (exactOps sqrt) (A.prod (column V i)) p := by
  induction k with
  | zero =>
    intro _
    exact ⟨hx, fun p => by simp [addColumns], fun p => by simp [addColumns]⟩
  | succ k ih =>
    intro hcols
    obtain ⟨hlen, hget, hprod⟩ := ih (fun l hl => hcols l (Nat.lt_succ_of_lt hl))
    have hck := hcols k (Nat.lt_succ_self k)
    have hsc : (vscale (exactOps sqrt) (vget (exactOps sqrt) g k) (column V k)).length = n := by
      rw [length_vscale, hck]
    rw [addColumns_succ]
    refine ⟨?_, fun p => ?_, fun p => ?_⟩
    · rw [length_vadd sqrt _ _ (by rw [hlen, hsc]), hlen]
    · rw [vget_vadd sqrt _ _ (by rw [hlen, hsc]), hget p, vget_vscale, Finset.sum_range_succ]
      ring
    · rw [hA.prod_vadd sqrt _ _ hlen hsc, hA.prod_vscale sqrt _ _ hck,
        vget_vadd sqrt _ _ (by rw [hA.length _ hlen, length_vscale, hA.length _ hck]),
        hprod p, vget_vscale, Finset.sum_range_succ]
      ring

theorem sqrt_mul_self_eq_abs (hsq : IsSqrt sqrt) (a : R) : sqrt (a * a) = |a| := by
  obtain ⟨h0, h1⟩ := hsq (a * a) (mul_self_nonneg a)
  have h2 : |sqrt (a * a)| = |a| := abs_eq_abs.mpr (mul_self_eq_mul_self_iff.mp h1)
  rwa [abs_of_nonneg h0] at h2

theorem sum_triangle (k : Nat) (f : Nat → Nat → R) :
    ∑ i in Finset.range k, ∑ l in Finset.range (i + 1), f i l =
      ∑ l in Finset.range k, ∑ i in Finset.Ico l k, f i l := by
  refine Finset.sum_comm' (fun i l => ?_)
  simp only [Finset.mem_range, Finset.mem_Ico]
  omega

end UpdateOfX

section CycleResidual

variable {R : Type} [LinearOrderedField R] (sqrt : R → R)

/-- After the update of `x` that ends a restart cycle without division by zero, the true
residual is `γ(k)·ẑ k` for a unit vector `ẑ k`, so its norm is `|γ(k)|`; and the sizes of
the state are kept. -/
theorem gmresCycle_residual (hsq : IsSqrt sqrt) (self : uBlasKrylovSolver R)
    {A : uBlasSparseMatrix R} {n : Nat} (hA : IsLinear A n) (b : List R) (hb : b.length = n)
    (beta0 : R) (st0 : GmresState R) (hws : WellSized self n st0)
    (hbeta : norm_2 (exactOps sqrt) (residual (exactOps sqrt) A st0.x b) ≠ 0)
    (hok : stepsOK (exactOps sqrt) self A (NoZeroDivisor (exactOps sqrt) A)
      (norm_2 (exactOps sqrt) (residual (exactOps sqrt) A st0.x b)) self.restart
      (gmresSeed (exactOps sqrt) self (residual (exactOps sqrt) A st0.x b)
        (norm_2 (exactOps sqrt) (residual (exactOps sqrt) A st0.x b)) beta0 st0)) :
    norm_2 (exactOps sqrt) (residual (exactOps sqrt) A
        (gmresCycle (exactOps sqrt) self A (residual (exactOps sqrt) A st0.x b)
          (norm_2 (exactOps sqrt) (residual (exactOps sqrt) A st0.x b)) beta0 st0).x b) =
      |vget (exactOps sqrt)
        (gmresInner (exactOps sqrt) self A
          (norm_2 (exactOps sqrt) (residual (exactOps sqrt) A st0.x b)) self.restart
          (gmresSeed (exactOps sqrt) self (residual (exactOps sqrt) A st0.x b)
            (norm_2 (exactOps sqrt) (residual (exactOps sqrt) A st0.x b)) beta0 st0)).gamma
        (gmresInner (exactOps sqrt) self A
          (norm_2 (exactOps sqrt) (residual (exactOps sqrt) A st0.x b)) self.restart
          (gmresSeed (exactOps sqrt) self (residual (exactOps sqrt) A st0.x b)
            (norm_2 (exactOps sqrt) (residual (exactOps sqrt) A st0.x b)) beta0
            st0)).subiteration| ∧
    WellSized self n
      (gmresCycle (exactOps sqrt) self A (residual (exactOps sqrt) A st0.x b)
        (norm_2 (exactOps sqrt) (residual (exactOps sqrt) A st0.x b)) beta0 st0) := by
  have hr : (residual (exactOps sqrt) A st0.x b).length = n :=
    length_residual sqrt hA st0.x b hws.1 hb
  obtain ⟨hsz, hinv, hr1⟩ := krylovInv_inner sqrt hsq self hA _ hr beta0 st0 hws hbeta
    self.restart hok
  have hx1 := gmresInner_x (exactOps sqrt) self A
    (norm_2 (exactOps sqrt) (residual (exactOps sqrt) A st0.x b)) self.restart
    (gmresSeed (exactOps sqrt) self (residual (exactOps sqrt) A st0.x b)
      (norm_2 (exactOps sqrt) (residual (exactOps sqrt) A st0.x b)) beta0 st0)
  rw [gmresCycle_eq]
  generalize gmresInner (exactOps sqrt) self A
    (norm_2 (exactOps sqrt) (residual (exactOps sqrt) A st0.x b)) self.restart
    (gmresSeed (exactOps sqrt) self (residual (exactOps sqrt) A st0.x b)
      (norm_2 (exactOps sqrt) (residual (exactOps sqrt) A st0.x b)) beta0 st0) = st1
    at hsz hinv hr1 hx1
  have hx1 : st1.x = st0.x := hx1
  obtain ⟨hjs, hjr, hVl, hHl, hhl, hcl, hsl, hgl, hzero⟩ := hsz
  obtain ⟨hglen, hsolve, hrest⟩ := inplace_solve_spec sqrt st1.H st1.subiteration
    (fun i hi => hinv.diag i (by omega)) st1.gamma (by omega)
  obtain ⟨hxlen, _, hprod⟩ := addColumns_spec sqrt hA st1.V
    (inplace_solve (exactOps sqrt) st1.H st1.subiteration st1.gamma) st1.x
    (by rw [hx1]; exact hws.1) st1.subiteration (fun l hl => hinv.cols l (by omega))
  have hzlen : (zhat (exactOps sqrt) (vget (exactOps sqrt) st1.c) (vget (exactOps sqrt) st1.s)
      (column st1.V) st1.j).length = n := length_zhat sqrt n _ _ _ _ hinv.cols
  have hvec : residual (exactOps sqrt) A
      (addColumns (exactOps sqrt) st1.V st1.subiteration
        (inplace_solve (exactOps sqrt) st1.H st1.subiteration st1.gamma) st1.x) b =
      vscale (exactOps sqrt) (vget (exactOps sqrt) st1.gamma st1.j)
        (zhat (exactOps sqrt) (vget (exactOps sqrt) st1.c) (vget (exactOps sqrt) st1.s)
          (column st1.V) st1.j) := by
    apply vec_ext sqrt
    · rw [length_residual sqrt hA _ b hxlen hb, length_vscale, hzlen]
    · intro p _
      have hres0 := vget_residual sqrt hA st0.x b hws.1 hb p
      rw [← hr1, hinv.res p, ← hx1] at hres0
      rw [vget_residual sqrt hA _ b hxlen hb p, hprod p, vget_vscale]
      have hswap : ∑ i in Finset.range st1.subiteration,
          vget (exactOps sqrt) (inplace_solve (exactOps sqrt) st1.H st1.subiteration st1.gamma) i *
            vget (exactOps sqrt) (A.prod (column st1.V i)) p =
          ∑ l in Finset.range st1.j, vget (exactOps sqrt) st1.gamma l *
            vget (exactOps sqrt) (zfin (exactOps sqrt) (vget (exactOps sqrt) st1.c)
              (vget (exactOps sqrt) st1.s) (column st1.V) l) p := by
        rw [hjs]
        calc ∑ i in Finset.range st1.subiteration,
              vget (exactOps sqrt)
                (inplace_solve (exactOps sqrt) st1.H st1.subiteration st1.gamma) i *
                vget (exactOps sqrt) (A.prod (column st1.V i)) p
            = ∑ i in Finset.range st1.subiteration, ∑ l in Finset.range (i + 1),
                vget (exactOps sqrt) (column st1.H i) l *
                  vget (exactOps sqrt)
                    (inplace_solve (exactOps sqrt) st1.H st1.subiteration st1.gamma) i *
                  vget (exactOps sqrt) (zfin (exactOps sqrt) (vget (exactOps sqrt) st1.c)
                    (vget (exactOps sqrt) st1.s) (column st1.V) l) p := by
              refine Finset.sum_congr rfl (fun i hi => ?_)
              rw [hinv.hess i (by have := Finset.mem_range.mp hi; omega) p, Finset.mul_sum]
              exact Finset.sum_congr rfl (fun l _ => by ring)
          _ = ∑ l in Finset.range st1.subiteration, ∑ i in Finset.Ico l st1.subiteration,
                vget (exactOps sqrt) (column st1.H i) l *
                  vget (exactOps sqrt)
                    (inplace_solve (exactOps sqrt) st1.H st1.subiteration st1.gamma) i *
                  vget (exactOps sqrt) (zfin (exactOps sqrt) (vget (exactOps sqrt) st1.c)
                    (vget (exactOps sqrt) st1.s) (column st1.V) l) p :=
              sum_triangle _ _
          _ = ∑ l in Finset.range st1.subiteration, vget (exactOps sqrt) st1.gamma l *
                vget (exactOps sqrt) (zfin (exactOps sqrt) (vget (exactOps sqrt) st1.c)
                  (vget (exactOps sqrt) st1.s) (column st1.V) l) p := by
              refine Finset.sum_congr rfl (fun l hl => ?_)
              rw [← Finset.sum_mul, hsolve l (Finset.mem_range.mp hl)]
      rw [hswap]
      linear_combination (-1 : R) * hres0
  refine ⟨?_, ?_⟩
  · show norm_2 _ (residual _ A (addColumns _ _ _ _ _) b) = _
    rw [hvec, ← hjs]
    unfold norm_2
    rw [inner_prod_vscale_left sqrt n _ _ _ hzlen (by rw [length_vscale, hzlen]),
      inner_prod_comm sqrt n _ _ hzlen (by rw [length_vscale, hzlen]),
      inner_prod_vscale_left sqrt n _ _ _ hzlen hzlen, hinv.unit, mul_one]
    exact sqrt_mul_self_eq_abs sqrt hsq _
  · exact ⟨hxlen, hVl, hHl, hhl, hcl, hsl⟩

end CycleResidual

section GmresSound

variable {R : Type} [LinearOrderedField R] (sqrt : R → R)

/-- A restart cycle that ends with `converged` set has made a step. -/
theorem gmresInner_stepped (self : uBlasKrylovSolver R) (A : uBlasSparseMatrix R)
    (r : List R) (beta beta0 : R) (st0 : GmresState R) (h0 : st0.converged = false) (m : Nat)
    (hc : (gmresInner (exactOps sqrt) self A beta m
      (gmresSeed (exactOps sqrt) self r beta beta0 st0)).converged = true) :
    0 < (gmresInner (exactOps sqrt) self A beta m
      (gmresSeed (exactOps sqrt) self r beta beta0 st0)).subiteration := by
  have h := gmresInner_invariant (exactOps sqrt) self A (fun _ => True)
    (fun st => st.subiteration = 0 → st.converged = false) beta
    (fun st _ _ _ h => by
      rw [gmresStep_subiteration] at h
      exact absurd h (Nat.succ_ne_zero _)) m
    (gmresSeed (exactOps sqrt) self r beta beta0 st0) (fun _ => h0)
    (stepsOK_trivial (exactOps sqrt) self A beta m _)
  rcases Nat.eq_zero_or_pos (gmresInner (exactOps sqrt) self A beta m
    (gmresSeed (exactOps sqrt) self r beta beta0 st0)).subiteration with hz | hp
  · rw [h hz] at hc
    exact absurd hc (by simp)
  · exact hp

/-- What a restart cycle without division by zero establishes: the sizes are kept, and if
the cycle ends with `converged` set then it has made a step, the true residual norm of the
new `x` is `r_norm`, and `r_norm` has passed the convergence test. -/
theorem gmresCycle_sound (hsq : IsSqrt sqrt) (self : uBlasKrylovSolver R)
    {A : uBlasSparseMatrix R} {n : Nat} (hA : IsLinear A n) (b : List R) (hb : b.length = n)
    (beta0 : R) (st0 : GmresState R) (hws : WellSized self n st0)
    (h0 : st0.converged = false)
    (hbeta : norm_2 (exactOps sqrt) (residual (exactOps sqrt) A st0.x b) ≠ 0)
    (hok : stepsOK (exactOps sqrt) self A (NoZeroDivisor (exactOps sqrt) A)
      (norm_2 (exactOps sqrt) (residual (exactOps sqrt) A st0.x b)) self.restart
      (gmresSeed (exactOps sqrt) self (residual (exactOps sqrt) A st0.x b)
        (norm_2 (exactOps sqrt) (residual (exactOps sqrt) A st0.x b)) beta0 st0)) :
    WellSized self n
      (gmresCycle (exactOps sqrt) self A (residual (exactOps sqrt) A st0.x b)
        (norm_2 (exactOps sqrt) (residual (exactOps sqrt) A st0.x b)) beta0 st0) ∧
    ((gmresCycle (exactOps sqrt) self A (residual (exactOps sqrt) A st0.x b)
        (norm_2 (exactOps sqrt) (residual (exactOps sqrt) A st0.x b)) beta0 st0).converged =
        true →
      norm_2 (exactOps sqrt) (residual (exactOps sqrt) A
          (gmresCycle (exactOps sqrt) self A (residual (exactOps sqrt) A st0.x b)
            (norm_2 (exactOps sqrt) (residual (exactOps sqrt) A st0.x b)) beta0 st0).x b) =
        (gmresCycle (exactOps sqrt) self A (residual (exactOps sqrt) A st0.x b)
          (norm_2 (exactOps sqrt) (residual (exactOps sqrt) A st0.x b)) beta0 st0).r_norm ∧
      convergenceTest (exactOps sqrt) self
        (gmresCycle (exactOps sqrt) self A (residual (exactOps sqrt) A st0.x b)
          (norm_2 (exactOps sqrt) (residual (exactOps sqrt) A st0.x b)) beta0 st0).r_norm
        beta0 = true ∧
      (gmresCycle (exactOps sqrt) self A (residual (exactOps sqrt) A st0.x b)
        (norm_2 (exactOps sqrt) (residual (exactOps sqrt) A st0.x b)) beta0 st0).iteration ≠
        0) := by
  obtain ⟨hnorm, hws1⟩ := gmresCycle_residual sqrt hsq self hA b hb beta0 st0 hws hbeta hok
  refine ⟨hws1, fun hc => ?_⟩
  have hpos := gmresInner_stepped sqrt self A (residual (exactOps sqrt) A st0.x b)
    (norm_2 (exactOps sqrt) (residual (exactOps sqrt) A st0.x b)) beta0 st0 h0 self.restart hc
  have hest := (estimate_is_gamma sqrt self A n (residual (exactOps sqrt) A st0.x b)
    (norm_2 (exactOps sqrt) (residual (exactOps sqrt) A st0.x b)) beta0 st0 hws self.restart
    _ rfl).1 hpos
  have hsz := cycleSizes_inner (exactOps sqrt) self A n (residual (exactOps sqrt) A st0.x b)
    (norm_2 (exactOps sqrt) (residual (exactOps sqrt) A st0.x b)) beta0 st0 hws self.restart
  have hcnt := gmresInner_counts (exactOps sqrt) self A
    (norm_2 (exactOps sqrt) (residual (exactOps sqrt) A st0.x b)) self.restart
    (gmresSeed (exactOps sqrt) self (residual (exactOps sqrt) A st0.x b)
      (norm_2 (exactOps sqrt) (residual (exactOps sqrt) A st0.x b)) beta0 st0)
  refine ⟨?_, gmresCycle_converged (exactOps sqrt) self A _ _ beta0 st0 h0 hc, ?_⟩
  · rw [hnorm, ← hsz.1]
    exact hest.symm
  · have hs0 : (gmresSeed (exactOps sqrt) self (residual (exactOps sqrt) A st0.x b)
        (norm_2 (exactOps sqrt) (residual (exactOps sqrt) A st0.x b)) beta0
        st0).subiteration = 0 := rfl
    rw [hs0] at hcnt
    have hne : (gmresInner (exactOps sqrt) self A
        (norm_2 (exactOps sqrt) (residual (exactOps sqrt) A st0.x b)) self.restart
        (gmresSeed (exactOps sqrt) self (residual (exactOps sqrt) A st0.x b)
          (norm_2 (exactOps sqrt) (residual (exactOps sqrt) A st0.x b)) beta0
          st0)).iteration ≠ 0 := by omega
    exact hne

/-- The outer loop of GMRES in exact arithmetic: a return with `converged` set has a true
residual that meets one of the tolerances, relative to the residual of the start
vector `x0`. -/
theorem gmresLoop_sound (hsq : IsSqrt sqrt) (self : uBlasKrylovSolver R)
    {A : uBlasSparseMatrix R} {n : Nat} (hA : IsLinear A n) (b : List R) (hb : b.length = n)
    (x0 : List R) (fuel : Nat) :
    ∀ (st : GmresState R) (e : EngineExit R), WellSized self n st →
      (st.iteration = 0 → st.x = x0) →
      (st.iteration ≠ 0 → st.beta0 = norm_2 (exactOps sqrt) (residual (exactOps sqrt) A x0 b)) →
      (st.converged = true →
        norm_2 (exactOps sqrt) (residual (exactOps sqrt) A st.x b) = st.r_norm ∧
        convergenceTest (exactOps sqrt) self st.r_norm st.beta0 = true ∧ st.iteration ≠ 0) →
      cyclesOK (exactOps sqrt) self A b fuel st →
      gmresLoop (exactOps sqrt) self A b fuel st = some e → e.converged = true →
      norm_2 (exactOps sqrt) (residual (exactOps sqrt) A e.x b) < self.atol ∨
      norm_2 (exactOps sqrt) (residual (exactOps sqrt) A e.x b) /
        norm_2 (exactOps sqrt) (residual (exactOps sqrt) A x0 b) < self.rtol := by
  have hexit : ∀ (st : GmresState R),
      (st.iteration ≠ 0 → st.beta0 = norm_2 (exactOps sqrt) (residual (exactOps sqrt) A x0 b)) →
      (st.converged = true →
        norm_2 (exactOps sqrt) (residual (exactOps sqrt) A st.x b) = st.r_norm ∧
        convergenceTest (exactOps sqrt) self st.r_norm st.beta0 = true ∧ st.iteration ≠ 0) →
      (gmresExit st).converged = true →
      norm_2 (exactOps sqrt) (residual (exactOps sqrt) A (gmresExit st).x b) < self.atol ∨
      norm_2 (exactOps sqrt) (residual (exactOps sqrt) A (gmresExit st).x b) /
        norm_2 (exactOps sqrt) (residual (exactOps sqrt) A x0 b) < self.rtol := by
    intro st hb0 hcv hc
    obtain ⟨h1, h2, h3⟩ := hcv hc
    show norm_2 _ (residual _ A st.x b) < _ ∨ norm_2 _ (residual _ A st.x b) / _ < _
    rw [h1, ← hb0 h3]
    simp only [convergenceTest, exactOps_lt, exactOps_div, Bool.or_eq_true,
      decide_eq_true_eq] at h2
    exact h2.symm
  induction fuel with
  | zero =>
    intro st e _ _ hb0 hcv _ he hc
    unfold gmresLoop at he
    split at he
    · exact absurd he (by simp)
    · have he1 := Option.some.inj he
      subst he1
      exact hexit st hb0 hcv hc
  | succ fuel ih =>
    intro st e hws hx hb0 hcv hok he hc
    cases hg : gmresGuard self st with
    | false =>
      unfold gmresLoop at he
      rw [if_neg (by simp [hg])] at he
      have he1 := Option.some.inj he
      subst he1
      exact hexit st hb0 hcv hc
    | true =>
      cases hlt : (exactOps sqrt).lt (norm_2 (exactOps sqrt) (residual (exactOps sqrt) A st.x b))
          self.atol with
      | true =>
        unfold gmresLoop at he
        rw [if_pos hg] at he
        have hlt1 : (exactOps sqrt).lt
            (norm_2 (exactOps sqrt) (axpy_prod (exactOps sqrt) A (vneg (exactOps sqrt) st.x) b false))
            self.atol = true := hlt
        simp only [hlt1, if_true] at he
        have he1 := Option.some.inj he
        subst he1
        left
        simpa using hlt
      | false =>
        rw [gmresLoop_succ (exactOps sqrt) self A b fuel st hg hlt] at he
        unfold cyclesOK at hok
        rw [if_pos hg, if_neg (by rw [hlt]; exact Bool.false_ne_true)] at hok
        obtain ⟨hbeta, hsteps, hrest⟩ := hok
        have hconv0 := (gmresGuard_true self st hg).2
        obtain ⟨hws1, hcv1⟩ := gmresCycle_sound sqrt hsq self hA b hb
          (if st.iteration = 0 then norm_2 (exactOps sqrt) (residual (exactOps sqrt) A st.x b)
            else st.beta0) st hws hconv0 hbeta hsteps
        have hb1 : (if st.iteration = 0 then
              norm_2 (exactOps sqrt) (residual (exactOps sqrt) A st.x b) else st.beta0) =
            norm_2 (exactOps sqrt) (residual (exactOps sqrt) A x0 b) := by
          split
          · next h0 => rw [hx h0]
          · next h0 => exact hb0 h0
        refine ih _ e hws1 ?_ ?_ ?_ hrest he hc
        · intro h0
          obtain ⟨h1, h2⟩ := gmresCycle_iteration_zero (exactOps sqrt) self A _ _ _ st h0
          rw [h1]
          exact hx h2
        · intro _
          rw [gmresCycle_beta0]
          exact hb1
        · intro hc1
          rw [gmresCycle_beta0]
          exact hcv1 hc1

theorem wellSized_gmresInit (self : uBlasKrylovSolver R) (A : uBlasSparseMatrix R) (n : Nat)
    (x : List R) (hx : x.length = n) :
    WellSized self n (gmresInit (exactOps sqrt) self A x) := by
  refine ⟨hx, ?_, ?_, ?_, ?_, ?_⟩ <;> simp [gmresInit, vzero]

/-- C12 (soundness of the `converged` flag of GMRES, in exact arithmetic).  Let `A` be
linear on vectors of length `n` and `b` of length `n`.  First, for every restart cycle in
which nothing is divided by zero (`beta`, every `h(j+1)` and every `nu` non-zero), from any
state of the right sizes: after the update of `x` that ends the cycle the true residual
norm `‖b − A·x‖₂` is `|γ(k)|`, `k` the number of inner steps of the cycle, and for `k ≥ 1`
this is the estimate `r_norm`.  Hence, second, whenever `gmresSolver`, started from the zero
vector as `solve` starts it, returns with `converged = true` from a run without division
by zero, the returned `x` has `‖b − A·x‖₂ < atol` or `‖b − A·x‖₂ / ‖b‖₂ < rtol`. -/
theorem gmres_converged_sound (hsq : IsSqrt sqrt) (self : uBlasKrylovSolver R)
    {A : uBlasSparseMatrix R} {n : Nat} (hA : IsLinear A n) (b : List R) (hb : b.length = n) :
    (∀ (beta0 : R) (st0 : GmresState R), WellSized self n st0 →
      norm_2 (exactOps sqrt) (residual (exactOps sqrt) A st0.x b) ≠ 0 →
      stepsOK (exactOps sqrt) self A (NoZeroDivisor (exactOps sqrt) A)
        (norm_2 (exactOps sqrt) (residual (exactOps sqrt) A st0.x b)) self.restart
        (gmresSeed (exactOps sqrt) self (residual (exactOps sqrt) A st0.x b)
          (norm_2 (exactOps sqrt) (residual (exactOps sqrt) A st0.x b)) beta0 st0) →
      norm_2 (exactOps sqrt) (residual (exactOps sqrt) A
          (gmresCycle (exactOps sqrt) self A (residual (exactOps sqrt) A st0.x b)
            (norm_2 (exactOps sqrt) (residual (exactOps sqrt) A st0.x b)) beta0 st0).x b) =
        |vget (exactOps sqrt)
          (gmresInner (exactOps sqrt) self A
            (norm_2 (exactOps sqrt) (residual (exactOps sqrt) A st0.x b)) self.restart
            (gmresSeed (exactOps sqrt) self (residual (exactOps sqrt) A st0.x b)
              (norm_2 (exactOps sqrt) (residual (exactOps sqrt) A st0.x b)) beta0 st0)).gamma
          (gmresCycle (exactOps sqrt) self A (residual (exactOps sqrt) A st0.x b)
            (norm_2 (exactOps sqrt) (residual (exactOps sqrt) A st0.x b)) beta0
            st0).subiteration| ∧
      (1 ≤ (gmresCycle (exactOps sqrt) self A (residual (exactOps sqrt) A st0.x b)
          (norm_2 (exactOps sqrt) (residual (exactOps sqrt) A st0.x b)) beta0
          st0).subiteration →
        norm_2 (exactOps sqrt) (residual (exactOps sqrt) A
          (gmresCycle (exactOps sqrt) self A (residual (exactOps sqrt) A st0.x b)
            (norm_2 (exactOps sqrt) (residual (exactOps sqrt) A st0.x b)) beta0 st0).x b) =
        (gmresCycle (exactOps sqrt) self A (residual (exactOps sqrt) A st0.x b)
          (norm_2 (exactOps sqrt) (residual (exactOps sqrt) A st0.x b)) beta0 st0).r_norm)) ∧
    (∀ (fuel : Nat) (e : EngineExit R),
      cyclesOK (exactOps sqrt) self A b fuel
        (gmresInit (exactOps sqrt) self A (vzero (exactOps sqrt) n)) →
      (gmresSolver (exactOps sqrt) self A fuel (vzero (exactOps sqrt) n) b).2 = some e →
      e.converged = true →
      norm_2 (exactOps sqrt) (residual (exactOps sqrt) A e.x b) < self.atol ∨
      norm_2 (exactOps sqrt) (residual (exactOps sqrt) A e.x b) / norm_2 (exactOps sqrt) b <
        self.rtol) := by
  refine ⟨fun beta0 st0 hws hbeta hok => ?_, fun fuel e hok he hc => ?_⟩
  · obtain ⟨hnorm, _⟩ := gmresCycle_residual sqrt hsq self hA b hb beta0 st0 hws hbeta hok
    refine ⟨hnorm, fun hk => ?_⟩
    have hest := (estimate_is_gamma sqrt self A n (residual (exactOps sqrt) A st0.x b)
      (norm_2 (exactOps sqrt) (residual (exactOps sqrt) A st0.x b)) beta0 st0 hws self.restart
      _ rfl).1 hk
    have hsz := cycleSizes_inner (exactOps sqrt) self A n (residual (exactOps sqrt) A st0.x b)
      (norm_2 (exactOps sqrt) (residual (exactOps sqrt) A st0.x b)) beta0 st0 hws self.restart
    rw [hnorm, ← hsz.1]
    exact hest.symm
  · have h := gmresLoop_sound sqrt hsq self hA b hb (vzero (exactOps sqrt) n) fuel
      (gmresInit (exactOps sqrt) self A (vzero (exactOps sqrt) n)) e
      (wellSized_gmresInit sqrt self A n _ (length_vzero sqrt n)) (fun _ => rfl)
      (fun h => absurd rfl h) (fun h => absurd h (by simp [gmresInit])) hok he hc
    rw [residual_vzero sqrt hA b hb] at h
    exact h

end GmresSound

section GmresSoundWitness

/-- C12 at work over the real numbers: GMRES with restart cycles of one step on the system
`[[0, 1], [1, 0]]·x = [1, 0]`, which returns `x = 0` with `converged = true` after one
iteration, the residual norm `1` being below `rtol·‖b‖₂ = 2`. -/
theorem gmres_converged_sound_witness :
    cyclesOK (exactOps Real.sqrt) (onePass ℝ) (reversal ℝ 2) [1, 0] 1
        (gmresInit (exactOps Real.sqrt) (onePass ℝ) (reversal ℝ 2)
          (vzero (exactOps Real.sqrt) 2)) ∧
    (gmresSolver (exactOps Real.sqrt) (onePass ℝ) (reversal ℝ 2) 1
        (vzero (exactOps Real.sqrt) 2) [1, 0]).2 =
      some { x := [0, 0], iterations := 1, converged := true, r_norm := 1, r0_norm := 1 } ∧
    (norm_2 (exactOps Real.sqrt)
          (residual (exactOps Real.sqrt) (reversal ℝ 2) [0, 0] [1, 0]) < (onePass ℝ).atol ∨
      norm_2 (exactOps Real.sqrt)
          (residual (exactOps Real.sqrt) (reversal ℝ 2) [0, 0] [1, 0]) /
        norm_2 (exactOps Real.sqrt) [1, 0] < (onePass ℝ).rtol) :=
  have hok : cyclesOK (exactOps Real.sqrt) (onePass ℝ) (reversal ℝ 2) [1, 0] 1
      (gmresInit (exactOps Real.sqrt) (onePass ℝ) (reversal ℝ 2)
        (vzero (exactOps Real.sqrt) 2)) := by
    simp [cyclesOK, stepsOK, NoZeroDivisor, residual, gmresSeed, givensNu, rotatedH, arnoldiH,
      arnoldiW, gmresGuard, gmresInit, gmresInnerGuard, axpy_prod, gramSchmidt, applyGivens,
      onePass, reversal, vzero, vdiv, vget, vneg, vadd, column, inner_prod, vsub, vscale,
      norm_2, List.range, List.range.loop]
  have he : (gmresSolver (exactOps Real.sqrt) (onePass ℝ) (reversal ℝ 2) 1
      (vzero (exactOps Real.sqrt) 2) [1, 0]).2 =
      some { x := [0, 0], iterations := 1, converged := true, r_norm := 1, r0_norm := 1 } := by
    simp [gmresSolver, gmresLoop, gmresGuard, gmresInit, gmresCycle, gmresInner,
      gmresInnerGuard, gmresStep, gmresExit, axpy_prod, inplace_solve, addColumns,
      gramSchmidt, applyGivens, onePass, reversal, vzero, vdiv, vget, vneg, vadd, column,
      inner_prod, vsub, vscale, norm_2, List.range, List.range.loop]
  have h := (gmres_converged_sound Real.sqrt isSqrt_real (onePass ℝ) (reversal_isLinear 2)
    [1, 0] rfl).2 1 _ hok he rfl
  ⟨hok, he, by dsimp only at h; exact h⟩

end GmresSoundWitness

end Dolfin
